import Mathlib

set_option maxRecDepth 100000

/-!
# A shallow embedding of the uHash open-addressing hash table (`src/include/uhash.h`)

This file models the macro-generated hash table engine of uLib for the integer
instantiation used by the repository's tests (`UHASH_INIT(IntHash, uint32_t,
uint32_t, uhash_int32_hash, uhash_identical)`): keys and values are machine
integers, the equality function is `==`, and the hash function is an arbitrary
function `hash : Nat → Nat` (the `uhash_int32_hash` of the tests is the
identity on 32-bit values).  `ulib_uint` is the default 32-bit configuration,
so `ULIB_UINT_MAX = 2^32 - 1`.

Machine arithmetic notes:
* Probe indices are always reduced by `&&& (size - 1)` exactly as in the C
  code; since `size` is a power of two dividing `2^32`, first wrapping `i +
  step + 1` modulo `2^32` (as the C `ulib_uint` addition does) and then masking
  gives the same result as masking the unwrapped `Nat` sum, so the `Nat` model
  agrees with the 32-bit code.
* `_count`/`_occupied` arithmetic never overflows in reachable states (they
  are bounded by the table size); the single decrement in `uhash_delete` is
  guarded by the bucket being live, which in well-formed states implies
  `_count > 0`, so `Nat` subtraction agrees with the C unsigned subtraction.

Loops are modelled with explicit fuel returning `Option`: `none` means the
fuel was exhausted, which is proved not to happen in the states of interest.
Memory allocation cannot fail in this model; the allocation-failure paths of
`uhash_resize` are modelled separately (see `AllocModel` below).
-/

namespace ULib

/-- `ULIB_UINT_MAX` for the default 32-bit `ulib_uint` configuration. -/
def ULIB_UINT_MAX : Nat := 2 ^ 32 - 1

/-- `UHASH_INDEX_MISSING`: index returned when a key is not present. -/
def UHASH_INDEX_MISSING : Nat := ULIB_UINT_MAX

/-- The two status bits of one bucket, as manipulated by the `p_uhf_*` macros:
`isEmpty` is the `2U` bit, `isDel` the `1U` bit of the 2-bit field packed in
`_flags`.  A bucket is live iff both bits are clear. -/
structure Flag where
  isEmpty : Bool
  isDel : Bool
deriving DecidableEq

/-- Flag state produced by `memset(flags, 0xaa, ...)`: every 2-bit field is
`10`, i.e. empty and not deleted. -/
def flagEmpty : Flag := ⟨true, false⟩

/-- `p_uhf_iseither(flag, i)`: the bucket is empty or tombstoned. -/
def p_uhf_iseither (f : Flag) : Bool := f.isEmpty || f.isDel

/-- The `UHash_T` struct: `_size` (number of buckets), `_occupied` (non-empty
buckets, with the `_occupied = 1, _size = 0` sentinel marking empty maps),
`_count` (live entries), the per-bucket status flags, the key array and the
optional value array (`none` models a `NULL` `_vals` pointer). -/
structure UHash where
  size : Nat
  occupied : Nat
  count : Nat
  flags : List Flag
  keys : List Nat
  vals : Option (List Nat)
deriving DecidableEq

/-- Read a bucket's status bits (`_flags` lookup).  Out-of-range reads (which
do not occur in well-formed states) default to the empty status. -/
def fget (fl : List Flag) (i : Nat) : Flag := fl.getD i flagEmpty

/-- Read `_keys[i]`; out-of-range/junk cells default to 0. -/
def kget (ks : List Nat) (i : Nat) : Nat := ks.getD i 0

/-- Read `_vals[i]` through the nullable `_vals` pointer. -/
def vget (vs : Option (List Nat)) (i : Nat) : Nat := (vs.getD []).getD i 0

/-- Write `_vals[i]` if the `_vals` pointer is non-null (`if (h->_vals) ...`). -/
def vset (vs : Option (List Nat)) (i v : Nat) : Option (List Nat) :=
  vs.map (fun l => l.set i v)

/-- `p_uhash_upper_bound(buckets) = (ulib_uint)(buckets * UHASH_MAX_LOAD + 0.5)`
with `UHASH_MAX_LOAD = 0.77`.  The C computation is performed in `double`; for
every bucket count that reaches this macro (0 and powers of two up to `2^31`)
multiplying by the nearest double to 0.77 is exact scaling plus an error below
`8e-8`, while `buckets * 0.77 + 0.5` is never within `1/100` of an integer,
so the truncated result equals `⌊(77 * buckets + 50) / 100⌋` exactly. -/
def p_uhash_upper_bound (buckets : Nat) : Nat := (77 * buckets + 50) / 100

/-- Fuel-driven search for the smallest power of two `≥ n`, doubling `acc`. -/
def p_next_power_2_go (n : Nat) : Nat → Nat → Nat
  | 0, acc => acc
  | fuel + 1, acc => if n ≤ acc then acc else p_next_power_2_go n fuel (2 * acc)

/-- Modelled from the spec: `ulib_uint_next_power_2` is declared in `ustd.h`,
which is not among the sources; the spec states that `uhash_resize` "rounds
`new_capacity` up to the next power of two", i.e. to the smallest power of two
that is at least the request (the bit-smearing macro maps 0 to 0, and powers
of two to themselves). -/
def ulib_uint_next_power_2 (n : Nat) : Nat :=
  if n = 0 then 0 else p_next_power_2_go n n 1

/-- `uhash_is_map_T`: `h->_vals || h->_occupied > h->_size`. -/
def uhash_is_map (h : UHash) : Bool := h.vals.isSome || decide (h.size < h.occupied)

/-- `p_uhash_occupied_T`: `h->_occupied > h->_size ? 0 : h->_occupied`,
mapping the empty-map sentinel to 0. -/
def p_uhash_occupied (h : UHash) : Nat := if h.size < h.occupied then 0 else h.occupied

/-- `uhset_T()`: zeroed struct. -/
def uhset : UHash := ⟨0, 0, 0, [], [], none⟩

/-- `uhmap_T()`: zeroed struct with the `_occupied = 1` empty-map sentinel. -/
def uhmap : UHash := { uhset with occupied := 1 }

/-- The probe loop of `uhash_get_T`: while the bucket is non-empty and either
tombstoned or holding a different key, advance `i` by the incremented step
(masked); return `UHASH_INDEX_MISSING` when the probe returns to its start.
On normal exit, a bucket that is empty-or-tombstoned is a miss, otherwise a
hit at `i`. -/
def uhash_get_loop (flags : List Flag) (keys : List Nat) (key mask last : Nat) :
    Nat → Nat → Nat → Option Nat
  | 0, _, _ => none
  | fuel + 1, i, step =>
    if !(fget flags i).isEmpty && ((fget flags i).isDel || kget keys i != key) then
      let i' := (i + (step + 1)) &&& mask
      if i' = last then some UHASH_INDEX_MISSING
      else uhash_get_loop flags keys key mask last fuel i' (step + 1)
    else some (if p_uhf_iseither (fget flags i) then UHASH_INDEX_MISSING else i)

/-- `uhash_get_T(h, key)`: miss on zero capacity, otherwise probe from
`hash(key) & (size - 1)`.  Fuel `2 * size + 1` is proved sufficient for
power-of-two sizes (`uhash_get_loop_isSome`). -/
def uhash_get (hash : Nat → Nat) (h : UHash) (key : Nat) : Option Nat :=
  if h.size = 0 then some UHASH_INDEX_MISSING
  else
    let mask := h.size - 1
    let i := hash key &&& mask
    uhash_get_loop h.flags h.keys key mask i (2 * h.size + 1) i 0

/-- Return codes, represented symbolically (in the C enum the two success
names coincide numerically: `UHASH_OK = UHASH_PRESENT = 0`, while
`UHASH_ERR = -1` and `UHASH_INSERTED = 1`). -/
inductive uhash_ret where
  | UHASH_ERR
  | UHASH_OK
  | UHASH_PRESENT
  | UHASH_INSERTED
deriving DecidableEq

/-- The probe loop of `uhash_put_T`, additionally remembering in `site` the
first tombstoned bucket seen (`sz`, the table size, is the "no site" marker,
mirroring the C initialisation `site = h->_size`).  The returned value is the
final target bucket `x`, after the post-loop fix-up
`if (x == size) x = (isempty(i) && site != size) ? site : i`. -/
def uhash_put_loop (flags : List Flag) (keys : List Nat) (key mask last sz : Nat) :
    Nat → Nat → Nat → Nat → Option Nat
  | 0, _, _, _ => none
  | fuel + 1, i, step, site =>
    if !(fget flags i).isEmpty && ((fget flags i).isDel || kget keys i != key) then
      let site' := if (fget flags i).isDel then i else site
      let i' := (i + (step + 1)) &&& mask
      if i' = last then some (if site' = sz then i' else site')
      else uhash_put_loop flags keys key mask last sz fuel i' (step + 1) site'
    else some (if (fget flags i).isEmpty && site != sz then site else i)

/-- The bucket-selection part of `uhash_put_T` (everything between the resize
step and the status-based write), computing the target bucket `x`. -/
def uhash_put_idx (hash : Nat → Nat) (h : UHash) (key : Nat) : Option Nat :=
  let mask := h.size - 1
  let i := hash key &&& mask
  if (fget h.flags i).isEmpty then some i
  else uhash_put_loop h.flags h.keys key mask i h.size (2 * h.size + 1) i 0 h.size

/-- One step of the kick-out probe of `uhash_resize_T`:
`while (!p_uhf_isempty(new_flags, i)) i = (i + (++step)) & new_mask;`. -/
def p_find_empty (nflags : List Flag) (mask : Nat) : Nat → Nat → Nat → Option Nat
  | 0, _, _ => none
  | fuel + 1, i, step =>
    if (fget nflags i).isEmpty then some i
    else p_find_empty nflags mask fuel ((i + (step + 1)) &&& mask) (step + 1)

/-- Working state of the rehash loop of `uhash_resize_T`: the old flags (in
`h->_flags`, with processed buckets marked deleted), the freshly allocated
`new_flags`, and the shared key/value storage. -/
structure RehashSt where
  oflags : List Flag
  nflags : List Flag
  keys : List Nat
  vals : Option (List Nat)
deriving DecidableEq

/-- The `while (true)` kick-out chain of `uhash_resize_T`: place the carried
entry at the first `new_flags`-empty slot of its probe sequence; if that slot
still holds an unprocessed live entry of the old table, swap it out and
continue with the evicted entry. -/
def p_kick_chain (hash : Nat → Nat) (mask osize : Nat) :
    Nat → RehashSt → Nat → Nat → Option RehashSt
  | 0, _, _, _ => none
  | fuel + 1, st, key, val =>
    match p_find_empty st.nflags mask (2 * (mask + 1) + 1) (hash key &&& mask) 0 with
    | none => none
    | some i =>
      let nflags' := st.nflags.set i ⟨false, (fget st.nflags i).isDel⟩
      if decide (i < osize) && !p_uhf_iseither (fget st.oflags i) then
        let key' := kget st.keys i
        let val' := vget st.vals i
        p_kick_chain hash mask osize fuel
          { oflags := st.oflags.set i ⟨(fget st.oflags i).isEmpty, true⟩,
            nflags := nflags',
            keys := st.keys.set i key,
            vals := vset st.vals i val } key' val'
      else
        some { st with nflags := nflags',
                       keys := st.keys.set i key,
                       vals := vset st.vals i val }

/-- The outer rehash loop of `uhash_resize_T` over the old bucket indices:
skip non-live buckets, otherwise pick the entry up (marking its old bucket
deleted) and run the kick-out chain. -/
def p_rehash (hash : Nat → Nat) (mask osize : Nat) :
    List Nat → RehashSt → Option RehashSt
  | [], st => some st
  | j :: js, st =>
    if p_uhf_iseither (fget st.oflags j) then p_rehash hash mask osize js st
    else
      let key := kget st.keys j
      let val := vget st.vals j
      let st1 := { st with oflags := st.oflags.set j ⟨(fget st.oflags j).isEmpty, true⟩ }
      match p_kick_chain hash mask osize (osize + 1) st1 key val with
      | none => none
      | some st2 => p_rehash hash mask osize js st2

/-- The effective bucket count used by `uhash_resize_T`: the requested size
rounded up to the next power of two, with minimum 4. -/
def p_resize_size (n : Nat) : Nat :=
  let ns1 := ulib_uint_next_power_2 n
  if ns1 < 4 then 4 else ns1

/-- `uhash_resize_T(h, new_size)` in the allocation-free model: round the
request up to a power of two (min 4); succeed without changes if `_count`
does not fit under the load factor; otherwise grow the key (and, for maps,
value) storage if expanding, rehash every live entry into the fresh flag
array by the kick-out process, shrink the storage if shrinking, and install
the new flags with `_occupied = _count`.  `none` models only fuel exhaustion
(never allocation failure, which cannot happen in this model). -/
def uhash_resize (hash : Nat → Nat) (h : UHash) (new_size0 : Nat) : Option UHash :=
  let new_size := p_resize_size new_size0
  if p_uhash_upper_bound new_size ≤ h.count then some h
  else
    let new_flags := List.replicate new_size flagEmpty
    let keys1 := if h.size < new_size then
                   h.keys ++ List.replicate (new_size - h.keys.length) 0
                 else h.keys
    let vals1 := if h.size < new_size && uhash_is_map h then
                   some ((h.vals.getD []) ++
                         List.replicate (new_size - (h.vals.getD []).length) 0)
                 else h.vals
    match p_rehash hash (new_size - 1) h.size (List.range h.size)
        ⟨h.flags, new_flags, keys1, vals1⟩ with
    | none => none
    | some st =>
      let keys2 := if new_size < h.size then st.keys.take new_size else st.keys
      let vals2 := if new_size < h.size then st.vals.map (fun l => l.take new_size)
                   else st.vals
      some { size := new_size, occupied := h.count, count := h.count,
             flags := st.nflags, keys := keys2, vals := vals2 }

/-- The write step of `uhash_put_T` at target bucket `x`: insert the key if
the bucket is empty (bumping `_count` and `_occupied`) or tombstoned (bumping
only `_count`), else report PRESENT without touching the bucket; the third
component is the reported `*idx`. -/
def uhash_put_write (h1 : UHash) (key x : Nat) : uhash_ret × UHash × Nat :=
  if (fget h1.flags x).isEmpty then
    (.UHASH_INSERTED,
     { h1 with keys := h1.keys.set x key,
               flags := h1.flags.set x ⟨false, false⟩,
               count := h1.count + 1, occupied := h1.occupied + 1 },
     if x = h1.size then UHASH_INDEX_MISSING else x)
  else if (fget h1.flags x).isDel then
    (.UHASH_INSERTED,
     { h1 with keys := h1.keys.set x key,
               flags := h1.flags.set x ⟨false, false⟩,
               count := h1.count + 1 },
     if x = h1.size then UHASH_INDEX_MISSING else x)
  else
    (.UHASH_PRESENT, h1, if x = h1.size then UHASH_INDEX_MISSING else x)

/-- The second half of `uhash_put_T` (everything after the resize step):
probe for the target bucket, then write. -/
def uhash_put_body (hash : Nat → Nat) (h1 : UHash) (key : Nat) :
    Option (uhash_ret × UHash × Nat) :=
  (uhash_put_idx hash h1 key).map (fun x => uhash_put_write h1 key x)

/-- `uhash_put_T(h, key, &x)`: resize when the load factor bound is hit
(shrinking the request when more than half the occupied buckets are
tombstones, else growing), then probe and insert via `uhash_put_body`. -/
def uhash_put (hash : Nat → Nat) (h : UHash) (key : Nat) :
    Option (uhash_ret × UHash × Nat) :=
  (if p_uhash_upper_bound h.size ≤ p_uhash_occupied h then
     (if 2 * h.count < h.size then uhash_resize hash h (h.size - 1)
      else uhash_resize hash h (h.size + 1))
   else some h).bind (fun h1 => uhash_put_body hash h1 key)

/-- `uhash_delete_T(h, x)`: tombstone the bucket and decrement `_count` if it
is live, otherwise do nothing. -/
def uhash_delete (h : UHash) (x : Nat) : UHash :=
  if p_uhf_iseither (fget h.flags x) then h
  else { h with flags := h.flags.set x ⟨(fget h.flags x).isEmpty, true⟩,
                count := h.count - 1 }

/-- `uhash_clear_T(h)`: reset all flags to empty and zero the counters,
unless the table has no (effective) occupied bucket. -/
def uhash_clear (h : UHash) : UHash :=
  if p_uhash_occupied h = 0 then h
  else { h with flags := List.replicate h.size flagEmpty, count := 0, occupied := 0 }

/-- `uhmap_get_T(h, key, if_missing)`. -/
def uhmap_get (hash : Nat → Nat) (h : UHash) (key if_missing : Nat) : Option Nat :=
  match uhash_get hash h key with
  | none => none
  | some k => some (if k = UHASH_INDEX_MISSING then if_missing else vget h.vals k)

/-- `uhmap_set_T(h, key, value, &existing)`: put the key, report the previous
value if it was present, store the new value.  The third component models the
`existing` out-parameter (`some` exactly when the C code writes it). -/
def uhmap_set (hash : Nat → Nat) (h : UHash) (key value : Nat) :
    Option (uhash_ret × UHash × Option Nat) :=
  match uhash_put hash h key with
  | none => none
  | some (ret, h1, k) =>
    let ex := if ret = .UHASH_PRESENT then some (vget h1.vals k) else none
    some (ret, { h1 with vals := vset h1.vals k value }, ex)

/-- Iterated `uhash_put` of a list of keys (used for concrete scenarios). -/
def putList (hash : Nat → Nat) (h : UHash) : List Nat → Option UHash
  | [] => some h
  | k :: ks =>
    match uhash_put hash h k with
    | none => none
    | some (_, h1, _) => putList hash h1 ks

/-- Iterated `uhmap_set` of a list of key/value pairs. -/
def setList (hash : Nat → Nat) (h : UHash) : List (Nat × Nat) → Option UHash
  | [] => some h
  | (k, v) :: kvs =>
    match uhmap_set hash h k v with
    | none => none
    | some (_, h1, _) => setList hash h1 kvs

/-! ## Basic access lemmas -/

theorem getD_set {α : Type} (l : List α) (i j : Nat) (v d : α) :
    (l.set i v).getD j d = if i = j ∧ i < l.length then v else l.getD j d := by
  unfold List.getD
  rw [List.get?_eq_getElem?, List.get?_eq_getElem?, List.getElem?_set]
  by_cases h : i = j
  · subst h
    by_cases h2 : i < l.length
    · rw [List.getElem?_eq_getElem h2]
      simp [h2]
    · rw [List.getElem?_eq_none (by omega)]
      simp [h2]
  · simp [h]

theorem fget_set (fl : List Flag) (i j : Nat) (f : Flag) :
    fget (fl.set i f) j = if i = j ∧ i < fl.length then f else fget fl j :=
  getD_set fl i j f flagEmpty

theorem kget_set (ks : List Nat) (i j : Nat) (v : Nat) :
    kget (ks.set i v) j = if i = j ∧ i < ks.length then v else kget ks j :=
  getD_set ks i j v 0

theorem fget_replicate (n j : Nat) : fget (List.replicate n flagEmpty) j = flagEmpty := by
  unfold fget List.getD
  rcases Nat.lt_or_ge j n with hj | hj
  · rw [List.get?_eq_getElem?, List.getElem?_eq_getElem (by simpa using hj)]
    simp
  · rw [List.get?_eq_getElem?, List.getElem?_eq_none (by simpa using hj)]
    rfl

/-! ## C10: every successful rehash purges all tombstones -/

/-- No bucket of the flag array is tombstoned. -/
def noTomb (fl : List Flag) : Prop := ∀ j, (fget fl j).isDel = false

theorem noTomb_set (fl : List Flag) (i : Nat) (f : Flag)
    (hfl : noTomb fl) (hf : f.isDel = false) : noTomb (fl.set i f) := by
  intro j
  rw [fget_set]
  split
  · exact hf
  · exact hfl j

theorem p_kick_chain_noTomb (hash : Nat → Nat) (mask osize : Nat) :
    ∀ fuel st key val st', p_kick_chain hash mask osize fuel st key val = some st' →
      noTomb st.nflags → noTomb st'.nflags := by
  intro fuel
  induction fuel with
  | zero =>
    intro st key val st' heq
    simp [p_kick_chain] at heq
  | succ n ih =>
    intro st key val st' heq hnt
    rw [p_kick_chain] at heq
    cases hfe : p_find_empty st.nflags mask (2 * (mask + 1) + 1) (hash key &&& mask) 0 with
    | none => rw [hfe] at heq; exact absurd heq (by simp)
    | some i =>
      rw [hfe] at heq
      simp only at heq
      by_cases hc : (decide (i < osize) && !p_uhf_iseither (fget st.oflags i)) = true
      · rw [if_pos hc] at heq
        exact ih _ _ _ _ heq (noTomb_set _ _ _ hnt (hnt i))
      · rw [if_neg hc] at heq
        cases heq
        exact noTomb_set _ _ _ hnt (hnt i)

theorem p_rehash_noTomb (hash : Nat → Nat) (mask osize : Nat) :
    ∀ js st st', p_rehash hash mask osize js st = some st' →
      noTomb st.nflags → noTomb st'.nflags := by
  intro js
  induction js with
  | nil =>
    intro st st' heq hnt
    rw [p_rehash] at heq
    cases heq
    exact hnt
  | cons j js ih =>
    intro st st' heq hnt
    rw [p_rehash] at heq
    by_cases hj : p_uhf_iseither (fget st.oflags j) = true
    · rw [if_pos hj] at heq
      exact ih _ _ heq hnt
    · rw [if_neg hj] at heq
      simp only at heq
      cases hkc : p_kick_chain hash mask osize (osize + 1)
          { st with oflags := st.oflags.set j ⟨(fget st.oflags j).isEmpty, true⟩ }
          (kget st.keys j) (vget st.vals j) with
      | none => rw [hkc] at heq; exact absurd heq (by simp)
      | some st2 =>
        rw [hkc] at heq
        exact ih _ _ heq (p_kick_chain_noTomb hash mask osize _ _ _ _ _ hkc hnt)

/-- C10: a `uhash_resize` call that actually rehashes (i.e. whose rounded
target capacity can hold `_count` under the load factor, so the too-small
no-op is not taken) ends with `_occupied = _count` and with no bucket
tombstoned. -/
theorem C10_rehash_purges_tombstones (hash : Nat → Nat) (h h' : UHash) (n : Nat)
    (hfit : h.count < p_uhash_upper_bound (p_resize_size n))
    (hres : uhash_resize hash h n = some h') :
    h'.occupied = h'.count ∧ ∀ j, (fget h'.flags j).isDel = false := by
  unfold uhash_resize at hres
  rw [if_neg (by omega)] at hres
  simp only at hres
  cases hre : p_rehash hash (p_resize_size n - 1) h.size (List.range h.size)
      ⟨h.flags, List.replicate (p_resize_size n) flagEmpty,
       (if h.size < p_resize_size n then h.keys ++ List.replicate (p_resize_size n - h.keys.length) 0
        else h.keys),
       (if h.size < p_resize_size n && uhash_is_map h then
          some ((h.vals.getD []) ++ List.replicate (p_resize_size n - (h.vals.getD []).length) 0)
        else h.vals)⟩ with
  | none => rw [hre] at hres; exact absurd hres (by simp)
  | some st =>
    rw [hre] at hres
    cases hres
    refine ⟨rfl, ?_⟩
    exact p_rehash_noTomb hash _ _ _ _ _ hre (fun j => by rw [fget_replicate]; rfl)

/-- Witness for `C10_rehash_purges_tombstones`: resizing the fresh empty set
to 4 buckets. -/
theorem C10_witness :
    uhset.count < p_uhash_upper_bound (p_resize_size 4) ∧
    ((⟨4, 0, 0, List.replicate 4 flagEmpty, [0, 0, 0, 0], none⟩ : UHash).occupied =
      (⟨4, 0, 0, List.replicate 4 flagEmpty, [0, 0, 0, 0], none⟩ : UHash).count ∧
     ∀ j, (fget (⟨4, 0, 0, List.replicate 4 flagEmpty, [0, 0, 0, 0], none⟩ : UHash).flags j).isDel
        = false) :=
  ⟨by decide, C10_rehash_purges_tombstones id uhset _ 4 (by decide) (by decide)⟩

/-! ## C6: the lookup probe terminates

The probe positions are `start + tri step` masked by `size - 1`; since
`tri (2 * size)` is divisible by `size`, the probe provably returns to its
start index after at most `2 * size` advances, so fuel `2 * size + 1` is
never exhausted when `size` is a power of two. -/

/-- Triangular numbers: the cumulative probe offset after `k` advances of the
`i = (i + (++step)) & mask` schedule. -/
def tri : Nat → Nat
  | 0 => 0
  | k + 1 => tri k + (k + 1)

theorem two_mul_tri (n : Nat) : 2 * tri n = n * (n + 1) := by
  induction n with
  | zero => rfl
  | succ k ih => rw [tri]; ring_nf; ring_nf at ih; omega

theorem tri_two_mul (s : Nat) : tri (2 * s) = s * (2 * s + 1) := by
  have h := two_mul_tri (2 * s)
  have h2 : 2 * s * (2 * s + 1) = 2 * (s * (2 * s + 1)) := by ring
  omega

theorem tri_two_mul_mod (s : Nat) : tri (2 * s) % s = 0 := by
  rw [tri_two_mul, Nat.mul_mod_right]

/-- Advancing the probe index by the incremented step preserves the
triangular-offset invariant. -/
theorem probe_advance (m start step : Nat) :
    ((start + tri step) % 2 ^ m + (step + 1)) &&& (2 ^ m - 1)
      = (start + tri (step + 1)) % 2 ^ m := by
  rw [Nat.and_pow_two_sub_one_eq_mod, Nat.mod_add_mod, Nat.add_assoc]
  rfl

theorem uhash_get_loop_isSome (flags : List Flag) (keys : List Nat) (key m start : Nat)
    (hstart : start < 2 ^ m) :
    ∀ fuel step i, i = (start + tri step) % 2 ^ m →
      2 * 2 ^ m + 1 ≤ step + fuel → step ≤ 2 * 2 ^ m - 1 →
      (uhash_get_loop flags keys key (2 ^ m - 1) start fuel i step).isSome := by
  have hpos : 0 < 2 ^ m := Nat.pos_pow_of_pos m (by norm_num)
  intro fuel
  induction fuel with
  | zero => intro step i hi hfuel hstep; omega
  | succ n ih =>
    intro step i hi hfuel hstep
    rw [uhash_get_loop]
    by_cases hc : (!(fget flags i).isEmpty && ((fget flags i).isDel || kget keys i != key))
        = true
    · rw [if_pos hc]
      simp only
      by_cases hl : (i + (step + 1)) &&& (2 ^ m - 1) = start
      · rw [if_pos hl]; rfl
      · rw [if_neg hl]
        have hi' : (i + (step + 1)) &&& (2 ^ m - 1) = (start + tri (step + 1)) % 2 ^ m := by
          rw [hi]; exact probe_advance m start step
        refine ih (step + 1) _ hi' (by omega) ?_
        by_contra hgt
        have hs1 : step + 1 = 2 * 2 ^ m := by omega
        apply hl
        rw [hi', hs1, tri_two_mul, Nat.add_mul_mod_self_left, Nat.mod_eq_of_lt hstart]
    · rw [if_neg hc]; rfl

/-- C6: `uhash_get` always terminates with a definite answer: immediately with
the missing sentinel when the capacity is zero, and otherwise the triangular
probe loop (fuel `2 * size + 1`) provably returns — it reaches an empty
bucket, a live equal key, or comes back to its start index — whenever the
capacity is a power of two, as it is in every allocated table. -/
theorem C6_get_terminates (hash : Nat → Nat) (h : UHash) (key : Nat)
    (hsz : h.size = 0 ∨ ∃ m, h.size = 2 ^ m) :
    (uhash_get hash h key).isSome ∧
      (h.size = 0 → uhash_get hash h key = some UHASH_INDEX_MISSING) := by
  rcases hsz with h0 | ⟨m, hm⟩
  · rw [uhash_get, if_pos h0]
    exact ⟨rfl, fun _ => rfl⟩
  · have hpos : 0 < 2 ^ m := Nat.pos_pow_of_pos m (by norm_num)
    constructor
    · rw [uhash_get, if_neg (by omega)]
      simp only [hm]
      have hstart : hash key &&& (2 ^ m - 1) < 2 ^ m := by
        rw [Nat.and_pow_two_sub_one_eq_mod]
        exact Nat.mod_lt _ hpos
      refine uhash_get_loop_isSome h.flags h.keys key m _ hstart (2 * 2 ^ m + 1) 0 _ ?_
          (by omega) (by omega)
      rw [tri, Nat.add_zero, Nat.mod_eq_of_lt hstart]
    · intro h0; omega

/-- Witness for `C6_get_terminates` at a concrete capacity-4 table. -/
theorem C6_witness :
    (uhash_get id ⟨4, 0, 0, List.replicate 4 flagEmpty, [0, 0, 0, 0], none⟩ 7).isSome ∧
      ((⟨4, 0, 0, List.replicate 4 flagEmpty, [0, 0, 0, 0], none⟩ : UHash).size = 0 →
        uhash_get id ⟨4, 0, 0, List.replicate 4 flagEmpty, [0, 0, 0, 0], none⟩ 7
          = some UHASH_INDEX_MISSING) :=
  C6_get_terminates id ⟨4, 0, 0, List.replicate 4 flagEmpty, [0, 0, 0, 0], none⟩ 7
    (Or.inr ⟨2, by decide⟩)

/-! ## Probe-sequence arithmetic

`probePos m start u` is the bucket visited by the `u`-th probe advance for a
table of `2 ^ m` buckets.  The triangular schedule visits `2 ^ m` pairwise
distinct buckets before first returning to `start` at `u = 2 * 2 ^ m - 1`. -/

/-- The bucket inspected after `u` probe advances from `start`. -/
def probePos (m start u : Nat) : Nat := (start + tri u) % 2 ^ m

theorem two_pow_pos (m : Nat) : 0 < 2 ^ m := Nat.pos_pow_of_pos m (by norm_num)

theorem probePos_lt (m start u : Nat) : probePos m start u < 2 ^ m :=
  Nat.mod_lt _ (two_pow_pos m)

theorem probePos_zero (m start : Nat) (h : start < 2 ^ m) : probePos m start 0 = start := by
  rw [probePos, tri, Nat.add_zero, Nat.mod_eq_of_lt h]

/-- The loop's index update realises the next probe position. -/
theorem probePos_advance (m start u : Nat) :
    (probePos m start u + (u + 1)) &&& (2 ^ m - 1) = probePos m start (u + 1) :=
  probe_advance m start u

theorem tri_mono (a b : Nat) (h : a ≤ b) : tri a ≤ tri b := by
  induction b with
  | zero =>
    have ha : a = 0 := by omega
    subst ha
    exact Nat.le_refl _
  | succ n ih =>
    rcases Nat.lt_or_ge a (n + 1) with h2 | h2
    · have h3 := ih (by omega)
      have h4 : tri (n + 1) = tri n + (n + 1) := rfl
      omega
    · have ha : a = n + 1 := by omega
      subst ha
      exact Nat.le_refl _

theorem two_mul_tri_sub (a d : Nat) : 2 * (tri (a + d) - tri a) = d * (2 * a + d + 1) := by
  have h1 := two_mul_tri (a + d)
  have h2 := two_mul_tri a
  have h3 : (a + d) * (a + d + 1) = a * (a + 1) + d * (2 * a + d + 1) := by ring
  have h4 := tri_mono a (a + d) (by omega)
  omega

/-- No triangular number `tri u` with `1 ≤ u ≤ 2 * 2 ^ m - 2` is divisible by
`2 ^ m`: the probe first returns to its start only at `u = 2 * 2 ^ m - 1`. -/
theorem tri_mod_ne_zero (m u : Nat) (h1 : 1 ≤ u) (h2 : u ≤ 2 * 2 ^ m - 2) :
    ¬ (2 ^ m ∣ tri u) := by
  intro hd
  have hpos := two_pow_pos m
  obtain ⟨c, hc⟩ := hd
  have hd2 : u * (u + 1) = 2 ^ (m + 1) * c := by
    have h5 := two_mul_tri u
    rw [← h5, hc, pow_succ]
    ring
  rcases Nat.even_or_odd u with he | ho
  · have hco : Nat.Coprime (2 ^ (m + 1)) (u + 1) := by
      refine Nat.Coprime.pow_left (m + 1) (Nat.coprime_two_left.mpr ?_)
      rcases he with ⟨k, hk⟩
      exact Nat.odd_iff.mpr (by omega)
    have hdu : 2 ^ (m + 1) ∣ u := hco.dvd_of_dvd_mul_right ⟨c, hd2⟩
    have h6 := Nat.le_of_dvd (by omega) hdu
    have h2s : 2 * 2 ^ m = 2 ^ (m + 1) := by rw [pow_succ]; ring
    omega
  · have hco : Nat.Coprime (2 ^ (m + 1)) u :=
      Nat.Coprime.pow_left (m + 1) (Nat.coprime_two_left.mpr ho)
    have hdu : 2 ^ (m + 1) ∣ u + 1 := hco.dvd_of_dvd_mul_left ⟨c, hd2⟩
    have h6 := Nat.le_of_dvd (by omega) hdu
    have h2s : 2 * 2 ^ m = 2 ^ (m + 1) := by rw [pow_succ]; ring
    omega

/-- A probe that has advanced between 1 and `2 * 2 ^ m - 2` times is not back
at its start index. -/
theorem probePos_ne_start (m start u : Nat) (hstart : start < 2 ^ m)
    (h1 : 1 ≤ u) (h2 : u ≤ 2 * 2 ^ m - 2) : probePos m start u ≠ start := by
  intro he
  refine tri_mod_ne_zero m u h1 h2 ?_
  have hmod : (start + tri u) % 2 ^ m = start := he
  have hmq : (start + tri u) % 2 ^ m = start % 2 ^ m := by
    rw [hmod, Nat.mod_eq_of_lt hstart]
  have hdvd : 2 ^ m ∣ start + tri u - start := (Nat.modEq_iff_dvd' (by omega)).mp hmq.symm
  obtain ⟨c, hc⟩ := hdvd
  exact ⟨c, by omega⟩

theorem probePos_inj_aux (m start a d : Nat) (hbd : a + d < 2 ^ m)
    (heq : probePos m start a = probePos m start (a + d)) : d = 0 := by
  have hpos := two_pow_pos m
  have h2s : 2 * 2 ^ m = 2 ^ (m + 1) := by rw [pow_succ]; ring
  have htm := tri_mono a (a + d) (by omega)
  have hmq : (start + tri a) % 2 ^ m = (start + tri (a + d)) % 2 ^ m := heq
  have hmq2 : tri a ≡ tri (a + d) [MOD 2 ^ m] := Nat.ModEq.add_left_cancel' start hmq
  have hdvd : 2 ^ m ∣ tri (a + d) - tri a := (Nat.modEq_iff_dvd' htm).mp hmq2
  obtain ⟨c, hc⟩ := hdvd
  have hsub := two_mul_tri_sub a d
  have hd2 : d * (2 * a + d + 1) = 2 ^ (m + 1) * c := by
    rw [← hsub, hc, pow_succ]
    ring
  rcases Nat.even_or_odd d with he | ho
  · have hco : Nat.Coprime (2 ^ (m + 1)) (2 * a + d + 1) := by
      refine Nat.Coprime.pow_left (m + 1) (Nat.coprime_two_left.mpr ?_)
      rcases he with ⟨k, hk⟩
      exact Nat.odd_iff.mpr (by omega)
    have hdd : 2 ^ (m + 1) ∣ d := hco.dvd_of_dvd_mul_right ⟨c, hd2⟩
    rcases Nat.eq_zero_or_pos d with h0 | hdp
    · exact h0
    · have := Nat.le_of_dvd hdp hdd
      omega
  · have hco : Nat.Coprime (2 ^ (m + 1)) d :=
      Nat.Coprime.pow_left (m + 1) (Nat.coprime_two_left.mpr ho)
    have hdd : 2 ^ (m + 1) ∣ 2 * a + d + 1 := hco.dvd_of_dvd_mul_left ⟨c, hd2⟩
    have := Nat.le_of_dvd (by omega) hdd
    omega

/-- The first `2 ^ m` probe positions are pairwise distinct. -/
theorem probePos_inj (m start : Nat) (a b : Nat) (ha : a < 2 ^ m) (hb : b < 2 ^ m)
    (heq : probePos m start a = probePos m start b) : a = b := by
  rcases Nat.le_total a b with hab | hab
  · obtain ⟨d, hd⟩ : ∃ d, b = a + d := ⟨b - a, by omega⟩
    subst hd
    have := probePos_inj_aux m start a d hb heq
    omega
  · obtain ⟨d, hd⟩ : ∃ d, a = b + d := ⟨a - b, by omega⟩
    subst hd
    have := probePos_inj_aux m start b d ha heq.symm
    omega

/-- Every bucket is visited within the first `2 ^ m` probe positions. -/
theorem probePos_surj (m start e : Nat) (he : e < 2 ^ m) :
    ∃ u, u < 2 ^ m ∧ probePos m start u = e := by
  have hinj : Function.Injective (fun u : Fin (2 ^ m) => (⟨probePos m start u.1,
      probePos_lt m start u.1⟩ : Fin (2 ^ m))) := by
    intro a b hab
    exact Fin.ext (probePos_inj m start a.1 b.1 a.2 b.2 (congrArg Fin.val hab))
  have hsurj := Finite.surjective_of_injective hinj
  obtain ⟨u, hu⟩ := hsurj ⟨e, he⟩
  exact ⟨u.1, u.2, congrArg Fin.val hu⟩

/-! ## Probe loop characterisation -/

theorem iseither_false_iff (f : Flag) :
    p_uhf_iseither f = false ↔ f.isEmpty = false ∧ f.isDel = false := by
  rw [p_uhf_iseither]
  cases f.isEmpty <;> cases f.isDel <;> simp

/-- The loop guard is false at a live bucket holding the probed key. -/
theorem guard_false_of_hit {f : Flag} {kv key : Nat}
    (h1 : p_uhf_iseither f = false) (h2 : kv = key) :
    (!f.isEmpty && (f.isDel || kv != key)) = false := by
  obtain ⟨he, hd⟩ := (iseither_false_iff f).mp h1
  simp [he, hd, h2]

/-- A false loop guard at a non-empty bucket means the bucket is live and
holds the probed key. -/
theorem guard_false_elim {f : Flag} {kv key : Nat}
    (hc : (!f.isEmpty && (f.isDel || kv != key)) = false) (he : f.isEmpty = false) :
    f.isDel = false ∧ kv = key := by
  rw [he] at hc
  simpa using hc

/-- Bucket `b` is reachable from `start` by the probe sequence without
crossing an empty bucket (the probe-chain invariant of the spec). -/
def probeReach (flags : List Flag) (m start b : Nat) : Prop :=
  ∃ t, t ≤ 2 * 2 ^ m - 2 ∧ probePos m start t = b ∧
    ∀ u, u < t → (fget flags (probePos m start u)).isEmpty = false

/-- Any `some` answer of the lookup loop is the missing sentinel or a live
bucket holding the probed key. -/
theorem uhash_get_loop_char (flags : List Flag) (keys : List Nat) (key mask last : Nat) :
    ∀ fuel i step r, i ≤ mask →
      uhash_get_loop flags keys key mask last fuel i step = some r →
      r = UHASH_INDEX_MISSING ∨
        (r ≤ mask ∧ (fget flags r).isEmpty = false ∧ (fget flags r).isDel = false ∧
          kget keys r = key) := by
  intro fuel
  induction fuel with
  | zero =>
    intro i step r hi h
    simp [uhash_get_loop] at h
  | succ n ih =>
    intro i step r hi h
    rw [uhash_get_loop] at h
    by_cases hc : (!(fget flags i).isEmpty && ((fget flags i).isDel || kget keys i != key))
        = true
    · rw [if_pos hc] at h
      simp only at h
      by_cases hl : (i + (step + 1)) &&& mask = last
      · rw [if_pos hl] at h
        cases h
        exact Or.inl rfl
      · rw [if_neg hl] at h
        exact ih _ _ _ Nat.and_le_right h
    · rw [if_neg hc] at h
      cases h
      by_cases he : p_uhf_iseither (fget flags i) = true
      · rw [if_pos he]
        exact Or.inl rfl
      · rw [if_neg he]
        have he' : (fget flags i).isEmpty = false :=
          ((iseither_false_iff _).mp (Bool.of_not_eq_true he)).1
        obtain ⟨hd, hk⟩ := guard_false_elim (Bool.of_not_eq_true hc) he'
        exact Or.inr ⟨hi, he', hd, hk⟩

/-- If a live bucket `b` holding the probed key is probe-reachable and keys
are unique, the lookup loop started anywhere on the way to `b` answers `b`. -/
theorem uhash_get_loop_hit (flags : List Flag) (keys : List Nat) (key m start b t : Nat)
    (hstart : start < 2 ^ m)
    (ht : t ≤ 2 * 2 ^ m - 2) (hb : probePos m start t = b)
    (hne : ∀ u, u < t → (fget flags (probePos m start u)).isEmpty = false)
    (hlive : p_uhf_iseither (fget flags b) = false)
    (hkey : kget keys b = key)
    (huniq : ∀ j, j < 2 ^ m → p_uhf_iseither (fget flags j) = false →
      kget keys j = key → j = b) :
    ∀ fuel u, u ≤ t → 2 * 2 ^ m + 1 ≤ u + fuel →
      uhash_get_loop flags keys key (2 ^ m - 1) start fuel (probePos m start u) u = some b := by
  have hpos := two_pow_pos m
  intro fuel
  induction fuel with
  | zero =>
    intro u hu hf
    omega
  | succ n ih =>
    intro u hu hf
    rw [uhash_get_loop]
    by_cases hc : (!(fget flags (probePos m start u)).isEmpty &&
        ((fget flags (probePos m start u)).isDel ||
          kget keys (probePos m start u) != key)) = true
    · have hut : u ≠ t := by
        intro hue
        rw [hue, hb] at hc
        rw [guard_false_of_hit hlive hkey] at hc
        exact Bool.false_ne_true hc
      rw [if_pos hc]
      simp only
      rw [probePos_advance m start u]
      rw [if_neg (probePos_ne_start m start (u + 1) hstart (by omega) (by omega))]
      exact ih (u + 1) (by omega) (by omega)
    · rw [if_neg hc]
      have hib : probePos m start u = b := by
        by_cases hut : u = t
        · rw [hut, hb]
        · have hnemp := hne u (by omega)
          obtain ⟨hd, hk⟩ := guard_false_elim (Bool.of_not_eq_true hc) hnemp
          exact huniq _ (probePos_lt m start u)
            ((iseither_false_iff _).mpr ⟨hnemp, hd⟩) hk
      rw [hib, hlive]
      rfl

/-- Analogue of `uhash_get_loop_hit` for the insertion probe: whatever
tombstone site has been recorded, the probe answers the live bucket `b`
holding the key. -/
theorem uhash_put_loop_hit (flags : List Flag) (keys : List Nat) (key m start b t sz : Nat)
    (hstart : start < 2 ^ m)
    (ht : t ≤ 2 * 2 ^ m - 2) (hb : probePos m start t = b)
    (hne : ∀ u, u < t → (fget flags (probePos m start u)).isEmpty = false)
    (hlive : p_uhf_iseither (fget flags b) = false)
    (hkey : kget keys b = key)
    (huniq : ∀ j, j < 2 ^ m → p_uhf_iseither (fget flags j) = false →
      kget keys j = key → j = b) :
    ∀ fuel u site, u ≤ t → 2 * 2 ^ m + 1 ≤ u + fuel →
      uhash_put_loop flags keys key (2 ^ m - 1) start sz fuel (probePos m start u) u site
        = some b := by
  have hpos := two_pow_pos m
  intro fuel
  induction fuel with
  | zero =>
    intro u site hu hf
    omega
  | succ n ih =>
    intro u site hu hf
    rw [uhash_put_loop]
    by_cases hc : (!(fget flags (probePos m start u)).isEmpty &&
        ((fget flags (probePos m start u)).isDel ||
          kget keys (probePos m start u) != key)) = true
    · have hut : u ≠ t := by
        intro hue
        rw [hue, hb] at hc
        rw [guard_false_of_hit hlive hkey] at hc
        exact Bool.false_ne_true hc
      rw [if_pos hc]
      simp only
      rw [probePos_advance m start u]
      rw [if_neg (probePos_ne_start m start (u + 1) hstart (by omega) (by omega))]
      exact ih (u + 1) _ (by omega) (by omega)
    · rw [if_neg hc]
      have hib : probePos m start u = b := by
        by_cases hut : u = t
        · rw [hut, hb]
        · have hnemp := hne u (by omega)
          obtain ⟨hd, hk⟩ := guard_false_elim (Bool.of_not_eq_true hc) hnemp
          exact huniq _ (probePos_lt m start u)
            ((iseither_false_iff _).mpr ⟨hnemp, hd⟩) hk
      have hbe : (fget flags (probePos m start u)).isEmpty = false := by
        rw [hib]
        exact ((iseither_false_iff _).mp hlive).1
      rw [hib]
      rw [hib] at hbe
      simp only [hbe]
      rfl

/-- Characterisation of the insertion probe's target bucket when some probe
position `u_e` is the first empty one: the returned bucket is in range,
probe-reachable, and is empty, tombstoned, or live holding the probed key. -/
theorem uhash_put_loop_char (flags : List Flag) (keys : List Nat) (key m start : Nat)
    (hstart : start < 2 ^ m) (hm : 1 ≤ m)
    (u_e : Nat) (hue : u_e < 2 ^ m)
    (hemp : (fget flags (probePos m start u_e)).isEmpty = true)
    (hmin : ∀ u', u' < u_e → (fget flags (probePos m start u')).isEmpty = false) :
    ∀ fuel u site r, u ≤ u_e →
      (site = 2 ^ m ∨ (site < 2 ^ m ∧ (fget flags site).isDel = true ∧
        probeReach flags m start site)) →
      uhash_put_loop flags keys key (2 ^ m - 1) start (2 ^ m) fuel (probePos m start u) u site
        = some r →
      r < 2 ^ m ∧ probeReach flags m start r ∧
        ((fget flags r).isEmpty = true ∨ (fget flags r).isDel = true ∨ kget keys r = key) := by
  have hpos := two_pow_pos m
  have h2m : 2 ≤ 2 ^ m := by
    calc 2 = 2 ^ 1 := by norm_num
    _ ≤ 2 ^ m := Nat.pow_le_pow_right (by norm_num) hm
  intro fuel
  induction fuel with
  | zero =>
    intro u site r hu hsite h
    simp [uhash_put_loop] at h
  | succ n ih =>
    intro u site r hu hsite h
    rw [uhash_put_loop] at h
    by_cases hc : (!(fget flags (probePos m start u)).isEmpty &&
        ((fget flags (probePos m start u)).isDel ||
          kget keys (probePos m start u) != key)) = true
    · have hut : u ≠ u_e := by
        intro hx
        rw [hx, hemp] at hc
        simp at hc
      rw [if_pos hc] at h
      simp only at h
      rw [probePos_advance m start u] at h
      rw [if_neg (probePos_ne_start m start (u + 1) hstart (by omega) (by omega))] at h
      refine ih (u + 1) _ r (by omega) ?_ h
      by_cases hd : (fget flags (probePos m start u)).isDel = true
      · rw [if_pos hd]
        refine Or.inr ⟨probePos_lt m start u, hd, u, by omega, rfl, ?_⟩
        intro u' hu'
        exact hmin u' (by omega)
      · rw [if_neg hd]
        exact hsite
    · rw [if_neg hc] at h
      by_cases hbe : (fget flags (probePos m start u)).isEmpty = true
      · rw [hbe] at h
        by_cases hs : site = 2 ^ m
        · rw [hs] at h
          simp only [bne_self_eq_false, Bool.true_and] at h
          cases h
          refine ⟨probePos_lt m start u, ⟨u, by omega, rfl, fun u' hu' => hmin u' (by omega)⟩,
            Or.inl hbe⟩
        · have hsx : (site != 2 ^ m) = true := by simpa using hs
          rw [hsx] at h
          simp only [Bool.true_and] at h
          cases h
          rcases hsite with h1 | ⟨h2, h3, h4⟩
          · exact absurd h1 hs
          · exact ⟨h2, h4, Or.inr (Or.inl h3)⟩
      · have hbe' : (fget flags (probePos m start u)).isEmpty = false :=
          Bool.not_eq_true _ ▸ Bool.of_not_eq_true hbe
        rw [hbe'] at h
        simp only [Bool.false_and] at h
        cases h
        obtain ⟨hd, hk⟩ := guard_false_elim (Bool.of_not_eq_true hc) hbe'
        exact ⟨probePos_lt m start u, ⟨u, by omega, rfl, fun u' hu' => hmin u' (by omega)⟩,
          Or.inr (Or.inr hk)⟩

/-- The insertion probe exits within fuel `u_e + 1` when position `u_e` is
the first empty probe position. -/
theorem uhash_put_loop_isSome (flags : List Flag) (keys : List Nat) (key m start : Nat)
    (hstart : start < 2 ^ m) (hm : 1 ≤ m)
    (u_e : Nat) (hue : u_e < 2 ^ m)
    (hemp : (fget flags (probePos m start u_e)).isEmpty = true)
    (hmin : ∀ u', u' < u_e → (fget flags (probePos m start u')).isEmpty = false) :
    ∀ fuel u site, u ≤ u_e → u_e + 1 ≤ u + fuel →
      (uhash_put_loop flags keys key (2 ^ m - 1) start (2 ^ m) fuel (probePos m start u) u
        site).isSome := by
  have hpos := two_pow_pos m
  have h2m : 2 ≤ 2 ^ m := by
    calc 2 = 2 ^ 1 := by norm_num
    _ ≤ 2 ^ m := Nat.pow_le_pow_right (by norm_num) hm
  intro fuel
  induction fuel with
  | zero =>
    intro u site hu hf
    omega
  | succ n ih =>
    intro u site hu hf
    rw [uhash_put_loop]
    by_cases hc : (!(fget flags (probePos m start u)).isEmpty &&
        ((fget flags (probePos m start u)).isDel ||
          kget keys (probePos m start u) != key)) = true
    · have hut : u ≠ u_e := by
        intro hx
        rw [hx, hemp] at hc
        simp at hc
      rw [if_pos hc]
      simp only
      rw [probePos_advance m start u]
      rw [if_neg (probePos_ne_start m start (u + 1) hstart (by omega) (by omega))]
      exact ih (u + 1) _ (by omega) (by omega)
    · rw [if_neg hc]
      rfl

/-! ## Counting and well-formedness -/

/-- Number of live buckets (what `_count` tracks). -/
def countLive (fl : List Flag) : Nat := fl.countP (fun f => !p_uhf_iseither f)

/-- Number of non-empty buckets (what `_occupied` tracks in allocated
tables). -/
def countNonEmpty (fl : List Flag) : Nat := fl.countP (fun f => !f.isEmpty)

theorem countP_set_fget (p : Flag → Bool) (fl : List Flag) (i : Nat) (f : Flag)
    (hi : i < fl.length) :
    (fl.set i f).countP p + (if p (fget fl i) then 1 else 0)
      = fl.countP p + (if p f then 1 else 0) := by
  induction fl generalizing i with
  | nil => simp at hi
  | cons a tl ih =>
    cases i with
    | zero =>
      simp only [List.set, List.countP_cons, fget, List.getD_cons_zero]
      omega
    | succ n =>
      simp only [List.set, List.countP_cons]
      have hn : n < tl.length := by simpa using hi
      have := ih n hn
      have hfg : fget (a :: tl) (n + 1) = fget tl n := by
        simp [fget, List.getD_cons_succ]
      rw [hfg]
      omega

theorem countLive_le_countNonEmpty (fl : List Flag) : countLive fl ≤ countNonEmpty fl := by
  refine List.countP_mono_left ?_
  intro f _ hf
  rw [p_uhf_iseither] at hf
  cases he : f.isEmpty
  · rfl
  · rw [he] at hf
    simp at hf

theorem countNonEmpty_le_length (fl : List Flag) : countNonEmpty fl ≤ fl.length :=
  List.countP_le_length _

/-- If some bucket is empty, a bucket with an empty flag exists in range. -/
theorem exists_empty_of_countNonEmpty_lt (fl : List Flag) (hlt : countNonEmpty fl < fl.length) :
    ∃ e, e < fl.length ∧ (fget fl e).isEmpty = true := by
  by_contra hno
  push_neg at hno
  have hall : ∀ f ∈ fl, (fun f : Flag => !f.isEmpty) f = true := by
    intro f hf
    obtain ⟨e, he, hfe⟩ := List.mem_iff_getElem.mp hf
    have := hno e he
    have hfg : fget fl e = f := by
      rw [fget, List.getD_eq_getElem fl flagEmpty he]
      exact hfe
    rw [hfg] at this
    simp [this]
  have hlen := List.countP_eq_length.mpr hall
  rw [countNonEmpty] at hlt
  omega

/-- First empty probe position, obtained from any empty bucket by
surjectivity of the probe sequence. -/
theorem exists_first_empty (flags : List Flag) (m start : Nat)
    (he : ∃ e, e < 2 ^ m ∧ (fget flags e).isEmpty = true) :
    ∃ u_e, u_e < 2 ^ m ∧ (fget flags (probePos m start u_e)).isEmpty = true ∧
      ∀ u', u' < u_e → (fget flags (probePos m start u')).isEmpty = false := by
  obtain ⟨e, he1, he2⟩ := he
  obtain ⟨u0, hu0, hup⟩ := probePos_surj m start e he1
  have hPu0 : (fget flags (probePos m start u0)).isEmpty = true := by rw [hup]; exact he2
  have hex : ∃ u, (fget flags (probePos m start u)).isEmpty = true := ⟨u0, hPu0⟩
  refine ⟨Nat.find hex, ?_, Nat.find_spec hex, ?_⟩
  · exact Nat.lt_of_le_of_lt (Nat.find_min' hex hPu0) hu0
  · intro u' hu'
    exact Bool.of_not_eq_true (Nat.find_min hex hu')

/-- Well-formedness of an allocated table with `2 ^ m` buckets: the arrays
have the right lengths, the counters count flags, live keys are pairwise
distinct, and every live key's bucket is probe-reachable from its hash-derived
start index. -/
structure WfAt (hash : Nat → Nat) (m : Nat) (h : UHash) : Prop where
  hm : 2 ≤ m
  hm31 : m ≤ 31
  hsize : h.size = 2 ^ m
  hflen : h.flags.length = 2 ^ m
  hklen : h.keys.length = 2 ^ m
  hvlen : ∀ vl, h.vals = some vl → vl.length = 2 ^ m
  hcount : h.count = countLive h.flags
  hocc : h.occupied = countNonEmpty h.flags
  huniq : ∀ i j, i < 2 ^ m → j < 2 ^ m →
    p_uhf_iseither (fget h.flags i) = false → p_uhf_iseither (fget h.flags j) = false →
    kget h.keys i = kget h.keys j → i = j
  hreach : ∀ b, b < 2 ^ m → p_uhf_iseither (fget h.flags b) = false →
    probeReach h.flags m (hash (kget h.keys b) % 2 ^ m) b

/-! ## Lookup specification -/

/-- In a well-formed table, looking up the key stored live at bucket `b`
answers exactly `b`. -/
theorem uhash_get_hit (hash : Nat → Nat) (m : Nat) (h : UHash) (key b : Nat)
    (hw : WfAt hash m h)
    (hb : b < h.size) (hlive : p_uhf_iseither (fget h.flags b) = false)
    (hkey : kget h.keys b = key) :
    uhash_get hash h key = some b := by
  have hpos := two_pow_pos m
  obtain ⟨t, ht, hpt, hne⟩ := hw.hreach b (hw.hsize ▸ hb) hlive
  rw [hkey] at hpt hne
  rw [uhash_get, if_neg (by rw [hw.hsize]; omega)]
  simp only
  rw [hw.hsize, Nat.and_pow_two_sub_one_eq_mod]
  have hstart : hash key % 2 ^ m < 2 ^ m := Nat.mod_lt _ hpos
  have hmain := uhash_get_loop_hit h.flags h.keys key m (hash key % 2 ^ m) b t hstart ht hpt
    hne hlive hkey
    (fun j hj hlj hkj => hw.huniq j b hj (hw.hsize ▸ hb) hlj hlive (by rw [hkj, hkey]))
    (2 * 2 ^ m + 1) 0 (by omega) (by omega)
  rw [probePos_zero m _ hstart] at hmain
  exact hmain

/-- In a well-formed table, looking up a key held by no live bucket answers
the missing sentinel. -/
theorem uhash_get_miss (hash : Nat → Nat) (m : Nat) (h : UHash) (key : Nat)
    (hw : WfAt hash m h)
    (habs : ∀ b, b < h.size → p_uhf_iseither (fget h.flags b) = false →
      kget h.keys b ≠ key) :
    uhash_get hash h key = some UHASH_INDEX_MISSING := by
  have hpos := two_pow_pos m
  rw [uhash_get, if_neg (by rw [hw.hsize]; omega)]
  simp only
  rw [hw.hsize, Nat.and_pow_two_sub_one_eq_mod]
  have hstart : hash key % 2 ^ m < 2 ^ m := Nat.mod_lt _ hpos
  have hs := uhash_get_loop_isSome h.flags h.keys key m (hash key % 2 ^ m) hstart
    (2 * 2 ^ m + 1) 0 (hash key % 2 ^ m)
    (by rw [tri, Nat.add_zero, Nat.mod_eq_of_lt hstart]) (by omega) (by omega)
  obtain ⟨r, hr⟩ := Option.isSome_iff_exists.mp hs
  rcases uhash_get_loop_char h.flags h.keys key (2 ^ m - 1) (hash key % 2 ^ m)
      (2 * 2 ^ m + 1) (hash key % 2 ^ m) 0 r (by omega) hr with hmiss | ⟨hrlt, hre, hrd, hrk⟩
  · rw [hr, hmiss]
  · exact absurd hrk (habs r (by rw [hw.hsize]; omega)
      ((iseither_false_iff _).mpr ⟨hre, hrd⟩))

/-- In a well-formed table, a lookup answer other than the missing sentinel
is a live in-range bucket holding the key. -/
theorem uhash_get_found (hash : Nat → Nat) (m : Nat) (h : UHash) (key r : Nat)
    (hw : WfAt hash m h)
    (hr : uhash_get hash h key = some r) (hne : r ≠ UHASH_INDEX_MISSING) :
    r < h.size ∧ p_uhf_iseither (fget h.flags r) = false ∧ kget h.keys r = key := by
  have hpos := two_pow_pos m
  rw [uhash_get, if_neg (by rw [hw.hsize]; omega)] at hr
  simp only at hr
  rw [hw.hsize, Nat.and_pow_two_sub_one_eq_mod] at hr
  rcases uhash_get_loop_char h.flags h.keys key (2 ^ m - 1) (hash key % 2 ^ m)
      (2 * 2 ^ m + 1) (hash key % 2 ^ m) 0 r
      (by have := Nat.mod_lt (hash key) hpos; omega) hr with hmiss | ⟨hrlt, hre, hrd, hrk⟩
  · exact absurd hmiss hne
  · refine ⟨by rw [hw.hsize]; omega, (iseither_false_iff _).mpr ⟨hre, hrd⟩, hrk⟩

/-! ## Specialised counting lemmas -/

theorem countLive_set (fl : List Flag) (x : Nat) (f' : Flag) (hx : x < fl.length) :
    countLive (fl.set x f') + (if p_uhf_iseither (fget fl x) then 0 else 1)
      = countLive fl + (if p_uhf_iseither f' then 0 else 1) := by
  have hc := countP_set_fget (fun f => !p_uhf_iseither f) fl x f' hx
  simp only [countLive]
  rcases hb : p_uhf_iseither (fget fl x) <;> rcases hb2 : p_uhf_iseither f' <;>
    simp [hb, hb2] at hc ⊢ <;> omega

theorem countNonEmpty_set (fl : List Flag) (x : Nat) (f' : Flag) (hx : x < fl.length) :
    countNonEmpty (fl.set x f') + (if (fget fl x).isEmpty then 0 else 1)
      = countNonEmpty fl + (if f'.isEmpty then 0 else 1) := by
  have hc := countP_set_fget (fun f => !f.isEmpty) fl x f' hx
  simp only [countNonEmpty]
  rcases hb : (fget fl x).isEmpty <;> rcases hb2 : f'.isEmpty <;>
    simp [hb, hb2] at hc ⊢ <;> omega

/-! ## Deletion specification -/

theorem countLive_pos (fl : List Flag) (x : Nat) (hx : x < fl.length)
    (hlive : p_uhf_iseither (fget fl x) = false) : 1 ≤ countLive fl := by
  refine List.countP_pos.mpr ⟨fget fl x, ?_, by rw [hlive]; rfl⟩
  rw [fget, List.getD_eq_getElem fl flagEmpty hx]
  exact List.getElem_mem hx

theorem fget_set_isEmpty_mono (fl : List Flag) (x p : Nat) (f' : Flag)
    (hf : f'.isEmpty = false) (hp : (fget fl p).isEmpty = false) :
    (fget (fl.set x f') p).isEmpty = false := by
  rw [fget_set]
  split
  · exact hf
  · exact hp

/-- `uhash_delete` on an empty-or-tombstoned bucket is the identity. -/
theorem uhash_delete_noop (h : UHash) (x : Nat)
    (hx : p_uhf_iseither (fget h.flags x) = true) : uhash_delete h x = h := by
  rw [uhash_delete, if_pos hx]

/-- `uhash_delete` on a live bucket: the bucket is tombstoned (keeping the
slot occupied), `_count` drops by one, and nothing else changes. -/
theorem uhash_delete_live (h : UHash) (x : Nat)
    (hlive : p_uhf_iseither (fget h.flags x) = false) :
    uhash_delete h x =
      { h with flags := h.flags.set x ⟨(fget h.flags x).isEmpty, true⟩,
               count := h.count - 1 } := by
  rw [uhash_delete, if_neg (by rw [hlive]; exact Bool.false_ne_true)]

/-- Deleting a live bucket preserves well-formedness. -/
theorem uhash_delete_wf (hash : Nat → Nat) (m : Nat) (h : UHash) (x : Nat)
    (hw : WfAt hash m h) (hx : x < h.size)
    (hlive : p_uhf_iseither (fget h.flags x) = false) :
    WfAt hash m (uhash_delete h x) := by
  have hx' : x < h.flags.length := by rw [hw.hflen, ← hw.hsize]; exact hx
  have hlv := (iseither_false_iff _).mp hlive
  rw [uhash_delete_live h x hlive]
  have hflag : ((⟨(fget h.flags x).isEmpty, true⟩ : Flag)).isEmpty = false := hlv.1
  refine ⟨hw.hm, hw.hm31, hw.hsize, by simpa using hw.hflen, hw.hklen, hw.hvlen, ?_, ?_, ?_, ?_⟩
  · -- count
    show h.count - 1 = countLive (h.flags.set x ⟨(fget h.flags x).isEmpty, true⟩)
    have hnew : p_uhf_iseither (⟨(fget h.flags x).isEmpty, true⟩ : Flag) = true := by
      rw [p_uhf_iseither]
      simp
    have hc := countLive_set h.flags x ⟨(fget h.flags x).isEmpty, true⟩ hx'
    rw [hlive, hnew] at hc
    simp at hc
    have hcpos := countLive_pos h.flags x hx' hlive
    rw [hw.hcount]
    omega
  · -- occupied
    show h.occupied = countNonEmpty (h.flags.set x ⟨(fget h.flags x).isEmpty, true⟩)
    have hc := countNonEmpty_set h.flags x ⟨(fget h.flags x).isEmpty, true⟩ hx'
    rw [hlv.1] at hc ⊢
    simp at hc
    rw [hw.hocc]
    omega
  · -- uniqueness
    intro i j hi hj hli hlj hk
    rw [fget_set] at hli hlj
    by_cases hix : x = i ∧ x < h.flags.length
    · exfalso
      rw [if_pos hix] at hli
      rw [p_uhf_iseither] at hli
      simp at hli
    · rw [if_neg hix] at hli
      by_cases hjx : x = j ∧ x < h.flags.length
      · exfalso
        rw [if_pos hjx] at hlj
        rw [p_uhf_iseither] at hlj
        simp at hlj
      · rw [if_neg hjx] at hlj
        exact hw.huniq i j hi hj hli hlj hk
  · -- reachability
    intro b hb hlb
    rw [fget_set] at hlb
    by_cases hbx : x = b ∧ x < h.flags.length
    · exfalso
      rw [if_pos hbx] at hlb
      rw [p_uhf_iseither] at hlb
      simp at hlb
    · rw [if_neg hbx] at hlb
      obtain ⟨t, ht, hpt, hne⟩ := hw.hreach b hb hlb
      exact ⟨t, ht, hpt, fun u hu => fget_set_isEmpty_mono _ _ _ _ hflag (hne u hu)⟩

/-! ## Insertion specification (no resize triggered) -/

theorem upper_bound_lt_self (s : Nat) (hs : 3 ≤ s) : p_uhash_upper_bound s < s := by
  rw [p_uhash_upper_bound]
  omega

/-- The probe part of `uhash_put` finds the live bucket holding the key. -/
theorem uhash_put_idx_hit (hash : Nat → Nat) (m : Nat) (h : UHash) (key b : Nat)
    (hw : WfAt hash m h)
    (hb : b < h.size) (hlive : p_uhf_iseither (fget h.flags b) = false)
    (hkey : kget h.keys b = key) :
    uhash_put_idx hash h key = some b := by
  have hpos := two_pow_pos m
  obtain ⟨t, ht, hpt, hne⟩ := hw.hreach b (hw.hsize ▸ hb) hlive
  rw [hkey] at hpt hne
  have hstart : hash key % 2 ^ m < 2 ^ m := Nat.mod_lt _ hpos
  rw [uhash_put_idx]
  rw [hw.hsize, Nat.and_pow_two_sub_one_eq_mod]
  have hs0 : (fget h.flags (hash key % 2 ^ m)).isEmpty = false := by
    cases t with
    | zero =>
      rw [probePos_zero m _ hstart] at hpt
      rw [hpt]
      exact ((iseither_false_iff _).mp hlive).1
    | succ t' =>
      have := hne 0 (by omega)
      rw [probePos_zero m _ hstart] at this
      exact this
  rw [if_neg (by rw [hs0]; exact Bool.false_ne_true)]
  have hmain := uhash_put_loop_hit h.flags h.keys key m (hash key % 2 ^ m) b t (2 ^ m)
    hstart ht hpt hne hlive hkey
    (fun j hj hlj hkj => hw.huniq j b hj (hw.hsize ▸ hb) hlj hlive (by rw [hkj, hkey]))
    (2 * 2 ^ m + 1) 0 (2 ^ m) (by omega) (by omega)
  rw [probePos_zero m _ hstart] at hmain
  exact hmain

/-- `uhash_put` of a key that is live in the table, when the load-factor
check does not fire: PRESENT, same table, index of the key's bucket. -/
theorem uhash_put_present (hash : Nat → Nat) (m : Nat) (h : UHash) (key b : Nat)
    (hw : WfAt hash m h)
    (hocc_lt : p_uhash_occupied h < p_uhash_upper_bound h.size)
    (hb : b < h.size) (hlive : p_uhf_iseither (fget h.flags b) = false)
    (hkey : kget h.keys b = key) :
    uhash_put hash h key = some (.UHASH_PRESENT, h, b) := by
  rw [uhash_put, if_neg (by omega), Option.some_bind, uhash_put_body,
    uhash_put_idx_hit hash m h key b hw hb hlive hkey, Option.map_some']
  rw [uhash_put_write]
  have hlv := (iseither_false_iff _).mp hlive
  rw [hlv.1, hlv.2]
  simp only [Bool.false_eq_true, if_false]
  rw [if_neg (by omega)]

/-- The probe part of `uhash_put` for an absent key in a table with an empty
bucket: the target is an in-range, probe-reachable, empty or tombstoned
bucket. -/
theorem uhash_put_idx_insert (hash : Nat → Nat) (m : Nat) (h : UHash) (key : Nat)
    (hw : WfAt hash m h)
    (hempty : ∃ e, e < 2 ^ m ∧ (fget h.flags e).isEmpty = true)
    (habs : ∀ b, b < h.size → p_uhf_iseither (fget h.flags b) = false →
      kget h.keys b ≠ key) :
    ∃ x, uhash_put_idx hash h key = some x ∧ x < 2 ^ m ∧
      probeReach h.flags m (hash key % 2 ^ m) x ∧
      ((fget h.flags x).isEmpty = true ∨ (fget h.flags x).isDel = true) := by
  have hpos := two_pow_pos m
  have hstart : hash key % 2 ^ m < 2 ^ m := Nat.mod_lt _ hpos
  rw [uhash_put_idx]
  rw [hw.hsize, Nat.and_pow_two_sub_one_eq_mod]
  by_cases hs0 : (fget h.flags (hash key % 2 ^ m)).isEmpty = true
  · refine ⟨hash key % 2 ^ m, ?_, hstart, ⟨0, by omega, probePos_zero m _ hstart, by omega⟩,
      Or.inl hs0⟩
    rw [if_pos hs0]
  · rw [if_neg hs0]
    obtain ⟨u_e, hue, hemp, hmin⟩ := exists_first_empty h.flags m (hash key % 2 ^ m) hempty
    have hm1 : 1 ≤ m := by have := hw.hm; omega
    have hsome := uhash_put_loop_isSome h.flags h.keys key m (hash key % 2 ^ m) hstart hm1
      u_e hue hemp hmin (2 * 2 ^ m + 1) 0 (2 ^ m) (by omega) (by omega)
    rw [probePos_zero m _ hstart] at hsome
    obtain ⟨x, hx⟩ := Option.isSome_iff_exists.mp hsome
    have hx0 : uhash_put_loop h.flags h.keys key (2 ^ m - 1) (hash key % 2 ^ m) (2 ^ m)
        (2 * 2 ^ m + 1) (probePos m (hash key % 2 ^ m) 0) 0 (2 ^ m) = some x := by
      rw [probePos_zero m _ hstart]
      exact hx
    obtain ⟨hxlt, hxr, hxc⟩ := uhash_put_loop_char h.flags h.keys key m (hash key % 2 ^ m)
      hstart hm1 u_e hue hemp hmin (2 * 2 ^ m + 1) 0 (2 ^ m) x (by omega) (Or.inl rfl) hx0
    refine ⟨x, hx, hxlt, hxr, ?_⟩
    rcases hxc with h1 | h2 | h3
    · exact Or.inl h1
    · exact Or.inr h2
    · by_cases hxe : (fget h.flags x).isEmpty = true
      · exact Or.inl hxe
      · by_cases hxd : (fget h.flags x).isDel = true
        · exact Or.inr hxd
        · exact absurd h3 (habs x (by rw [hw.hsize]; omega)
            ((iseither_false_iff _).mpr ⟨Bool.of_not_eq_true hxe, Bool.of_not_eq_true hxd⟩))

/-- `uhash_put` of an absent key, when the load-factor check does not fire:
INSERTED at an in-range bucket, with the key written there, the bucket made
live, `_count` incremented, `_occupied` incremented exactly when the bucket
was truly empty — and the result is well-formed again. -/
theorem uhash_put_inserted (hash : Nat → Nat) (m : Nat) (h : UHash) (key : Nat)
    (hw : WfAt hash m h)
    (hocc_lt : p_uhash_occupied h < p_uhash_upper_bound h.size)
    (habs : ∀ b, b < h.size → p_uhf_iseither (fget h.flags b) = false →
      kget h.keys b ≠ key) :
    ∃ x h', uhash_put hash h key = some (.UHASH_INSERTED, h', x) ∧ x < h.size ∧
      h'.size = h.size ∧ h'.count = h.count + 1 ∧ h'.vals = h.vals ∧
      h'.keys = h.keys.set x key ∧ h'.flags = h.flags.set x ⟨false, false⟩ ∧
      h'.occupied = (if (fget h.flags x).isEmpty then h.occupied + 1 else h.occupied) ∧
      WfAt hash m h' := by
  have hpos := two_pow_pos m
  have h4 : 4 ≤ 2 ^ m := by
    calc 4 = 2 ^ 2 := by norm_num
    _ ≤ 2 ^ m := Nat.pow_le_pow_right (by norm_num) hw.hm
  have hoccv : p_uhash_occupied h = h.occupied := by
    rw [p_uhash_occupied, if_neg]
    rw [hw.hocc, hw.hsize]
    have := countNonEmpty_le_length h.flags
    rw [hw.hflen] at this
    omega
  have hempty : ∃ e, e < 2 ^ m ∧ (fget h.flags e).isEmpty = true := by
    have hub := upper_bound_lt_self (2 ^ m) (by omega)
    have hlt : countNonEmpty h.flags < h.flags.length := by
      rw [hw.hflen]
      rw [hoccv, hw.hocc, hw.hsize] at hocc_lt
      omega
    obtain ⟨e, he, hee⟩ := exists_empty_of_countNonEmpty_lt h.flags hlt
    exact ⟨e, by rw [← hw.hflen]; exact he, hee⟩
  obtain ⟨x, hx, hxlt, hxr, hxed⟩ := uhash_put_idx_insert hash m h key hw hempty habs
  have hnotlive : p_uhf_iseither (fget h.flags x) = true := by
    rw [p_uhf_iseither]
    rcases hxed with h1 | h2
    · rw [h1]; rfl
    · rw [h2]; simp
  have hxlen : x < h.flags.length := by rw [hw.hflen]; exact hxlt
  have hxklen : x < h.keys.length := by rw [hw.hklen]; exact hxlt
  rw [uhash_put, if_neg (by omega), Option.some_bind, uhash_put_body, hx, Option.map_some']
  rw [uhash_put_write]
  have hxsz : ¬ (x = h.size) := by rw [hw.hsize]; omega
  -- common well-formedness pieces for the updated table
  have hflen' : (h.flags.set x ⟨false, false⟩).length = 2 ^ m := by
    rw [List.length_set]; exact hw.hflen
  have hklen' : (h.keys.set x key).length = 2 ^ m := by
    rw [List.length_set]; exact hw.hklen
  have hcount' : h.count + 1 = countLive (h.flags.set x ⟨false, false⟩) := by
    have hnew : p_uhf_iseither (⟨false, false⟩ : Flag) = false := rfl
    have hc := countLive_set h.flags x ⟨false, false⟩ hxlen
    rw [hnotlive, hnew] at hc
    simp at hc
    rw [hw.hcount]
    omega
  have hkx : kget (h.keys.set x key) x = key := by
    rw [kget_set, if_pos ⟨rfl, hxklen⟩]
  have hkother : ∀ j, j ≠ x → kget (h.keys.set x key) j = kget h.keys j := by
    intro j hj
    rw [kget_set, if_neg (by intro hc; exact hj hc.1.symm)]
  have hfx : fget (h.flags.set x ⟨false, false⟩) x = ⟨false, false⟩ := by
    rw [fget_set, if_pos ⟨rfl, hxlen⟩]
  have hfother : ∀ j, j ≠ x →
      fget (h.flags.set x ⟨false, false⟩) j = fget h.flags j := by
    intro j hj
    rw [fget_set, if_neg (by intro hc; exact hj hc.1.symm)]
  have huniq' : ∀ i j, i < 2 ^ m → j < 2 ^ m →
      p_uhf_iseither (fget (h.flags.set x ⟨false, false⟩) i) = false →
      p_uhf_iseither (fget (h.flags.set x ⟨false, false⟩) j) = false →
      kget (h.keys.set x key) i = kget (h.keys.set x key) j → i = j := by
    intro i j hi hj hli hlj hk
    by_cases hix : i = x
    · by_cases hjx : j = x
      · rw [hix, hjx]
      · exfalso
        rw [hfother j hjx] at hlj
        rw [hix, hkx] at hk
        rw [hkother j hjx] at hk
        exact habs j (by rw [hw.hsize]; omega) hlj hk.symm
    · by_cases hjx : j = x
      · exfalso
        rw [hfother i hix] at hli
        rw [hjx, hkx] at hk
        rw [hkother i hix] at hk
        exact habs i (by rw [hw.hsize]; omega) hli hk
      · rw [hfother i hix] at hli
        rw [hfother j hjx] at hlj
        rw [hkother i hix, hkother j hjx] at hk
        exact hw.huniq i j hi hj hli hlj hk
  have hreach' : ∀ b, b < 2 ^ m →
      p_uhf_iseither (fget (h.flags.set x ⟨false, false⟩) b) = false →
      probeReach (h.flags.set x ⟨false, false⟩) m
        (hash (kget (h.keys.set x key) b) % 2 ^ m) b := by
    intro b hb hlb
    by_cases hbx : b = x
    · subst hbx
      rw [hkx]
      obtain ⟨t, ht, hpt, hne⟩ := hxr
      exact ⟨t, ht, hpt, fun u hu => fget_set_isEmpty_mono _ _ _ _ rfl (hne u hu)⟩
    · rw [hfother b hbx] at hlb
      rw [hkother b hbx]
      obtain ⟨t, ht, hpt, hne⟩ := hw.hreach b hb hlb
      exact ⟨t, ht, hpt, fun u hu => fget_set_isEmpty_mono _ _ _ _ rfl (hne u hu)⟩
  by_cases hxe : (fget h.flags x).isEmpty = true
  · -- truly empty bucket
    rw [if_pos hxe, if_neg hxsz]
    refine ⟨x, _, rfl, hw.hsize ▸ hxlt, rfl, rfl, rfl, rfl, rfl, by rw [if_pos hxe], ?_⟩
    refine ⟨hw.hm, hw.hm31, hw.hsize, hflen', hklen', hw.hvlen, hcount', ?_, huniq', hreach'⟩
    show h.occupied + 1 = countNonEmpty (h.flags.set x ⟨false, false⟩)
    have hc := countNonEmpty_set h.flags x ⟨false, false⟩ hxlen
    rw [hxe] at hc
    simp at hc
    rw [hw.hocc]
    omega
  · -- tombstoned bucket (the code tests isEmpty first)
    have hxe0 : (fget h.flags x).isEmpty = false := Bool.of_not_eq_true hxe
    have hxd : (fget h.flags x).isDel = true := by
      rcases hxed with h1 | h2
      · exact absurd h1 hxe
      · exact h2
    rw [if_neg hxe, if_pos hxd, if_neg hxsz]
    refine ⟨x, _, rfl, hw.hsize ▸ hxlt, rfl, rfl, rfl, rfl, rfl, by rw [hxe0]; simp, ?_⟩
    refine ⟨hw.hm, hw.hm31, hw.hsize, hflen', hklen', hw.hvlen, hcount', ?_, huniq', hreach'⟩
    show h.occupied = countNonEmpty (h.flags.set x ⟨false, false⟩)
    have hc := countNonEmpty_set h.flags x ⟨false, false⟩ hxlen
    rw [hxe0] at hc
    simp at hc
    rw [hw.hocc]
    omega

/-! ## Decidable well-formedness checker (for concrete witnesses) -/

/-- Boolean version of `probeReach`. -/
def probeReachB (flags : List Flag) (m start b : Nat) : Bool :=
  (List.range (2 * 2 ^ m - 1)).any (fun t =>
    decide (probePos m start t = b) &&
      (List.range t).all (fun u => !(fget flags (probePos m start u)).isEmpty))

theorem probeReachB_sound (flags : List Flag) (m start b : Nat)
    (h : probeReachB flags m start b = true) : probeReach flags m start b := by
  rw [probeReachB, List.any_eq_true] at h
  obtain ⟨t, htmem, hton⟩ := h
  rw [List.mem_range] at htmem
  rw [Bool.and_eq_true, decide_eq_true_eq, List.all_eq_true] at hton
  refine ⟨t, by omega, hton.1, ?_⟩
  intro u hu
  have := hton.2 u (List.mem_range.mpr hu)
  simpa using this

/-- Executable well-formedness check. -/
def wfCheck (hash : Nat → Nat) (m : Nat) (h : UHash) : Bool :=
  decide (2 ≤ m) && decide (m ≤ 31) && decide (h.size = 2 ^ m) &&
  decide (h.flags.length = 2 ^ m) && decide (h.keys.length = 2 ^ m) &&
  (match h.vals with
   | none => true
   | some vl => decide (vl.length = 2 ^ m)) &&
  decide (h.count = countLive h.flags) && decide (h.occupied = countNonEmpty h.flags) &&
  decide (∀ i, i < 2 ^ m → ∀ j, j < 2 ^ m →
    p_uhf_iseither (fget h.flags i) = false → p_uhf_iseither (fget h.flags j) = false →
    kget h.keys i = kget h.keys j → i = j) &&
  decide (∀ b, b < 2 ^ m → p_uhf_iseither (fget h.flags b) = false →
    probeReachB h.flags m (hash (kget h.keys b) % 2 ^ m) b = true)

theorem wfCheck_sound (hash : Nat → Nat) (m : Nat) (h : UHash)
    (hchk : wfCheck hash m h = true) : WfAt hash m h := by
  rw [wfCheck] at hchk
  simp only [Bool.and_eq_true, decide_eq_true_eq] at hchk
  obtain ⟨⟨⟨⟨⟨⟨⟨⟨⟨h1, h2⟩, h3⟩, h4⟩, h5⟩, h6⟩, h7⟩, h8⟩, h9⟩, h10⟩ := hchk
  refine ⟨h1, h2, h3, h4, h5, ?_, h7, h8, fun i j hi hj => h9 i hi j hj, ?_⟩
  · intro vl hvl
    rw [hvl] at h6
    simpa using h6
  · intro b hb hlb
    exact probeReachB_sound _ _ _ _ (h10 b hb hlb)

/-! ## Get after delete -/

/-- After tombstoning the live bucket of a key, looking that key up answers
the missing sentinel. -/
theorem uhash_delete_then_get (hash : Nat → Nat) (m : Nat) (h : UHash) (b : Nat)
    (hw : WfAt hash m h) (hb : b < h.size)
    (hlive : p_uhf_iseither (fget h.flags b) = false) :
    uhash_get hash (uhash_delete h b) (kget h.keys b) = some UHASH_INDEX_MISSING := by
  have hwd := uhash_delete_wf hash m h b hw hb hlive
  refine uhash_get_miss hash m _ _ hwd ?_
  intro j hj hlj hkj
  rw [uhash_delete_live h b hlive] at hj hlj hkj
  simp only at hj hlj hkj
  rw [fget_set] at hlj
  by_cases hjb : b = j ∧ b < h.flags.length
  · rw [if_pos hjb] at hlj
    rw [p_uhf_iseither] at hlj
    simp at hlj
  · rw [if_neg hjb] at hlj
    have hblen : b < h.flags.length := by rw [hw.hflen, ← hw.hsize]; exact hb
    have hjne : j ≠ b := by
      intro hx
      exact hjb ⟨hx.symm, hblen⟩
    exact hjne (hw.huniq j b (hw.hsize ▸ hj) (hw.hsize ▸ hb) hlj hlive hkj)

/-! ## C4: inserting a present key -/

/-- C4 (amended): provided the insertion does not trigger the load-factor
resize (`p_uhash_occupied h < p_uhash_upper_bound h.size`), `uhash_put` of a
key that is live at bucket `b` returns PRESENT with index `b` and leaves the
table — counters, flags, keys, values — completely unchanged; and in the
concrete scenario, after inserting keys 0..99 into an empty set, inserting 0
again returns PRESENT and `_count` stays 100. -/
theorem C4_put_present_noop (hash : Nat → Nat) (m : Nat) (h : UHash) (key b : Nat)
    (hw : WfAt hash m h)
    (hocc_lt : p_uhash_occupied h < p_uhash_upper_bound h.size)
    (hb : b < h.size) (hlive : p_uhf_iseither (fget h.flags b) = false)
    (hkey : kget h.keys b = key) :
    uhash_put hash h key = some (.UHASH_PRESENT, h, b) ∧
      ((putList id uhset (List.range 100)).bind (fun t => uhash_put id t 0)).map
        (fun r => (r.1, r.2.1.count)) = some (.UHASH_PRESENT, 100) :=
  ⟨uhash_put_present hash m h key b hw hocc_lt hb hlive hkey, by decide⟩

/-- Witness for `C4_put_present_noop`: the capacity-4 set `{0, 1}`. -/
theorem C4_witness :
    uhash_put id
        ⟨4, 2, 2, [⟨false, false⟩, ⟨false, false⟩, ⟨true, false⟩, ⟨true, false⟩],
          [0, 1, 0, 0], none⟩ 0 =
      some (.UHASH_PRESENT,
        ⟨4, 2, 2, [⟨false, false⟩, ⟨false, false⟩, ⟨true, false⟩, ⟨true, false⟩],
          [0, 1, 0, 0], none⟩, 0) ∧
      ((putList id uhset (List.range 100)).bind (fun t => uhash_put id t 0)).map
        (fun r => (r.1, r.2.1.count)) = some (.UHASH_PRESENT, 100) :=
  C4_put_present_noop id 2
    ⟨4, 2, 2, [⟨false, false⟩, ⟨false, false⟩, ⟨true, false⟩, ⟨true, false⟩],
      [0, 1, 0, 0], none⟩ 0 0
    (wfCheck_sound id 2 _ (by decide)) (by decide) (by decide) (by decide) (by decide)

/-! ## Power-of-two rounding lemmas -/

theorem p_next_power_2_go_spec (n : Nat) (hn : 1 ≤ n) :
    ∀ fuel j, 2 ^ j < 2 * n → n ≤ 2 ^ j * 2 ^ fuel →
      ∃ k, p_next_power_2_go n fuel (2 ^ j) = 2 ^ k ∧ n ≤ 2 ^ k ∧ 2 ^ k < 2 * n := by
  intro fuel
  induction fuel with
  | zero =>
    intro j hj hle
    rw [p_next_power_2_go]
    exact ⟨j, rfl, by simpa using hle, hj⟩
  | succ f ih =>
    intro j hj hle
    rw [p_next_power_2_go]
    by_cases hna : n ≤ 2 ^ j
    · rw [if_pos hna]
      exact ⟨j, rfl, hna, hj⟩
    · rw [if_neg hna]
      have h2 : 2 * 2 ^ j = 2 ^ (j + 1) := by rw [pow_succ]; ring
      rw [h2]
      refine ih (j + 1) (by omega) ?_
      calc n ≤ 2 ^ j * 2 ^ (f + 1) := hle
      _ = 2 ^ (j + 1) * 2 ^ f := by rw [pow_succ, pow_succ]; ring

theorem ulib_uint_next_power_2_spec (n : Nat) (hn : 1 ≤ n) :
    ∃ k, ulib_uint_next_power_2 n = 2 ^ k ∧ n ≤ 2 ^ k ∧ 2 ^ k < 2 * n := by
  rw [ulib_uint_next_power_2, if_neg (by omega)]
  have h0 : (1 : Nat) = 2 ^ 0 := rfl
  rw [h0]
  refine p_next_power_2_go_spec n hn n 0 (by omega) ?_
  simpa using Nat.le_of_lt (Nat.lt_two_pow n)

/-- Rounding a power of two `≥ 4` yields it unchanged. -/
theorem p_resize_size_pow (k : Nat) (hk : 2 ≤ k) : p_resize_size (2 ^ k) = 2 ^ k := by
  have h4 : 4 ≤ 2 ^ k := by
    calc 4 = 2 ^ 2 := by norm_num
    _ ≤ 2 ^ k := Nat.pow_le_pow_right (by norm_num) hk
  obtain ⟨j, hj, hle, hlt⟩ := ulib_uint_next_power_2_spec (2 ^ k) (by omega)
  have hkk : (2 : Nat) ^ j = 2 ^ k := by
    have hd : 2 * 2 ^ k = 2 ^ (k + 1) := by rw [pow_succ]; ring
    rcases Nat.lt_trichotomy j k with hc | hc | hc
    · have := Nat.pow_le_pow_right (show 1 ≤ 2 by norm_num) (show j + 1 ≤ k by omega)
      rw [pow_succ] at this
      omega
    · rw [hc]
    · have := Nat.pow_le_pow_right (show 1 ≤ 2 by norm_num) (show k + 1 ≤ j by omega)
      rw [pow_succ] at this
      omega
  rw [p_resize_size, hj, hkk, if_neg (by omega)]

/-- Rounding `2 ^ k - 1` (`k ≥ 2`) yields `2 ^ k`: the "shrink" request
`resize(size - 1)` actually re-targets the current capacity. -/
theorem p_resize_size_pred (k : Nat) (hk : 2 ≤ k) : p_resize_size (2 ^ k - 1) = 2 ^ k := by
  have h4 : 4 ≤ 2 ^ k := by
    calc 4 = 2 ^ 2 := by norm_num
    _ ≤ 2 ^ k := Nat.pow_le_pow_right (by norm_num) hk
  obtain ⟨j, hj, hle, hlt⟩ := ulib_uint_next_power_2_spec (2 ^ k - 1) (by omega)
  have hkk : (2 : Nat) ^ j = 2 ^ k := by
    rcases Nat.lt_trichotomy j k with hc | hc | hc
    · -- 2 ^ j ≥ 2 ^ k - 1 with j < k impossible for 2 ^ k ≥ 4
      have h1 := Nat.pow_le_pow_right (show 1 ≤ 2 by norm_num) (show j + 1 ≤ k by omega)
      rw [pow_succ] at h1
      omega
    · rw [hc]
    · have h1 := Nat.pow_le_pow_right (show 1 ≤ 2 by norm_num) (show k + 1 ≤ j by omega)
      rw [pow_succ] at h1
      omega
  rw [p_resize_size, hj, hkk, if_neg (by omega)]

/-- Rounding `2 ^ k + 1` (`k ≥ 2`) yields `2 ^ (k + 1)`: the "grow" request
`resize(size + 1)` doubles the capacity. -/
theorem p_resize_size_succ (k : Nat) (hk : 2 ≤ k) :
    p_resize_size (2 ^ k + 1) = 2 ^ (k + 1) := by
  have h4 : 4 ≤ 2 ^ k := by
    calc 4 = 2 ^ 2 := by norm_num
    _ ≤ 2 ^ k := Nat.pow_le_pow_right (by norm_num) hk
  obtain ⟨j, hj, hle, hlt⟩ := ulib_uint_next_power_2_spec (2 ^ k + 1) (by omega)
  have hs : 2 ^ (k + 1) = 2 * 2 ^ k := by rw [pow_succ]; ring
  have hkk : (2 : Nat) ^ j = 2 ^ (k + 1) := by
    rcases Nat.lt_trichotomy j (k + 1) with hc | hc | hc
    · have h1 := Nat.pow_le_pow_right (show 1 ≤ 2 by norm_num) (show j ≤ k by omega)
      omega
    · rw [hc]
    · have h1 := Nat.pow_le_pow_right (show 1 ≤ 2 by norm_num) (show k + 2 ≤ j by omega)
      have h2 : (2 : Nat) ^ (k + 2) = 4 * 2 ^ k := by rw [pow_succ, pow_succ]; ring
      omega
  rw [p_resize_size, hj, hkk, if_neg (by omega)]

/-! ## The kick-out probe of the rehash -/

/-- A `some` answer of `p_find_empty` is the first empty bucket along the
probe sequence, and it lies within the first `2 ^ M` positions. -/
theorem p_find_empty_char (nflags : List Flag) (M start : Nat) (hstart : start < 2 ^ M) :
    ∀ fuel u r, (∀ u', u' < u → (fget nflags (probePos M start u')).isEmpty = false) →
      p_find_empty nflags (2 ^ M - 1) fuel (probePos M start u) u = some r →
      ∃ t, probePos M start t = r ∧ (fget nflags r).isEmpty = true ∧ t < 2 ^ M ∧
        ∀ u', u' < t → (fget nflags (probePos M start u')).isEmpty = false := by
  intro fuel
  induction fuel with
  | zero =>
    intro u r hbefore h
    simp [p_find_empty] at h
  | succ f ih =>
    intro u r hbefore h
    rw [p_find_empty] at h
    by_cases he : (fget nflags (probePos M start u)).isEmpty = true
    · rw [if_pos he] at h
      cases h
      refine ⟨u, rfl, he, ?_, hbefore⟩
      -- the first empty position is within the first 2 ^ M probes: the first
      -- 2 ^ M positions cover every bucket, including the exit bucket itself
      by_contra huge
      push_neg at huge
      obtain ⟨u0, hu0, hup⟩ := probePos_surj M start (probePos M start u)
        (probePos_lt M start u)
      have hne := hbefore u0 (by omega)
      rw [hup] at hne
      rw [hne] at he
      exact Bool.false_ne_true he
    · rw [if_neg he] at h
      rw [probePos_advance M start u] at h
      refine ih (u + 1) r ?_ h
      intro u' hu'
      rcases Nat.lt_or_ge u' u with hx | hx
      · exact hbefore u' hx
      · have : u' = u := by omega
        rw [this]
        exact Bool.of_not_eq_true he

/-! ## Rehash invariant -/

theorem vget_none (i : Nat) : vget none i = 0 := rfl

theorem vset_none (i v : Nat) : vset none i v = none := rfl

theorem vget_vset_self (vl : List Nat) (i v : Nat) (hi : i < vl.length) :
    vget (vset (some vl) i v) i = v := by
  show (vl.set i v).getD i 0 = v
  rw [getD_set, if_pos ⟨rfl, hi⟩]

theorem vget_vset_ne (vs : Option (List Nat)) (i j v : Nat) (hne : i ≠ j) :
    vget (vset vs i v) j = vget vs j := by
  cases vs with
  | none => rfl
  | some vl =>
    show (vl.set i v).getD j 0 = vl.getD j 0
    rw [getD_set, if_neg (by intro hc; exact hne hc.1)]

/-- An entry still waiting in the old table during the rehash. -/
def keyPend (m : Nat) (st : RehashSt) (k v : Nat) : Prop :=
  ∃ j, j < 2 ^ m ∧ p_uhf_iseither (fget st.oflags j) = false ∧
    kget st.keys j = k ∧ vget st.vals j = v

/-- An entry already placed in the new table during the rehash. -/
def keyDone (M : Nat) (st : RehashSt) (k v : Nat) : Prop :=
  ∃ i, i < 2 ^ M ∧ (fget st.nflags i).isEmpty = false ∧
    kget st.keys i = k ∧ vget st.vals i = v

/-- Invariant of the in-place kick-out rehash from `2 ^ m` old buckets into
`2 ^ M` new buckets, relative to the original table `h`: array bounds, data
of still-unprocessed old entries intact, the processed/placed sides disjoint
(they share the key and value storage), and the already-placed part of the
new table well-formed. -/
structure RehashInv (hash : Nat → Nat) (m M : Nat) (h : UHash) (st : RehashSt) : Prop where
  holen : st.oflags.length = 2 ^ m
  hnlen : st.nflags.length = 2 ^ M
  hklen : st.keys.length = max (2 ^ m) (2 ^ M)
  hvlen : ∀ vl, st.vals = some vl → vl.length = max (2 ^ m) (2 ^ M)
  hvnone : st.vals = none → h.vals = none
  hold : ∀ j, j < 2 ^ m → p_uhf_iseither (fget st.oflags j) = false →
    p_uhf_iseither (fget h.flags j) = false ∧ kget st.keys j = kget h.keys j ∧
      vget st.vals j = vget h.vals j
  hdisj : ∀ i, (fget st.nflags i).isEmpty = false → p_uhf_iseither (fget st.oflags i) = true
  hreachN : ∀ i, i < 2 ^ M → (fget st.nflags i).isEmpty = false →
    probeReach st.nflags M (hash (kget st.keys i) % 2 ^ M) i
  huniqN : ∀ i j, i < 2 ^ M → j < 2 ^ M → (fget st.nflags i).isEmpty = false →
    (fget st.nflags j).isEmpty = false → kget st.keys i = kget st.keys j → i = j
  hcross : ∀ i j, i < 2 ^ M → j < 2 ^ m → (fget st.nflags i).isEmpty = false →
    p_uhf_iseither (fget st.oflags j) = false → kget st.keys i ≠ kget st.keys j

/-- One full kick-out chain preserves the rehash invariant, keeps the entry
accounting exact, and never revives an old bucket. -/
theorem p_kick_chain_spec (hash : Nat → Nat) (m M : Nat) (h : UHash)
    (huniqO : ∀ i j, i < 2 ^ m → j < 2 ^ m →
      p_uhf_iseither (fget h.flags i) = false → p_uhf_iseither (fget h.flags j) = false →
      kget h.keys i = kget h.keys j → i = j) :
    ∀ fuel st key val st',
      p_kick_chain hash (2 ^ M - 1) (2 ^ m) fuel st key val = some st' →
      RehashInv hash m M h st →
      countLive st.oflags + countNonEmpty st.nflags + 1 = countLive h.flags →
      (∃ j0, j0 < 2 ^ m ∧ p_uhf_iseither (fget h.flags j0) = false ∧
        kget h.keys j0 = key ∧ vget h.vals j0 = val) →
      (∀ j, j < 2 ^ m → p_uhf_iseither (fget st.oflags j) = false →
        kget st.keys j ≠ key) →
      (∀ i, i < 2 ^ M → (fget st.nflags i).isEmpty = false → kget st.keys i ≠ key) →
      RehashInv hash m M h st' ∧
      countLive st'.oflags + countNonEmpty st'.nflags = countLive h.flags ∧
      (∀ j, p_uhf_iseither (fget st.oflags j) = true →
        p_uhf_iseither (fget st'.oflags j) = true) ∧
      (∀ k v, keyPend m st k v ∨ keyDone M st k v ∨ (k = key ∧ v = val) →
        keyPend m st' k v ∨ keyDone M st' k v) ∧
      (∀ k v, keyDone M st' k v →
        keyDone M st k v ∨ keyPend m st k v ∨ (k = key ∧ v = val)) := by
  have hpos := two_pow_pos M
  intro fuel
  induction fuel with
  | zero =>
    intro st key val st' heq
    simp [p_kick_chain] at heq
  | succ f ih =>
    intro st key val st' heq hinv hcnt horig hfreshO hfreshN
    rw [p_kick_chain] at heq
    have hstart : hash key % 2 ^ M < 2 ^ M := Nat.mod_lt _ hpos
    have hand : hash key &&& (2 ^ M - 1) = probePos M (hash key % 2 ^ M) 0 := by
      rw [Nat.and_pow_two_sub_one_eq_mod, probePos_zero M _ hstart]
    rw [hand] at heq
    cases hfe : p_find_empty st.nflags (2 ^ M - 1) (2 * (2 ^ M - 1 + 1) + 1)
        (probePos M (hash key % 2 ^ M) 0) 0 with
    | none => rw [hfe] at heq; exact absurd heq (by simp)
    | some i =>
      rw [hfe] at heq
      simp only at heq
      obtain ⟨t, hpt, hie, htlt, hbef⟩ :=
        p_find_empty_char st.nflags M (hash key % 2 ^ M) hstart _ 0 i (by omega) hfe
      have hilt : i < 2 ^ M := by rw [← hpt]; exact probePos_lt M _ t
      have hinlen : i < st.nflags.length := by rw [hinv.hnlen]; exact hilt
      have hiklen : i < st.keys.length := by
        rw [hinv.hklen]
        exact Nat.lt_of_lt_of_le hilt (Nat.le_max_right _ _)
      -- facts about the placed bucket in the updated new flags
      have hnfx : fget (st.nflags.set i ⟨false, (fget st.nflags i).isDel⟩) i
          = ⟨false, (fget st.nflags i).isDel⟩ := by
        rw [fget_set, if_pos ⟨rfl, hinlen⟩]
      have hnfother : ∀ p, p ≠ i →
          fget (st.nflags.set i ⟨false, (fget st.nflags i).isDel⟩) p = fget st.nflags p := by
        intro p hp
        rw [fget_set, if_neg (by intro hc; exact hp hc.1.symm)]
      have hkself : kget (st.keys.set i key) i = key := by
        rw [kget_set, if_pos ⟨rfl, hiklen⟩]
      have hkother : ∀ p, p ≠ i → kget (st.keys.set i key) p = kget st.keys p := by
        intro p hp
        rw [kget_set, if_neg (by intro hc; exact hp hc.1.symm)]
      have hvself : vget (vset st.vals i val) i = val := by
        cases hv : st.vals with
        | none =>
          rw [vset_none, vget_none]
          obtain ⟨j0, _, _, _, hval⟩ := horig
          rw [hinv.hvnone hv, vget_none] at hval
          exact hval
        | some vl =>
          refine vget_vset_self vl i val ?_
          rw [hinv.hvlen vl hv]
          exact Nat.lt_of_lt_of_le hilt (Nat.le_max_right _ _)
      have hvother : ∀ p, p ≠ i → vget (vset st.vals i val) p = vget st.vals p := by
        intro p hp
        exact vget_vset_ne st.vals i p val (fun hc => hp hc.symm)
      have hplaced_ne : ∀ p, (fget st.nflags p).isEmpty = false → p ≠ i := by
        intro p hp hc
        rw [hc, hie] at hp
        exact Bool.false_ne_true hp.symm
      have hcntN : countNonEmpty (st.nflags.set i ⟨false, (fget st.nflags i).isDel⟩)
          = countNonEmpty st.nflags + 1 := by
        have hc := countNonEmpty_set st.nflags i ⟨false, (fget st.nflags i).isDel⟩ hinlen
        rw [hie] at hc
        simpa using hc
      -- reach of the new placement, in the updated new flags
      have hreach_i : probeReach (st.nflags.set i ⟨false, (fget st.nflags i).isDel⟩) M
          (hash key % 2 ^ M) i := by
        refine ⟨t, by omega, hpt, ?_⟩
        intro u hu
        exact fget_set_isEmpty_mono _ _ _ _ rfl (hbef u hu)
      by_cases hcond : (decide (i < 2 ^ m) && !p_uhf_iseither (fget st.oflags i)) = true
      · -- eviction: the new slot still holds an unprocessed old entry
        rw [if_pos hcond] at heq
        rw [Bool.and_eq_true, decide_eq_true_eq] at hcond
        obtain ⟨him, hilive⟩ := hcond
        have hilive' : p_uhf_iseither (fget st.oflags i) = false := by
          cases hx : p_uhf_iseither (fget st.oflags i)
          · rfl
          · rw [hx] at hilive; simp at hilive
        have hioklen : i < st.oflags.length := by rw [hinv.holen]; exact him
        obtain ⟨hioldlive, hikey, hival⟩ := hinv.hold i him hilive'
        have hofx : fget (st.oflags.set i ⟨(fget st.oflags i).isEmpty, true⟩) i
            = ⟨(fget st.oflags i).isEmpty, true⟩ := by
          rw [fget_set, if_pos ⟨rfl, hioklen⟩]
        have hofother : ∀ p, p ≠ i →
            fget (st.oflags.set i ⟨(fget st.oflags i).isEmpty, true⟩) p
              = fget st.oflags p := by
          intro p hp
          rw [fget_set, if_neg (by intro hc; exact hp hc.1.symm)]
        have hofx_dead :
            p_uhf_iseither (fget (st.oflags.set i ⟨(fget st.oflags i).isEmpty, true⟩) i)
              = true := by
          rw [hofx, p_uhf_iseither]
          simp
        have holive2 : ∀ j, j < 2 ^ m →
            p_uhf_iseither (fget (st.oflags.set i ⟨(fget st.oflags i).isEmpty, true⟩) j)
              = false →
            j ≠ i ∧ p_uhf_iseither (fget st.oflags j) = false := by
          intro j hj hlj
          by_cases hji : j = i
          · rw [hji, hofx_dead] at hlj
            exact absurd hlj (by simp)
          · rw [hofother j hji] at hlj
            exact ⟨hji, hlj⟩
        have hkey_ne : key ≠ kget st.keys i := fun hc => hfreshO i him hilive' hc.symm
        have hinv2 : RehashInv hash m M h
            ⟨st.oflags.set i ⟨(fget st.oflags i).isEmpty, true⟩,
             st.nflags.set i ⟨false, (fget st.nflags i).isDel⟩,
             st.keys.set i key, vset st.vals i val⟩ := by
          refine ⟨?_, ?_, ?_, ?_, ?_, ?_, ?_, ?_, ?_, ?_⟩
          · show (st.oflags.set i _).length = 2 ^ m
            rw [List.length_set]
            exact hinv.holen
          · show (st.nflags.set i _).length = 2 ^ M
            rw [List.length_set]
            exact hinv.hnlen
          · show (st.keys.set i key).length = max (2 ^ m) (2 ^ M)
            rw [List.length_set]
            exact hinv.hklen
          · intro vl hvl
            have hvl2 : vset st.vals i val = some vl := hvl
            cases hv : st.vals with
            | none => rw [hv, vset_none] at hvl2; exact absurd hvl2 (by simp)
            | some vl0 =>
              rw [hv] at hvl2
              simp only [vset, Option.map_some'] at hvl2
              cases hvl2
              rw [List.length_set]
              exact hinv.hvlen vl0 hv
          · intro hv
            have hv2 : vset st.vals i val = none := hv
            cases hv3 : st.vals with
            | none => exact hinv.hvnone hv3
            | some vl0 =>
              rw [hv3] at hv2
              simp [vset] at hv2
          · intro j hj hlj
            obtain ⟨hji, hlj'⟩ := holive2 j hj hlj
            obtain ⟨ho1, ho2, ho3⟩ := hinv.hold j hj hlj'
            refine ⟨ho1, ?_, ?_⟩
            · show kget (st.keys.set i key) j = _
              rw [hkother j hji]
              exact ho2
            · show vget (vset st.vals i val) j = _
              rw [hvother j hji]
              exact ho3
          · intro p hp
            have hp2 : (fget (st.nflags.set i ⟨false, (fget st.nflags i).isDel⟩) p).isEmpty
                = false := hp
            by_cases hpi : p = i
            · rw [hpi]
              exact hofx_dead
            · rw [hnfother p hpi] at hp2
              show p_uhf_iseither (fget (st.oflags.set i _) p) = true
              rw [hofother p hpi]
              exact hinv.hdisj p hp2
          · intro p hplt hp
            have hp2 : (fget (st.nflags.set i ⟨false, (fget st.nflags i).isDel⟩) p).isEmpty
                = false := hp
            by_cases hpi : p = i
            · subst hpi
              show probeReach _ M (hash (kget (st.keys.set p key) p) % 2 ^ M) p
              rw [hkself]
              exact hreach_i
            · rw [hnfother p hpi] at hp2
              show probeReach _ M (hash (kget (st.keys.set i key) p) % 2 ^ M) p
              rw [hkother p hpi]
              obtain ⟨t2, ht2, hpt2, hne2⟩ := hinv.hreachN p hplt hp2
              exact ⟨t2, ht2, hpt2, fun u hu => fget_set_isEmpty_mono _ _ _ _ rfl (hne2 u hu)⟩
          · intro p q hplt hqlt hp hq hkpq
            have hp2 : (fget (st.nflags.set i ⟨false, (fget st.nflags i).isDel⟩) p).isEmpty
                = false := hp
            have hq2 : (fget (st.nflags.set i ⟨false, (fget st.nflags i).isDel⟩) q).isEmpty
                = false := hq
            have hkpq2 : kget (st.keys.set i key) p = kget (st.keys.set i key) q := hkpq
            by_cases hpi : p = i
            · by_cases hqi : q = i
              · rw [hpi, hqi]
              · exfalso
                rw [hnfother q hqi] at hq2
                rw [hpi, hkself, hkother q hqi] at hkpq2
                exact hfreshN q hqlt hq2 hkpq2.symm
            · rw [hnfother p hpi] at hp2
              by_cases hqi : q = i
              · exfalso
                rw [hqi, hkother p hpi, hkself] at hkpq2
                exact hfreshN p hplt hp2 hkpq2
              · rw [hnfother q hqi] at hq2
                rw [hkother p hpi, hkother q hqi] at hkpq2
                exact hinv.huniqN p q hplt hqlt hp2 hq2 hkpq2
          · intro p q hplt hqlt hp hq
            have hp2 : (fget (st.nflags.set i ⟨false, (fget st.nflags i).isDel⟩) p).isEmpty
                = false := hp
            obtain ⟨hqi, hq'⟩ := holive2 q hqlt hq
            show kget (st.keys.set i key) p ≠ kget (st.keys.set i key) q
            rw [hkother q hqi]
            by_cases hpi : p = i
            · rw [hpi, hkself]
              exact fun hc => hfreshO q hqlt hq' hc.symm
            · rw [hnfother p hpi] at hp2
              rw [hkother p hpi]
              exact hinv.hcross p q hplt hqlt hp2 hq'
        have hcnt2 : countLive (st.oflags.set i ⟨(fget st.oflags i).isEmpty, true⟩)
            + countNonEmpty (st.nflags.set i ⟨false, (fget st.nflags i).isDel⟩) + 1
            = countLive h.flags := by
          have hcL := countLive_set st.oflags i ⟨(fget st.oflags i).isEmpty, true⟩ hioklen
          rw [hilive'] at hcL
          have hdead : p_uhf_iseither (⟨(fget st.oflags i).isEmpty, true⟩ : Flag) = true := by
            rw [p_uhf_iseither]; simp
          rw [hdead] at hcL
          simp at hcL
          rw [hcntN]
          omega
        have horig2 : ∃ j0, j0 < 2 ^ m ∧ p_uhf_iseither (fget h.flags j0) = false ∧
            kget h.keys j0 = kget st.keys i ∧ vget h.vals j0 = vget st.vals i :=
          ⟨i, him, hioldlive, hikey.symm, hival.symm⟩
        have hfreshO2 : ∀ j, j < 2 ^ m →
            p_uhf_iseither (fget (st.oflags.set i ⟨(fget st.oflags i).isEmpty, true⟩) j)
              = false →
            kget (st.keys.set i key) j ≠ kget st.keys i := by
          intro j hj hlj
          obtain ⟨hji, hlj'⟩ := holive2 j hj hlj
          rw [hkother j hji]
          intro hc
          obtain ⟨hoj1, hoj2, _⟩ := hinv.hold j hj hlj'
          have := huniqO j i hj him hoj1 hioldlive (by rw [← hoj2, ← hikey, hc])
          exact hji this
        have hfreshN2 : ∀ p, p < 2 ^ M →
            (fget (st.nflags.set i ⟨false, (fget st.nflags i).isDel⟩) p).isEmpty = false →
            kget (st.keys.set i key) p ≠ kget st.keys i := by
          intro p hplt hp
          by_cases hpi : p = i
          · rw [hpi, hkself]
            exact hkey_ne
          · rw [hnfother p hpi] at hp
            rw [hkother p hpi]
            exact hinv.hcross p i hplt him hp hilive'
        obtain ⟨hinv', hcnt', hdead', hfwd', hbwd'⟩ :=
          ih ⟨st.oflags.set i ⟨(fget st.oflags i).isEmpty, true⟩,
              st.nflags.set i ⟨false, (fget st.nflags i).isDel⟩,
              st.keys.set i key, vset st.vals i val⟩
            (kget st.keys i) (vget st.vals i) st' heq hinv2 hcnt2 horig2 hfreshO2 hfreshN2
        refine ⟨hinv', hcnt', ?_, ?_, ?_⟩
        · intro j hdj
          refine hdead' j ?_
          show p_uhf_iseither (fget (st.oflags.set i _) j) = true
          by_cases hji : j = i
          · rw [hji]
            exact hofx_dead
          · rw [hofother j hji]
            exact hdj
        · -- forward transfer
          intro k v hk
          refine hfwd' k v ?_
          rcases hk with ⟨j, hj, hlj, hkj, hvj⟩ | ⟨p, hplt, hp, hkp, hvp⟩ | ⟨hk1, hk2⟩
          · by_cases hji : j = i
            · subst hji
              right; right
              rw [← hkj, ← hvj]
              exact ⟨rfl, rfl⟩
            · left
              refine ⟨j, hj, ?_, ?_, ?_⟩
              · show p_uhf_iseither (fget (st.oflags.set i _) j) = false
                rw [hofother j hji]
                exact hlj
              · show kget (st.keys.set i key) j = k
                rw [hkother j hji]
                exact hkj
              · show vget (vset st.vals i val) j = v
                rw [hvother j hji]
                exact hvj
          · right; left
            have hpi := hplaced_ne p hp
            refine ⟨p, hplt, ?_, ?_, ?_⟩
            · show (fget (st.nflags.set i _) p).isEmpty = false
              rw [hnfother p hpi]
              exact hp
            · show kget (st.keys.set i key) p = k
              rw [hkother p hpi]
              exact hkp
            · show vget (vset st.vals i val) p = v
              rw [hvother p hpi]
              exact hvp
          · right; left
            subst hk1; subst hk2
            refine ⟨i, hilt, ?_, hkself, hvself⟩
            show (fget (st.nflags.set i _) i).isEmpty = false
            rw [hnfx]
        · -- backward transfer
          intro k v hk
          rcases hbwd' k v hk with hdone2 | hpend2 | ⟨hk1, hk2⟩
          · rcases hdone2 with ⟨p, hplt, hp, hkp, hvp⟩
            have hp2 : (fget (st.nflags.set i ⟨false, (fget st.nflags i).isDel⟩) p).isEmpty
                = false := hp
            have hkp2 : kget (st.keys.set i key) p = k := hkp
            have hvp2 : vget (vset st.vals i val) p = v := hvp
            by_cases hpi : p = i
            · right; right
              subst hpi
              rw [hkself] at hkp2
              rw [hvself] at hvp2
              exact ⟨hkp2.symm, hvp2.symm⟩
            · left
              rw [hnfother p hpi] at hp2
              rw [hkother p hpi] at hkp2
              rw [hvother p hpi] at hvp2
              exact ⟨p, hplt, hp2, hkp2, hvp2⟩
          · rcases hpend2 with ⟨j, hj, hlj, hkj, hvj⟩
            obtain ⟨hji, hlj'⟩ := holive2 j hj hlj
            have hkj2 : kget (st.keys.set i key) j = k := hkj
            have hvj2 : vget (vset st.vals i val) j = v := hvj
            rw [hkother j hji] at hkj2
            rw [hvother j hji] at hvj2
            right; left
            exact ⟨j, hj, hlj', hkj2, hvj2⟩
          · right; left
            exact ⟨i, him, hilive', hk1.symm, hk2.symm⟩
      · -- no eviction: plain placement, chain ends
        rw [if_neg hcond] at heq
        cases heq
        have hinotlive : p_uhf_iseither (fget st.oflags i) = true := by
          by_cases him : i < 2 ^ m
          · cases hx : p_uhf_iseither (fget st.oflags i)
            · exfalso
              apply hcond
              rw [Bool.and_eq_true, decide_eq_true_eq]
              exact ⟨him, by rw [hx]; rfl⟩
            · rfl
          · have : st.oflags.length ≤ i := by rw [hinv.holen]; omega
            rw [fget, List.getD_eq_default _ _ (by omega)]
            rfl
        refine ⟨?_, ?_, ?_, ?_, ?_⟩
        · refine ⟨by simpa using hinv.holen, by simpa using hinv.hnlen,
            by simpa using hinv.hklen, ?_, ?_, ?_, ?_, ?_, ?_, ?_⟩
          · intro vl hvl
            simp only [vset] at hvl
            cases hv : st.vals with
            | none => rw [hv] at hvl; simp at hvl
            | some vl0 =>
              rw [hv] at hvl
              simp at hvl
              rw [← hvl]
              simpa using hinv.hvlen vl0 hv
          · intro hv
            simp only [vset] at hv
            cases hv2 : st.vals with
            | none => exact hinv.hvnone hv2
            | some vl0 => rw [hv2] at hv; simp at hv
          · intro j hj hlj
            have hji : j ≠ i := by
              intro hc
              rw [hc, hinotlive] at hlj
              simp at hlj
            obtain ⟨ho1, ho2, ho3⟩ := hinv.hold j hj hlj
            exact ⟨ho1, by rw [hkother j hji]; exact ho2, by rw [hvother j hji]; exact ho3⟩
          · intro p hp
            by_cases hpi : p = i
            · rw [hpi, hinotlive]
            · rw [hnfother p hpi] at hp
              exact hinv.hdisj p hp
          · intro p hplt hp
            by_cases hpi : p = i
            · subst hpi
              rw [hkself]
              exact hreach_i
            · rw [hnfother p hpi] at hp
              rw [hkother p hpi]
              obtain ⟨t2, ht2, hpt2, hne2⟩ := hinv.hreachN p hplt hp
              exact ⟨t2, ht2, hpt2, fun u hu => fget_set_isEmpty_mono _ _ _ _ rfl (hne2 u hu)⟩
          · intro p q hplt hqlt hp hq hkpq
            by_cases hpi : p = i
            · by_cases hqi : q = i
              · rw [hpi, hqi]
              · exfalso
                rw [hnfother q hqi] at hq
                rw [hpi, hkself, hkother q hqi] at hkpq
                exact hfreshN q hqlt hq hkpq.symm
            · rw [hnfother p hpi] at hp
              by_cases hqi : q = i
              · exfalso
                rw [hqi, hkother p hpi, hkself] at hkpq
                exact hfreshN p hplt hp hkpq
              · rw [hnfother q hqi] at hq
                rw [hkother p hpi, hkother q hqi] at hkpq
                exact hinv.huniqN p q hplt hqlt hp hq hkpq
          · intro p q hplt hqlt hp hq
            have hqi : q ≠ i := by
              intro hc
              rw [hc, hinotlive] at hq
              simp at hq
            rw [hkother q hqi]
            by_cases hpi : p = i
            · rw [hpi, hkself]
              exact fun hc => hfreshO q hqlt hq hc.symm
            · rw [hnfother p hpi] at hp
              rw [hkother p hpi]
              exact hinv.hcross p q hplt hqlt hp hq
        · show countLive st.oflags + countNonEmpty (st.nflags.set i _) = _
          rw [hcntN]
          omega
        · intro j hdj
          exact hdj
        · intro k v hk
          rcases hk with ⟨j, hj, hlj, hkj, hvj⟩ | ⟨p, hplt, hp, hkp, hvp⟩ | ⟨hk1, hk2⟩
          · have hji : j ≠ i := by
              intro hc
              rw [hc, hinotlive] at hlj
              simp at hlj
            exact Or.inl ⟨j, hj, hlj, by rw [hkother j hji]; exact hkj,
              by rw [hvother j hji]; exact hvj⟩
          · have hpi := hplaced_ne p hp
            exact Or.inr ⟨p, hplt, by rw [hnfother p hpi]; exact hp,
              by rw [hkother p hpi]; exact hkp, by rw [hvother p hpi]; exact hvp⟩
          · subst hk1; subst hk2
            exact Or.inr ⟨i, hilt, by rw [hnfx], hkself, hvself⟩
        · intro k v hk
          rcases hk with ⟨p, hplt, hp, hkp, hvp⟩
          by_cases hpi : p = i
          · subst hpi
            rw [hkself] at hkp
            rw [hvself] at hvp
            exact Or.inr (Or.inr ⟨hkp.symm, hvp.symm⟩)
          · rw [hnfother p hpi] at hp
            rw [hkother p hpi] at hkp
            rw [hvother p hpi] at hvp
            exact Or.inl ⟨p, hplt, hp, hkp, hvp⟩

/-- The outer rehash loop preserves the invariant and the entry accounting,
and kills every processed old bucket. -/
theorem p_rehash_spec (hash : Nat → Nat) (m M : Nat) (h : UHash)
    (huniqO : ∀ i j, i < 2 ^ m → j < 2 ^ m →
      p_uhf_iseither (fget h.flags i) = false → p_uhf_iseither (fget h.flags j) = false →
      kget h.keys i = kget h.keys j → i = j) :
    ∀ js st st',
      p_rehash hash (2 ^ M - 1) (2 ^ m) js st = some st' →
      RehashInv hash m M h st →
      countLive st.oflags + countNonEmpty st.nflags = countLive h.flags →
      (∀ j, j ∈ js → j < 2 ^ m) →
      RehashInv hash m M h st' ∧
      countLive st'.oflags + countNonEmpty st'.nflags = countLive h.flags ∧
      (∀ j, p_uhf_iseither (fget st.oflags j) = true →
        p_uhf_iseither (fget st'.oflags j) = true) ∧
      (∀ j, j ∈ js → p_uhf_iseither (fget st'.oflags j) = true) ∧
      (∀ k v, keyPend m st k v ∨ keyDone M st k v →
        keyPend m st' k v ∨ keyDone M st' k v) ∧
      (∀ k v, keyDone M st' k v → keyDone M st k v ∨ keyPend m st k v) := by
  intro js
  induction js with
  | nil =>
    intro st st' heq hinv hcnt hjs
    rw [p_rehash] at heq
    cases heq
    exact ⟨hinv, hcnt, fun j hj => hj, by simp, fun k v hk => hk, fun k v hk => Or.inl hk⟩
  | cons j js ih =>
    intro st st' heq hinv hcnt hjs
    have hjm : j < 2 ^ m := hjs j (by simp)
    rw [p_rehash] at heq
    by_cases hjd : p_uhf_iseither (fget st.oflags j) = true
    · rw [if_pos hjd] at heq
      obtain ⟨hinv', hcnt', hmono', hproc', hfwd', hbwd'⟩ :=
        ih st st' heq hinv hcnt (fun j2 hj2 => hjs j2 (by simp [hj2]))
      refine ⟨hinv', hcnt', hmono', ?_, hfwd', hbwd'⟩
      intro j2 hj2
      rcases List.mem_cons.mp hj2 with hj2 | hj2
      · rw [hj2]
        exact hmono' j hjd
      · exact hproc' j2 hj2
    · rw [if_neg hjd] at heq
      simp only at heq
      have hjlive : p_uhf_iseither (fget st.oflags j) = false := Bool.of_not_eq_true hjd
      have hjoklen : j < st.oflags.length := by rw [hinv.holen]; exact hjm
      obtain ⟨hjorig, hjkey, hjval⟩ := hinv.hold j hjm hjlive
      have hofx : fget (st.oflags.set j ⟨(fget st.oflags j).isEmpty, true⟩) j
          = ⟨(fget st.oflags j).isEmpty, true⟩ := by
        rw [fget_set, if_pos ⟨rfl, hjoklen⟩]
      have hofother : ∀ p, p ≠ j →
          fget (st.oflags.set j ⟨(fget st.oflags j).isEmpty, true⟩) p = fget st.oflags p := by
        intro p hp
        rw [fget_set, if_neg (by intro hc; exact hp hc.1.symm)]
      have hofx_dead :
          p_uhf_iseither (fget (st.oflags.set j ⟨(fget st.oflags j).isEmpty, true⟩) j)
            = true := by
        rw [hofx, p_uhf_iseither]
        simp
      have holive1 : ∀ j2, j2 < 2 ^ m →
          p_uhf_iseither (fget (st.oflags.set j ⟨(fget st.oflags j).isEmpty, true⟩) j2)
            = false →
          j2 ≠ j ∧ p_uhf_iseither (fget st.oflags j2) = false := by
        intro j2 hj2 hlj2
        by_cases hj2j : j2 = j
        · rw [hj2j, hofx_dead] at hlj2
          exact absurd hlj2 (by simp)
        · rw [hofother j2 hj2j] at hlj2
          exact ⟨hj2j, hlj2⟩
      cases hkc : p_kick_chain hash (2 ^ M - 1) (2 ^ m) (2 ^ m + 1)
          { st with oflags := st.oflags.set j ⟨(fget st.oflags j).isEmpty, true⟩ }
          (kget st.keys j) (vget st.vals j) with
      | none => rw [hkc] at heq; exact absurd heq (by simp)
      | some st2 =>
        rw [hkc] at heq
        have hinv1 : RehashInv hash m M h
            { st with oflags := st.oflags.set j ⟨(fget st.oflags j).isEmpty, true⟩ } := by
          refine ⟨?_, hinv.hnlen, hinv.hklen, hinv.hvlen, hinv.hvnone, ?_, ?_,
            hinv.hreachN, hinv.huniqN, ?_⟩
          · show (st.oflags.set j _).length = 2 ^ m
            rw [List.length_set]
            exact hinv.holen
          · intro j2 hj2 hlj2
            obtain ⟨hj2j, hlj2'⟩ := holive1 j2 hj2 hlj2
            exact hinv.hold j2 hj2 hlj2'
          · intro p hp
            show p_uhf_iseither (fget (st.oflags.set j _) p) = true
            by_cases hpj : p = j
            · rw [hpj]
              exact hofx_dead
            · rw [hofother p hpj]
              exact hinv.hdisj p hp
          · intro p q hplt hqlt hp hq
            obtain ⟨hqj, hq'⟩ := holive1 q hqlt hq
            exact hinv.hcross p q hplt hqlt hp hq'
        have hcnt1 : countLive (st.oflags.set j ⟨(fget st.oflags j).isEmpty, true⟩)
            + countNonEmpty st.nflags + 1 = countLive h.flags := by
          have hcL := countLive_set st.oflags j ⟨(fget st.oflags j).isEmpty, true⟩ hjoklen
          rw [hjlive] at hcL
          have hdead : p_uhf_iseither (⟨(fget st.oflags j).isEmpty, true⟩ : Flag)
              = true := by
            rw [p_uhf_iseither]; simp
          rw [hdead] at hcL
          simp at hcL
          omega
        have horig1 : ∃ j0, j0 < 2 ^ m ∧ p_uhf_iseither (fget h.flags j0) = false ∧
            kget h.keys j0 = kget st.keys j ∧ vget h.vals j0 = vget st.vals j :=
          ⟨j, hjm, hjorig, hjkey.symm, hjval.symm⟩
        have hfreshO1 : ∀ j2, j2 < 2 ^ m →
            p_uhf_iseither (fget (st.oflags.set j ⟨(fget st.oflags j).isEmpty, true⟩) j2)
              = false →
            kget st.keys j2 ≠ kget st.keys j := by
          intro j2 hj2 hlj2 hc
          obtain ⟨hj2j, hlj2'⟩ := holive1 j2 hj2 hlj2
          obtain ⟨ho1, ho2, _⟩ := hinv.hold j2 hj2 hlj2'
          exact hj2j (huniqO j2 j hj2 hjm ho1 hjorig (by rw [← ho2, ← hjkey, hc]))
        have hfreshN1 : ∀ p, p < 2 ^ M → (fget st.nflags p).isEmpty = false →
            kget st.keys p ≠ kget st.keys j := by
          intro p hplt hp
          exact hinv.hcross p j hplt hjm hp hjlive
        obtain ⟨hinv2, hcnt2, hdead2, hfwd2, hbwd2⟩ :=
          p_kick_chain_spec hash m M h huniqO (2 ^ m + 1) _ _ _ _ hkc hinv1 hcnt1
            horig1 hfreshO1 hfreshN1
        obtain ⟨hinv', hcnt', hmono', hproc', hfwd', hbwd'⟩ :=
          ih st2 st' heq hinv2 hcnt2 (fun j2 hj2 => hjs j2 (by simp [hj2]))
        have hdead_st1 : ∀ p, p_uhf_iseither (fget st.oflags p) = true →
            p_uhf_iseither
              (fget (st.oflags.set j ⟨(fget st.oflags j).isEmpty, true⟩) p) = true := by
          intro p hp
          by_cases hpj : p = j
          · rw [hpj]
            exact hofx_dead
          · rw [hofother p hpj]
            exact hp
        have hpend2_pend : ∀ k v, keyPend m st2 k v → keyPend m st k v := by
          intro k v ⟨j2, hj2, hlj2, hkj2, hvj2⟩
          have hlj1 : p_uhf_iseither
              (fget (st.oflags.set j ⟨(fget st.oflags j).isEmpty, true⟩) j2) = false := by
            cases hx : p_uhf_iseither
                (fget (st.oflags.set j ⟨(fget st.oflags j).isEmpty, true⟩) j2)
            · rfl
            · exfalso
              have := hdead2 j2 hx
              rw [this] at hlj2
              exact Bool.false_ne_true hlj2.symm
          obtain ⟨hj2j, hlj2'⟩ := holive1 j2 hj2 hlj1
          obtain ⟨ho1, ho2, ho3⟩ := hinv2.hold j2 hj2 hlj2
          obtain ⟨ho1', ho2', ho3'⟩ := hinv.hold j2 hj2 hlj2'
          exact ⟨j2, hj2, hlj2', by rw [ho2', ← ho2, hkj2],
            by rw [ho3', ← ho3, hvj2]⟩
        refine ⟨hinv', hcnt', ?_, ?_, ?_, ?_⟩
        · intro p hp
          exact hmono' p (hdead2 p (hdead_st1 p hp))
        · intro j2 hj2
          rcases List.mem_cons.mp hj2 with hj2 | hj2
          · rw [hj2]
            exact hmono' j (hdead2 j hofx_dead)
          · exact hproc' j2 hj2
        · intro k v hk
          refine hfwd' k v ?_
          rcases hk with ⟨j2, hj2, hlj2, hkj2, hvj2⟩ | hdone
          · by_cases hj2j : j2 = j
            · subst hj2j
              exact hfwd2 k v (Or.inr (Or.inr ⟨hkj2.symm, hvj2.symm⟩))
            · refine hfwd2 k v (Or.inl ⟨j2, hj2, ?_, hkj2, hvj2⟩)
              rw [hofother j2 hj2j]
              exact hlj2
          · exact hfwd2 k v (Or.inr (Or.inl hdone))
        · intro k v hk
          rcases hbwd' k v hk with hdone2 | hpend2
          · rcases hbwd2 k v hdone2 with hdone1 | hpend1 | ⟨hk1, hk2⟩
            · exact Or.inl hdone1
            · rcases hpend1 with ⟨j2, hj2, hlj2, hkj2, hvj2⟩
              obtain ⟨hj2j, hlj2'⟩ := holive1 j2 hj2 hlj2
              exact Or.inr ⟨j2, hj2, hlj2', hkj2, hvj2⟩
            · exact Or.inr ⟨j, hjm, hjlive, hk1.symm, hk2.symm⟩
          · exact Or.inr (hpend2_pend k v hpend2)

/-! ## Totality of the rehash (the fuel never runs out) -/

theorem getD_append_left {α : Type} (l l2 : List α) (j : Nat) (d : α)
    (hj : j < l.length) : (l ++ l2).getD j d = l.getD j d := by
  unfold List.getD
  rw [List.get?_eq_getElem?, List.get?_eq_getElem?, List.getElem?_append, if_pos hj]

theorem getD_take {α : Type} (l : List α) (n j : Nat) (d : α) (hj : j < n) :
    (l.take n).getD j d = l.getD j d := by
  unfold List.getD
  rw [List.get?_eq_getElem?, List.get?_eq_getElem?, List.getElem?_take]
  simp [hj]

theorem countNonEmpty_replicate (n : Nat) :
    countNonEmpty (List.replicate n flagEmpty) = 0 := by
  refine List.countP_eq_zero.mpr ?_
  intro f hf
  rw [List.eq_of_mem_replicate hf]
  simp [flagEmpty]

theorem countLive_eq_zero_of_dead (fl : List Flag)
    (hdead : ∀ j, j < fl.length → p_uhf_iseither (fget fl j) = true) :
    countLive fl = 0 := by
  refine List.countP_eq_zero.mpr ?_
  intro f hf
  obtain ⟨j, hj, hfj⟩ := List.mem_iff_getElem.mp hf
  have hget : fget fl j = f := by
    rw [fget, List.getD_eq_getElem fl flagEmpty hj]
    exact hfj
  have := hdead j hj
  rw [hget] at this
  simp [this]

theorem countLive_eq_countNonEmpty_of_noTomb (fl : List Flag) (hnt : noTomb fl) :
    countLive fl = countNonEmpty fl := by
  refine List.countP_congr ?_
  intro f hf
  obtain ⟨j, hj, hfj⟩ := List.mem_iff_getElem.mp hf
  have hget : fget fl j = f := by
    rw [fget, List.getD_eq_getElem fl flagEmpty hj]
    exact hfj
  have hd : f.isDel = false := by
    rw [← hget]
    exact hnt j
  rw [p_uhf_iseither, hd, Bool.or_false]

/-- The inner empty-bucket probe of the kick-out chain terminates as soon as
an empty bucket exists on the probe sequence within the fuel budget. -/
theorem p_find_empty_isSome (nflags : List Flag) (M start t : Nat)
    (ht : (fget nflags (probePos M start t)).isEmpty = true) :
    ∀ fuel u, u ≤ t → t < u + fuel →
      (p_find_empty nflags (2 ^ M - 1) fuel (probePos M start u) u).isSome := by
  intro fuel
  induction fuel with
  | zero =>
    intro u h1 h2
    omega
  | succ f ih =>
    intro u h1 h2
    rw [p_find_empty]
    by_cases he : (fget nflags (probePos M start u)).isEmpty = true
    · rw [if_pos he]
      rfl
    · have hut : u ≠ t := fun hc => he (hc ▸ ht)
      rw [if_neg he, probePos_advance]
      exact ih (u + 1) (by omega) (by omega)

/-- The kick-out chain terminates: the fuel only has to dominate the number
of still-live old entries, and the new table only has to keep an empty
bucket. -/
theorem p_kick_chain_total (hash : Nat → Nat) (M osize C : Nat) (hC : C < 2 ^ M) :
    ∀ fuel st key val,
      osize ≤ st.oflags.length →
      st.nflags.length = 2 ^ M →
      countLive st.oflags + countNonEmpty st.nflags ≤ C →
      countLive st.oflags < fuel →
      (p_kick_chain hash (2 ^ M - 1) osize fuel st key val).isSome := by
  have hpos := two_pow_pos M
  intro fuel
  induction fuel with
  | zero =>
    intro st key val holen hnlen hcnt hfuel
    omega
  | succ f ih =>
    intro st key val holen hnlen hcnt hfuel
    rw [p_kick_chain]
    have hstart : hash key % 2 ^ M < 2 ^ M := Nat.mod_lt _ hpos
    have hand : hash key &&& (2 ^ M - 1) = probePos M (hash key % 2 ^ M) 0 := by
      rw [Nat.and_pow_two_sub_one_eq_mod, probePos_zero M _ hstart]
    rw [hand]
    obtain ⟨e, he1, he2⟩ := exists_empty_of_countNonEmpty_lt st.nflags
      (by rw [hnlen]; omega)
    obtain ⟨ue, hue1, hue2, _⟩ := exists_first_empty st.nflags M (hash key % 2 ^ M)
      ⟨e, by rw [hnlen] at he1; exact he1, he2⟩
    have hsome := p_find_empty_isSome st.nflags M (hash key % 2 ^ M) ue hue2
      (2 * (2 ^ M - 1 + 1) + 1) 0 (by omega) (by omega)
    cases hfe : p_find_empty st.nflags (2 ^ M - 1) (2 * (2 ^ M - 1 + 1) + 1)
        (probePos M (hash key % 2 ^ M) 0) 0 with
    | none => rw [hfe] at hsome; exact absurd hsome (by simp)
    | some i =>
      simp only
      obtain ⟨t, hpt, hie, htlt, _⟩ := p_find_empty_char st.nflags M
        (hash key % 2 ^ M) hstart _ 0 i (fun u' hu' => absurd hu' (Nat.not_lt_zero u')) hfe
      have hilt : i < 2 ^ M := by rw [← hpt]; exact probePos_lt M _ t
      by_cases hc : (decide (i < osize) && !p_uhf_iseither (fget st.oflags i)) = true
      · rw [if_pos hc]
        simp only [Bool.and_eq_true, decide_eq_true_eq, Bool.not_eq_true'] at hc
        obtain ⟨hios, hilive⟩ := hc
        have hioflen : i < st.oflags.length := by omega
        have hcL := countLive_set st.oflags i ⟨(fget st.oflags i).isEmpty, true⟩ hioflen
        rw [hilive] at hcL
        have hdead : p_uhf_iseither (⟨(fget st.oflags i).isEmpty, true⟩ : Flag)
            = true := by
          rw [p_uhf_iseither]
          simp
        rw [hdead] at hcL
        simp at hcL
        have hcN := countNonEmpty_set st.nflags i ⟨false, (fget st.nflags i).isDel⟩
          (by omega)
        rw [hie] at hcN
        simp at hcN
        have hlive1 : 1 ≤ countLive st.oflags := countLive_pos st.oflags i hioflen hilive
        refine ih _ _ _ ?_ ?_ ?_ ?_
        · show osize ≤ (st.oflags.set i _).length
          rw [List.length_set]
          exact holen
        · show (st.nflags.set i _).length = 2 ^ M
          rw [List.length_set]
          exact hnlen
        · show countLive (st.oflags.set i _) + countNonEmpty (st.nflags.set i _) ≤ C
          omega
        · show countLive (st.oflags.set i _) < f
          omega
      · rw [if_neg hc]
        rfl

/-- Picking up a live old entry (tombstoning its bucket) keeps the rehash
invariant, shifts the count equation by one carried entry, and establishes
the hypotheses of the kick-out chain for the carried entry. -/
theorem p_rehash_pickup (hash : Nat → Nat) (m M : Nat) (h : UHash)
    (huniqO : ∀ i j, i < 2 ^ m → j < 2 ^ m →
      p_uhf_iseither (fget h.flags i) = false → p_uhf_iseither (fget h.flags j) = false →
      kget h.keys i = kget h.keys j → i = j)
    (st : RehashSt) (j : Nat)
    (hinv : RehashInv hash m M h st)
    (hcnt : countLive st.oflags + countNonEmpty st.nflags = countLive h.flags)
    (hjm : j < 2 ^ m)
    (hjlive : p_uhf_iseither (fget st.oflags j) = false) :
    RehashInv hash m M h
      { st with oflags := st.oflags.set j ⟨(fget st.oflags j).isEmpty, true⟩ } ∧
    countLive (st.oflags.set j ⟨(fget st.oflags j).isEmpty, true⟩)
      + countNonEmpty st.nflags + 1 = countLive h.flags ∧
    (∃ j0, j0 < 2 ^ m ∧ p_uhf_iseither (fget h.flags j0) = false ∧
      kget h.keys j0 = kget st.keys j ∧ vget h.vals j0 = vget st.vals j) ∧
    (∀ j2, j2 < 2 ^ m →
      p_uhf_iseither (fget (st.oflags.set j ⟨(fget st.oflags j).isEmpty, true⟩) j2)
        = false →
      kget st.keys j2 ≠ kget st.keys j) ∧
    (∀ p, p < 2 ^ M → (fget st.nflags p).isEmpty = false →
      kget st.keys p ≠ kget st.keys j) := by
  have hjoklen : j < st.oflags.length := by rw [hinv.holen]; exact hjm
  obtain ⟨hjorig, hjkey, hjval⟩ := hinv.hold j hjm hjlive
  have hofx : fget (st.oflags.set j ⟨(fget st.oflags j).isEmpty, true⟩) j
      = ⟨(fget st.oflags j).isEmpty, true⟩ := by
    rw [fget_set, if_pos ⟨rfl, hjoklen⟩]
  have hofother : ∀ p, p ≠ j →
      fget (st.oflags.set j ⟨(fget st.oflags j).isEmpty, true⟩) p = fget st.oflags p := by
    intro p hp
    rw [fget_set, if_neg (by intro hc; exact hp hc.1.symm)]
  have hofx_dead :
      p_uhf_iseither (fget (st.oflags.set j ⟨(fget st.oflags j).isEmpty, true⟩) j)
        = true := by
    rw [hofx, p_uhf_iseither]
    simp
  have holive1 : ∀ j2, j2 < 2 ^ m →
      p_uhf_iseither (fget (st.oflags.set j ⟨(fget st.oflags j).isEmpty, true⟩) j2)
        = false →
      j2 ≠ j ∧ p_uhf_iseither (fget st.oflags j2) = false := by
    intro j2 hj2 hlj2
    by_cases hj2j : j2 = j
    · rw [hj2j, hofx_dead] at hlj2
      exact absurd hlj2 (by simp)
    · rw [hofother j2 hj2j] at hlj2
      exact ⟨hj2j, hlj2⟩
  refine ⟨?_, ?_, ⟨j, hjm, hjorig, hjkey.symm, hjval.symm⟩, ?_, ?_⟩
  · refine ⟨?_, hinv.hnlen, hinv.hklen, hinv.hvlen, hinv.hvnone, ?_, ?_,
      hinv.hreachN, hinv.huniqN, ?_⟩
    · show (st.oflags.set j _).length = 2 ^ m
      rw [List.length_set]
      exact hinv.holen
    · intro j2 hj2 hlj2
      obtain ⟨hj2j, hlj2'⟩ := holive1 j2 hj2 hlj2
      exact hinv.hold j2 hj2 hlj2'
    · intro p hp
      show p_uhf_iseither (fget (st.oflags.set j _) p) = true
      by_cases hpj : p = j
      · rw [hpj]
        exact hofx_dead
      · rw [hofother p hpj]
        exact hinv.hdisj p hp
    · intro p q hplt hqlt hp hq
      obtain ⟨hqj, hq'⟩ := holive1 q hqlt hq
      exact hinv.hcross p q hplt hqlt hp hq'
  · have hcL := countLive_set st.oflags j ⟨(fget st.oflags j).isEmpty, true⟩ hjoklen
    rw [hjlive] at hcL
    have hdead : p_uhf_iseither (⟨(fget st.oflags j).isEmpty, true⟩ : Flag) = true := by
      rw [p_uhf_iseither]
      simp
    rw [hdead] at hcL
    simp at hcL
    omega
  · intro j2 hj2 hlj2 hc
    obtain ⟨hj2j, hlj2'⟩ := holive1 j2 hj2 hlj2
    obtain ⟨ho1, ho2, _⟩ := hinv.hold j2 hj2 hlj2'
    exact hj2j (huniqO j2 j hj2 hjm ho1 hjorig (by rw [← ho2, ← hjkey, hc]))
  · intro p hplt hp
    exact hinv.hcross p j hplt hjm hp hjlive

/-- The outer rehash loop terminates whenever the live entries fit strictly
inside the new table. -/
theorem p_rehash_total (hash : Nat → Nat) (m M : Nat) (h : UHash)
    (huniqO : ∀ i j, i < 2 ^ m → j < 2 ^ m →
      p_uhf_iseither (fget h.flags i) = false → p_uhf_iseither (fget h.flags j) = false →
      kget h.keys i = kget h.keys j → i = j)
    (hC : countLive h.flags < 2 ^ M) :
    ∀ js st, RehashInv hash m M h st →
      countLive st.oflags + countNonEmpty st.nflags = countLive h.flags →
      (∀ j, j ∈ js → j < 2 ^ m) →
      (p_rehash hash (2 ^ M - 1) (2 ^ m) js st).isSome := by
  intro js
  induction js with
  | nil =>
    intro st hinv hcnt hjs
    rw [p_rehash]
    rfl
  | cons j js ih =>
    intro st hinv hcnt hjs
    have hjm : j < 2 ^ m := hjs j (by simp)
    rw [p_rehash]
    by_cases hjd : p_uhf_iseither (fget st.oflags j) = true
    · rw [if_pos hjd]
      exact ih st hinv hcnt (fun j2 hj2 => hjs j2 (by simp [hj2]))
    · rw [if_neg hjd]
      simp only
      have hjlive : p_uhf_iseither (fget st.oflags j) = false := Bool.of_not_eq_true hjd
      obtain ⟨hinv1, hcnt1, horig1, hfreshO1, hfreshN1⟩ :=
        p_rehash_pickup hash m M h huniqO st j hinv hcnt hjm hjlive
      have hcsome := p_kick_chain_total hash M (2 ^ m) (countLive h.flags - 1)
        (by omega) (2 ^ m + 1)
        { st with oflags := st.oflags.set j ⟨(fget st.oflags j).isEmpty, true⟩ }
        (kget st.keys j) (vget st.vals j)
        (by show 2 ^ m ≤ (st.oflags.set j _).length
            rw [List.length_set, hinv.holen])
        hinv1.hnlen
        (by show countLive (st.oflags.set j ⟨(fget st.oflags j).isEmpty, true⟩)
              + countNonEmpty st.nflags ≤ countLive h.flags - 1
            omega)
        (by show countLive (st.oflags.set j ⟨(fget st.oflags j).isEmpty, true⟩)
              < 2 ^ m + 1
            have hle : countLive (st.oflags.set j ⟨(fget st.oflags j).isEmpty, true⟩)
              ≤ (st.oflags.set j ⟨(fget st.oflags j).isEmpty, true⟩).length :=
              Nat.le_trans (countLive_le_countNonEmpty _) (countNonEmpty_le_length _)
            rw [List.length_set, hinv.holen] at hle
            omega)
      cases hkc : p_kick_chain hash (2 ^ M - 1) (2 ^ m) (2 ^ m + 1)
          { st with oflags := st.oflags.set j ⟨(fget st.oflags j).isEmpty, true⟩ }
          (kget st.keys j) (vget st.vals j) with
      | none => rw [hkc] at hcsome; exact absurd hcsome (by simp)
      | some st2 =>
        obtain ⟨hinv2, hcnt2, _, _, _⟩ :=
          p_kick_chain_spec hash m M h huniqO (2 ^ m + 1) _ _ _ _ hkc hinv1 hcnt1
            horig1 hfreshO1 hfreshN1
        exact ih st2 hinv2 hcnt2 (fun j2 hj2 => hjs j2 (by simp [hj2]))

/-! ## Full specification of `uhash_resize` -/

theorem vset_isSome (vs : Option (List Nat)) (i v : Nat) :
    (vset vs i v).isSome = vs.isSome := by
  cases vs <;> rfl

theorem p_kick_chain_vals_isSome (hash : Nat → Nat) (mask osize : Nat) :
    ∀ fuel st key val st', p_kick_chain hash mask osize fuel st key val = some st' →
      st'.vals.isSome = st.vals.isSome := by
  intro fuel
  induction fuel with
  | zero =>
    intro st key val st' heq
    simp [p_kick_chain] at heq
  | succ f ih =>
    intro st key val st' heq
    rw [p_kick_chain] at heq
    cases hfe : p_find_empty st.nflags mask (2 * (mask + 1) + 1) (hash key &&& mask) 0 with
    | none => rw [hfe] at heq; exact absurd heq (by simp)
    | some i =>
      rw [hfe] at heq
      simp only at heq
      by_cases hc : (decide (i < osize) && !p_uhf_iseither (fget st.oflags i)) = true
      · rw [if_pos hc] at heq
        have hrec := ih _ _ _ _ heq
        rw [hrec]
        exact vset_isSome st.vals i val
      · rw [if_neg hc] at heq
        cases heq
        exact vset_isSome st.vals i val

theorem p_rehash_vals_isSome (hash : Nat → Nat) (mask osize : Nat) :
    ∀ js st st', p_rehash hash mask osize js st = some st' →
      st'.vals.isSome = st.vals.isSome := by
  intro js
  induction js with
  | nil =>
    intro st st' heq
    rw [p_rehash] at heq
    cases heq
    rfl
  | cons j js ih =>
    intro st st' heq
    rw [p_rehash] at heq
    by_cases hj : p_uhf_iseither (fget st.oflags j) = true
    · rw [if_pos hj] at heq
      exact ih _ _ heq
    · rw [if_neg hj] at heq
      simp only at heq
      cases hkc : p_kick_chain hash mask osize (osize + 1)
          { st with oflags := st.oflags.set j ⟨(fget st.oflags j).isEmpty, true⟩ }
          (kget st.keys j) (vget st.vals j) with
      | none => rw [hkc] at heq; exact absurd heq (by simp)
      | some st2 =>
        rw [hkc] at heq
        rw [ih _ _ heq, p_kick_chain_vals_isSome hash mask osize _ _ _ _ _ hkc]

/-- The table holds key `k` (with map value `v`; for sets `vget` of the null
`_vals` pointer is constantly 0) at some live bucket. -/
def hasKeyVal (h : UHash) (k v : Nat) : Prop :=
  ∃ b, b < h.size ∧ p_uhf_iseither (fget h.flags b) = false ∧
    kget h.keys b = k ∧ vget h.vals b = v

/-- Core of the resize specification: starting from the old flags, a fresh
empty flag array and any key/value storage agreeing with the old table on
the old buckets, the rehash loop over all old buckets succeeds and yields a
tombstone-free new flag array holding exactly the old live entries, with
distinct live keys all probe-reachable. -/
theorem uhash_resize_core (hash : Nat → Nat) (m M : Nat) (h : UHash)
    (hw : WfAt hash m h) (hC : countLive h.flags < 2 ^ M)
    (keys1 : List Nat) (vals1 : Option (List Nat))
    (hklen1 : keys1.length = max (2 ^ m) (2 ^ M))
    (hvlen1 : ∀ vl, vals1 = some vl → vl.length = max (2 ^ m) (2 ^ M))
    (hvnone1 : vals1 = none → h.vals = none)
    (hkagree : ∀ j, j < 2 ^ m → kget keys1 j = kget h.keys j)
    (hvagree : ∀ j, j < 2 ^ m → vget vals1 j = vget h.vals j) :
    ∃ st', p_rehash hash (2 ^ M - 1) (2 ^ m) (List.range (2 ^ m))
        ⟨h.flags, List.replicate (2 ^ M) flagEmpty, keys1, vals1⟩ = some st' ∧
      st'.nflags.length = 2 ^ M ∧
      st'.keys.length = max (2 ^ m) (2 ^ M) ∧
      (∀ vl, st'.vals = some vl → vl.length = max (2 ^ m) (2 ^ M)) ∧
      (st'.vals = none → h.vals = none) ∧
      st'.vals.isSome = vals1.isSome ∧
      countNonEmpty st'.nflags = countLive h.flags ∧
      noTomb st'.nflags ∧
      (∀ i j, i < 2 ^ M → j < 2 ^ M → (fget st'.nflags i).isEmpty = false →
        (fget st'.nflags j).isEmpty = false → kget st'.keys i = kget st'.keys j → i = j) ∧
      (∀ i, i < 2 ^ M → (fget st'.nflags i).isEmpty = false →
        probeReach st'.nflags M (hash (kget st'.keys i) % 2 ^ M) i) ∧
      (∀ k v, hasKeyVal h k v ↔
        ∃ i, i < 2 ^ M ∧ (fget st'.nflags i).isEmpty = false ∧
          kget st'.keys i = k ∧ vget st'.vals i = v) := by
  have hinv0 : RehashInv hash m M h
      ⟨h.flags, List.replicate (2 ^ M) flagEmpty, keys1, vals1⟩ := by
    refine ⟨hw.hflen, ?_, hklen1, hvlen1, hvnone1, ?_, ?_, ?_, ?_, ?_⟩
    · show (List.replicate (2 ^ M) flagEmpty).length = 2 ^ M
      rw [List.length_replicate]
    · intro j hj hlj
      exact ⟨hlj, hkagree j hj, hvagree j hj⟩
    · intro i hi
      rw [fget_replicate] at hi
      exact absurd hi (by simp [flagEmpty])
    · intro i hi hie
      rw [fget_replicate] at hie
      exact absurd hie (by simp [flagEmpty])
    · intro i j hi hj hie
      rw [fget_replicate] at hie
      exact absurd hie (by simp [flagEmpty])
    · intro i j hi hj hie
      rw [fget_replicate] at hie
      exact absurd hie (by simp [flagEmpty])
  have hcnt0 : countLive
        (⟨h.flags, List.replicate (2 ^ M) flagEmpty, keys1, vals1⟩ : RehashSt).oflags
      + countNonEmpty
        (⟨h.flags, List.replicate (2 ^ M) flagEmpty, keys1, vals1⟩ : RehashSt).nflags
      = countLive h.flags := by
    show countLive h.flags + countNonEmpty (List.replicate (2 ^ M) flagEmpty)
      = countLive h.flags
    rw [countNonEmpty_replicate, Nat.add_zero]
  have hjs : ∀ j, j ∈ List.range (2 ^ m) → j < 2 ^ m := by
    intro j hj
    exact List.mem_range.mp hj
  have hsome := p_rehash_total hash m M h hw.huniq hC (List.range (2 ^ m))
    ⟨h.flags, List.replicate (2 ^ M) flagEmpty, keys1, vals1⟩ hinv0 hcnt0 hjs
  cases hre : p_rehash hash (2 ^ M - 1) (2 ^ m) (List.range (2 ^ m))
      ⟨h.flags, List.replicate (2 ^ M) flagEmpty, keys1, vals1⟩ with
  | none => rw [hre] at hsome; exact absurd hsome (by simp)
  | some st' =>
    obtain ⟨hinv', hcnt', _, hproc', hfwd', hbwd'⟩ :=
      p_rehash_spec hash m M h hw.huniq (List.range (2 ^ m)) _ st' hre hinv0 hcnt0 hjs
    have hdeadall : ∀ j, j < 2 ^ m → p_uhf_iseither (fget st'.oflags j) = true :=
      fun j hj => hproc' j (List.mem_range.mpr hj)
    have hlive0 : countLive st'.oflags = 0 := by
      refine countLive_eq_zero_of_dead st'.oflags ?_
      intro j hj
      rw [hinv'.holen] at hj
      exact hdeadall j hj
    have hcnt'' : countNonEmpty st'.nflags = countLive h.flags := by omega
    have hnt : noTomb st'.nflags := by
      refine p_rehash_noTomb hash (2 ^ M - 1) (2 ^ m) (List.range (2 ^ m)) _ st' hre ?_
      intro j
      show (fget (List.replicate (2 ^ M) flagEmpty) j).isDel = false
      rw [fget_replicate]
      rfl
    refine ⟨st', rfl, hinv'.hnlen, hinv'.hklen, hinv'.hvlen, hinv'.hvnone, ?_,
      hcnt'', hnt, hinv'.huniqN, hinv'.hreachN, ?_⟩
    · rw [p_rehash_vals_isSome hash (2 ^ M - 1) (2 ^ m) (List.range (2 ^ m)) _ st' hre]
    · intro k v
      constructor
      · intro ⟨b, hb, hbl, hbk, hbv⟩
        have hbm : b < 2 ^ m := by rw [← hw.hsize]; exact hb
        have hpend0 : keyPend m
            ⟨h.flags, List.replicate (2 ^ M) flagEmpty, keys1, vals1⟩ k v := by
          refine ⟨b, hbm, hbl, ?_, ?_⟩
          · show kget keys1 b = k
            rw [hkagree b hbm]
            exact hbk
          · show vget vals1 b = v
            rw [hvagree b hbm]
            exact hbv
        rcases hfwd' k v (Or.inl hpend0) with hpend' | hdone'
        · obtain ⟨j, hj, hjl, _, _⟩ := hpend'
          rw [hdeadall j hj] at hjl
          exact absurd hjl (by simp)
        · exact hdone'
      · intro hdone'
        rcases hbwd' k v hdone' with hdone0 | hpend0
        · obtain ⟨i, _, hie, _, _⟩ := hdone0
          have : fget (⟨h.flags, List.replicate (2 ^ M) flagEmpty, keys1, vals1⟩
              : RehashSt).nflags i = flagEmpty := fget_replicate (2 ^ M) i
          rw [this] at hie
          exact absurd hie (by simp [flagEmpty])
        · obtain ⟨j, hj, hjl, hjk, hjv⟩ := hpend0
          refine ⟨j, by rw [hw.hsize]; exact hj, hjl, ?_, ?_⟩
          · rw [← hkagree j hj]
            exact hjk
          · rw [← hvagree j hj]
            exact hjv

/-- Full specification of a successful `uhash_resize` call on a well-formed
table whose rounded target capacity can hold `_count` under the load factor:
the call succeeds, produces a well-formed table of the rounded capacity with
`_occupied = _count` and `_count` unchanged, keeps set-ness and map-ness,
and holds exactly the same key/value pairs. -/
theorem uhash_resize_spec (hash : Nat → Nat) (m M : Nat) (h : UHash) (n : Nat)
    (hw : WfAt hash m h)
    (hM : p_resize_size n = 2 ^ M) (hM2 : 2 ≤ M) (hM31 : M ≤ 31)
    (hfit : h.count < p_uhash_upper_bound (2 ^ M)) :
    ∃ h', uhash_resize hash h n = some h' ∧ WfAt hash M h' ∧
      h'.size = 2 ^ M ∧ h'.count = h.count ∧ h'.occupied = h.count ∧
      (h.vals = none → h'.vals = none) ∧
      (h.vals.isSome = true → h'.vals.isSome = true) ∧
      (∀ k v, hasKeyVal h k v ↔ hasKeyVal h' k v) ∧
      (∀ j, (fget h'.flags j).isDel = false) := by
  have h4M : 4 ≤ 2 ^ M := by
    calc 4 = 2 ^ 2 := rfl
    _ ≤ 2 ^ M := Nat.pow_le_pow_right (by omega) hM2
  have hC : countLive h.flags < 2 ^ M := by
    have := upper_bound_lt_self (2 ^ M) (by omega)
    rw [← hw.hcount]
    omega
  have hmap : uhash_is_map h = h.vals.isSome := by
    rw [uhash_is_map]
    have hcl := countNonEmpty_le_length h.flags
    rw [hw.hflen, ← hw.hocc, ← hw.hsize] at hcl
    have hno : ¬ (h.size < h.occupied) := by omega
    simp [hno]
  simp only [uhash_resize]
  rw [hM, hw.hsize, if_neg (show ¬ (p_uhash_upper_bound (2 ^ M) ≤ h.count) by omega)]
  have hklen1 : (if 2 ^ m < 2 ^ M then
      h.keys ++ List.replicate (2 ^ M - h.keys.length) 0 else h.keys).length
      = max (2 ^ m) (2 ^ M) := by
    by_cases hexp : 2 ^ m < 2 ^ M
    · rw [if_pos hexp, List.length_append, List.length_replicate, hw.hklen]
      omega
    · rw [if_neg hexp, hw.hklen]
      omega
  have hkagree1 : ∀ j, j < 2 ^ m → kget (if 2 ^ m < 2 ^ M then
      h.keys ++ List.replicate (2 ^ M - h.keys.length) 0 else h.keys) j
      = kget h.keys j := by
    intro j hj
    by_cases hexp : 2 ^ m < 2 ^ M
    · rw [if_pos hexp]
      exact getD_append_left h.keys _ j 0 (by rw [hw.hklen]; exact hj)
    · rw [if_neg hexp]
  have hvlen1 : ∀ vl, (if decide (2 ^ m < 2 ^ M) && uhash_is_map h then
      some ((h.vals.getD []) ++ List.replicate (2 ^ M - (h.vals.getD []).length) 0)
      else h.vals) = some vl → vl.length = max (2 ^ m) (2 ^ M) := by
    intro vl hvl
    by_cases hb : (decide (2 ^ m < 2 ^ M) && uhash_is_map h) = true
    · rw [if_pos hb] at hvl
      simp only [Bool.and_eq_true, decide_eq_true_eq, hmap,
        Option.isSome_iff_exists] at hb
      obtain ⟨hexp, vl0, hvv⟩ := hb
      rw [hvv] at hvl
      simp only [Option.getD_some, Option.some.injEq] at hvl
      have hl0 := hw.hvlen vl0 hvv
      rw [← hvl, List.length_append, List.length_replicate, hl0]
      omega
    · rw [if_neg hb] at hvl
      have := hw.hvlen vl hvl
      simp only [Bool.and_eq_true, decide_eq_true_eq, hmap] at hb
      rw [this]
      rcases Nat.lt_or_ge (2 ^ m) (2 ^ M) with hexp | hexp
      · exfalso
        refine hb ⟨hexp, ?_⟩
        rw [hvl]
        rfl
      · omega
  have hvnone1 : (if decide (2 ^ m < 2 ^ M) && uhash_is_map h then
      some ((h.vals.getD []) ++ List.replicate (2 ^ M - (h.vals.getD []).length) 0)
      else h.vals) = none → h.vals = none := by
    intro hvl
    by_cases hb : (decide (2 ^ m < 2 ^ M) && uhash_is_map h) = true
    · rw [if_pos hb] at hvl
      cases hvl
    · rw [if_neg hb] at hvl
      exact hvl
  have hvagree1 : ∀ j, j < 2 ^ m → vget (if decide (2 ^ m < 2 ^ M) && uhash_is_map h then
      some ((h.vals.getD []) ++ List.replicate (2 ^ M - (h.vals.getD []).length) 0)
      else h.vals) j = vget h.vals j := by
    intro j hj
    by_cases hb : (decide (2 ^ m < 2 ^ M) && uhash_is_map h) = true
    · rw [if_pos hb]
      simp only [Bool.and_eq_true, decide_eq_true_eq, hmap,
        Option.isSome_iff_exists] at hb
      obtain ⟨hexp, vl0, hvv⟩ := hb
      rw [hvv]
      show ((vl0 ++ List.replicate (2 ^ M - vl0.length) 0).getD j 0)
        = (vl0.getD j 0)
      exact getD_append_left vl0 _ j 0 (by rw [hw.hvlen vl0 hvv]; exact hj)
    · rw [if_neg hb]
  have hvsome1 : h.vals.isSome = true →
      (if decide (2 ^ m < 2 ^ M) && uhash_is_map h then
        some ((h.vals.getD []) ++ List.replicate (2 ^ M - (h.vals.getD []).length) 0)
        else h.vals).isSome = true := by
    intro hs
    by_cases hb : (decide (2 ^ m < 2 ^ M) && uhash_is_map h) = true
    · rw [if_pos hb]
      rfl
    · rw [if_neg hb]
      exact hs
  obtain ⟨st', hre, hnlen', hslen, hvslen, hvnone', hvsome', hcntN, hnt, huniqN',
      hreachN', hkv⟩ :=
    uhash_resize_core hash m M h hw hC
      (if 2 ^ m < 2 ^ M then h.keys ++ List.replicate (2 ^ M - h.keys.length) 0
        else h.keys)
      (if decide (2 ^ m < 2 ^ M) && uhash_is_map h then
        some ((h.vals.getD []) ++ List.replicate (2 ^ M - (h.vals.getD []).length) 0)
        else h.vals)
      hklen1 hvlen1 hvnone1 hkagree1 hvagree1
  rw [hre]
  have hlive_iff : ∀ i, p_uhf_iseither (fget st'.nflags i) = (fget st'.nflags i).isEmpty := by
    intro i
    rw [p_uhf_iseither, hnt i, Bool.or_false]
  have hk2len : (if 2 ^ M < 2 ^ m then st'.keys.take (2 ^ M) else st'.keys).length
      = 2 ^ M := by
    by_cases hshr : 2 ^ M < 2 ^ m
    · rw [if_pos hshr, List.length_take, hslen]
      omega
    · rw [if_neg hshr, hslen]
      omega
  have hk2agree : ∀ i, i < 2 ^ M →
      kget (if 2 ^ M < 2 ^ m then st'.keys.take (2 ^ M) else st'.keys) i
        = kget st'.keys i := by
    intro i hi
    by_cases hshr : 2 ^ M < 2 ^ m
    · rw [if_pos hshr]
      exact getD_take st'.keys (2 ^ M) i 0 hi
    · rw [if_neg hshr]
  have hv2len : ∀ vl, (if 2 ^ M < 2 ^ m then st'.vals.map (fun l => l.take (2 ^ M))
      else st'.vals) = some vl → vl.length = 2 ^ M := by
    intro vl hvl
    by_cases hshr : 2 ^ M < 2 ^ m
    · rw [if_pos hshr] at hvl
      cases hsv : st'.vals with
      | none => rw [hsv] at hvl; cases hvl
      | some vl0 =>
        rw [hsv] at hvl
        simp only [Option.map_some', Option.some.injEq] at hvl
        have := hvslen vl0 hsv
        rw [← hvl, List.length_take, this]
        omega
    · rw [if_neg hshr] at hvl
      have := hvslen vl hvl
      omega
  have hv2agree : ∀ i, i < 2 ^ M →
      vget (if 2 ^ M < 2 ^ m then st'.vals.map (fun l => l.take (2 ^ M)) else st'.vals) i
        = vget st'.vals i := by
    intro i hi
    by_cases hshr : 2 ^ M < 2 ^ m
    · rw [if_pos hshr]
      cases hsv : st'.vals with
      | none => rfl
      | some vl0 =>
        show ((vl0.take (2 ^ M)).getD i 0) = (vl0.getD i 0)
        exact getD_take vl0 (2 ^ M) i 0 hi
    · rw [if_neg hshr]
  have hv2none : st'.vals = none →
      (if 2 ^ M < 2 ^ m then st'.vals.map (fun l => l.take (2 ^ M)) else st'.vals)
        = none := by
    intro hsv
    rw [hsv]
    by_cases hshr : 2 ^ M < 2 ^ m
    · rw [if_pos hshr]
      rfl
    · rw [if_neg hshr]
  have hv2some : st'.vals.isSome = true →
      (if 2 ^ M < 2 ^ m then st'.vals.map (fun l => l.take (2 ^ M)) else st'.vals).isSome
        = true := by
    intro hs
    by_cases hshr : 2 ^ M < 2 ^ m
    · rw [if_pos hshr, Option.isSome_map']
      exact hs
    · rw [if_neg hshr]
      exact hs
  refine ⟨_, rfl, ?_, rfl, rfl, rfl, ?_, ?_, ?_, ?_⟩
  · refine ⟨hM2, hM31, rfl, hnlen', hk2len, hv2len, ?_, ?_, ?_, ?_⟩
    · show h.count = countLive st'.nflags
      rw [countLive_eq_countNonEmpty_of_noTomb st'.nflags hnt, hcntN, hw.hcount]
    · show h.count = countNonEmpty st'.nflags
      rw [hcntN, hw.hcount]
    · intro i j hi hj hli hlj hkij
      rw [hlive_iff] at hli hlj
      refine huniqN' i j hi hj (Bool.of_not_eq_true ?_) (Bool.of_not_eq_true ?_) ?_
      · intro hc
        rw [hc] at hli
        exact Bool.false_ne_true hli.symm
      · intro hc
        rw [hc] at hlj
        exact Bool.false_ne_true hlj.symm
      · rw [← hk2agree i hi, ← hk2agree j hj]
        exact hkij
    · intro b hb hlb
      rw [hlive_iff] at hlb
      have hbe : (fget st'.nflags b).isEmpty = false := by
        cases hc : (fget st'.nflags b).isEmpty
        · rfl
        · rw [hc] at hlb
          exact absurd hlb.symm Bool.false_ne_true
      have := hreachN' b hb hbe
      show probeReach st'.nflags M
        (hash (kget (if 2 ^ M < 2 ^ m then st'.keys.take (2 ^ M) else st'.keys) b)
          % 2 ^ M) b
      rw [hk2agree b hb]
      exact this
  · intro hvn
    have hv1n : (if decide (2 ^ m < 2 ^ M) && uhash_is_map h then
        some ((h.vals.getD []) ++ List.replicate (2 ^ M - (h.vals.getD []).length) 0)
        else h.vals) = none := by
      rw [hmap, hvn]
      simp
    show (if 2 ^ M < 2 ^ m then st'.vals.map (fun l => l.take (2 ^ M)) else st'.vals)
      = none
    refine hv2none ?_
    rw [hv1n] at hvsome'
    cases hsv : st'.vals with
    | none => rfl
    | some vl0 =>
      rw [hsv] at hvsome'
      cases hvsome'
  · intro hs
    show (if 2 ^ M < 2 ^ m then st'.vals.map (fun l => l.take (2 ^ M)) else st'.vals).isSome
      = true
    refine hv2some ?_
    rw [hvsome']
    exact hvsome1 hs
  · intro k v
    refine (hkv k v).trans ?_
    constructor
    · intro ⟨i, hi, hie, hik, hiv⟩
      refine ⟨i, hi, ?_, ?_, ?_⟩
      · show p_uhf_iseither (fget st'.nflags i) = false
        rw [hlive_iff]
        exact hie
      · show kget (if 2 ^ M < 2 ^ m then st'.keys.take (2 ^ M) else st'.keys) i = k
        rw [hk2agree i hi]
        exact hik
      · show vget (if 2 ^ M < 2 ^ m then st'.vals.map (fun l => l.take (2 ^ M))
          else st'.vals) i = v
        rw [hv2agree i hi]
        exact hiv
    · intro ⟨i, hi, hil, hik, hiv⟩
      have hi' : i < 2 ^ M := hi
      have hil' : p_uhf_iseither (fget st'.nflags i) = false := hil
      refine ⟨i, hi', ?_, ?_, ?_⟩
      · rw [← hlive_iff]
        exact hil'
      · rw [← hk2agree i hi']
        exact hik
      · rw [← hv2agree i hi']
        exact hiv
  · intro j
    show (fget st'.nflags j).isDel = false
    exact hnt j

/-- C2: `uhash_resize` rounds the requested capacity up to the next power of
two (minimum 4); if `_count` is at or above the load-factor upper bound of
that rounded capacity it succeeds without changing the table; otherwise it
succeeds after the kick-out rehash and every key present before the resize
is still found by lookup, with its stored (map) value unchanged. -/
theorem C2_resize_preserves_membership (hash : Nat → Nat) (m M : Nat) (h : UHash)
    (n : Nat) (hw : WfAt hash m h) :
    (1 ≤ n → ∃ K, 2 ≤ K ∧ p_resize_size n = 2 ^ K ∧ n ≤ 2 ^ K ∧
      (2 ^ K < 2 * n ∨ 2 ^ K = 4)) ∧
    (p_uhash_upper_bound (p_resize_size n) ≤ h.count →
      uhash_resize hash h n = some h) ∧
    (p_resize_size n = 2 ^ M → M ≤ 31 → h.count < p_uhash_upper_bound (2 ^ M) →
      ∃ h', uhash_resize hash h n = some h' ∧
        ∀ k v, hasKeyVal h k v →
          ∃ b, b < h'.size ∧ uhash_get hash h' k = some b ∧
            kget h'.keys b = k ∧ vget h'.vals b = v) := by
  refine ⟨?_, ?_, ?_⟩
  · intro hn
    obtain ⟨j, hj, hle, hlt⟩ := ulib_uint_next_power_2_spec n hn
    rw [p_resize_size, hj]
    by_cases h4 : 2 ^ j < 4
    · rw [if_pos h4]
      exact ⟨2, le_refl 2, rfl, by omega, Or.inr rfl⟩
    · rw [if_neg h4]
      have hj2 : 2 ≤ j := by
        by_contra hc
        push_neg at hc
        have hle2 : 2 ^ j ≤ 2 ^ 1 := Nat.pow_le_pow_right (by omega) (by omega)
        omega
      exact ⟨j, hj2, rfl, hle, Or.inl hlt⟩
  · intro hle
    simp only [uhash_resize]
    rw [if_pos hle]
  · intro hM hM31 hfit
    have hM2 : 2 ≤ M := by
      have h4 : 4 ≤ p_resize_size n := by
        simp only [p_resize_size]
        by_cases hlt : ulib_uint_next_power_2 n < 4
        · rw [if_pos hlt]
        · rw [if_neg hlt]
          omega
      rw [hM] at h4
      by_contra hc
      push_neg at hc
      have hle2 : 2 ^ M ≤ 2 ^ 1 := Nat.pow_le_pow_right (by omega) (by omega)
      omega
    obtain ⟨h', hres, hw', hsz, hcnt, hocc, _, _, hkv, _⟩ :=
      uhash_resize_spec hash m M h n hw hM hM2 hM31 hfit
    refine ⟨h', hres, ?_⟩
    intro k v hkvh
    obtain ⟨b, hb, hlive, hkey, hval⟩ := (hkv k v).mp hkvh
    exact ⟨b, hb, uhash_get_hit hash M h' k b hw' hb hlive hkey, hkey, hval⟩

/-- Witness for `C2_resize_preserves_membership`: the capacity-4 set `{0, 1}`
resized with target 9 (rounded to 16). -/
theorem C2_witness :
    (1 ≤ 9 → ∃ K, 2 ≤ K ∧ p_resize_size 9 = 2 ^ K ∧ 9 ≤ 2 ^ K ∧
      (2 ^ K < 2 * 9 ∨ 2 ^ K = 4)) ∧
    (p_uhash_upper_bound (p_resize_size 9) ≤ 2 →
      uhash_resize id
          ⟨4, 2, 2, [⟨false, false⟩, ⟨false, false⟩, ⟨true, false⟩, ⟨true, false⟩],
            [0, 1, 0, 0], none⟩ 9 =
        some ⟨4, 2, 2, [⟨false, false⟩, ⟨false, false⟩, ⟨true, false⟩, ⟨true, false⟩],
          [0, 1, 0, 0], none⟩) ∧
    (p_resize_size 9 = 2 ^ 4 → 4 ≤ 31 → 2 < p_uhash_upper_bound (2 ^ 4) →
      ∃ h', uhash_resize id
          ⟨4, 2, 2, [⟨false, false⟩, ⟨false, false⟩, ⟨true, false⟩, ⟨true, false⟩],
            [0, 1, 0, 0], none⟩ 9 = some h' ∧
        ∀ k v, hasKeyVal
            ⟨4, 2, 2, [⟨false, false⟩, ⟨false, false⟩, ⟨true, false⟩, ⟨true, false⟩],
              [0, 1, 0, 0], none⟩ k v →
          ∃ b, b < h'.size ∧ uhash_get id h' k = some b ∧
            kget h'.keys b = k ∧ vget h'.vals b = v) :=
  C2_resize_preserves_membership id 2 4
    ⟨4, 2, 2, [⟨false, false⟩, ⟨false, false⟩, ⟨true, false⟩, ⟨true, false⟩],
      [0, 1, 0, 0], none⟩ 9
    (wfCheck_sound id 2 _ (by decide))

/-! ## Map insertion sequences (towards C1) -/

/-- The last value set for a key by a list of `(key, value)` operations,
later operations taking precedence. -/
def lastVal : List (Nat × Nat) → Nat → Option Nat
  | [], _ => none
  | (k, v) :: kvs, key =>
    match lastVal kvs key with
    | some w => some w
    | none => if k = key then some v else none

theorem countLive_replicate (n : Nat) :
    countLive (List.replicate n flagEmpty) = 0 := by
  refine List.countP_eq_zero.mpr ?_
  intro f hf
  rw [List.eq_of_mem_replicate hf]
  simp [flagEmpty, p_uhf_iseither]

/-- Overwriting a stored value preserves well-formedness. -/
theorem WfAt_vset (hash : Nat → Nat) (m : Nat) (h : UHash) (i v : Nat)
    (hw : WfAt hash m h) : WfAt hash m { h with vals := vset h.vals i v } := by
  refine ⟨hw.hm, hw.hm31, hw.hsize, hw.hflen, hw.hklen, ?_, hw.hcount, hw.hocc,
    hw.huniq, hw.hreach⟩
  intro vl hvl
  have hvl' : vset h.vals i v = some vl := hvl
  cases hvv : h.vals with
  | none =>
    rw [hvv] at hvl'
    cases hvl'
  | some vl0 =>
    rw [hvv] at hvl'
    simp only [vset, Option.map_some', Option.some.injEq] at hvl'
    rw [← hvl', List.length_set]
    exact hw.hvlen vl0 hvv

/-- A key live in a well-formed table is found by `uhmap_get`, which returns
its stored value. -/
theorem uhmap_get_found (hash : Nat → Nat) (m : Nat) (h : UHash) (key v d : Nat)
    (hw : WfAt hash m h) (hkv : hasKeyVal h key v) :
    uhmap_get hash h key d = some v := by
  obtain ⟨b, hb, hbl, hbk, hbv⟩ := hkv
  have hget := uhash_get_hit hash m h key b hw hb hbl hbk
  rw [uhmap_get, hget]
  have hbM : b ≠ UHASH_INDEX_MISSING := by
    have hlt : b < 2 ^ m := hw.hsize ▸ hb
    have hle : (2 : Nat) ^ m ≤ 2 ^ 31 := Nat.pow_le_pow_right (by omega) hw.hm31
    rw [UHASH_INDEX_MISSING, ULIB_UINT_MAX]
    intro hc
    rw [hc] at hlt
    norm_num at hlt hle
    omega
  show some (if b = UHASH_INDEX_MISSING then d else vget h.vals b) = some v
  rw [if_neg hbM, hbv]

/-- After a successful resize step inside `uhash_put` (grow branch), the put
proceeds exactly as a put on the resized table. -/
theorem uhash_put_after_grow (hash : Nat → Nat) (h h2 : UHash) (key : Nat)
    (hload : p_uhash_upper_bound h.size ≤ p_uhash_occupied h)
    (hsh : ¬ (2 * h.count < h.size))
    (hres : uhash_resize hash h (h.size + 1) = some h2)
    (hocc2 : p_uhash_occupied h2 < p_uhash_upper_bound h2.size) :
    uhash_put hash h key = uhash_put hash h2 key := by
  rw [uhash_put, uhash_put, if_pos hload, if_neg hsh, hres, Option.some_bind,
    if_neg (by omega), Option.some_bind]

/-- Computation rule for `uhmap_set` once the underlying put is known. -/
theorem uhmap_set_eq (hash : Nat → Nat) (h : UHash) (key value : Nat)
    (ret : uhash_ret) (h1 : UHash) (k : Nat)
    (hp : uhash_put hash h key = some (ret, h1, k)) :
    uhmap_set hash h key value = some (ret, { h1 with vals := vset h1.vals k value },
      if ret = .UHASH_PRESENT then some (vget h1.vals k) else none) := by
  unfold uhmap_set
  rw [hp]

/-- Behaviour of `uhash_put` on a well-formed tombstone-free table whose
occupancy is below the load-factor bound (so the resize step is skipped):
either PRESENT at the key's live bucket with the table untouched, or
INSERTED into a previously empty bucket. -/
theorem uhash_put_nocheck_spec (hash : Nat → Nat) (m : Nat) (h2 : UHash) (key : Nat)
    (hw2 : WfAt hash m h2)
    (hocc2 : p_uhash_occupied h2 < p_uhash_upper_bound h2.size)
    (hoc2 : h2.occupied = h2.count) (hnt2 : noTomb h2.flags) :
    ∃ ret h1 x, uhash_put hash h2 key = some (ret, h1, x) ∧
      WfAt hash m h1 ∧ h1.occupied = h1.count ∧ noTomb h1.flags ∧
      h1.vals = h2.vals ∧
      x < h1.size ∧ kget h1.keys x = key ∧
      p_uhf_iseither (fget h1.flags x) = false ∧
      (∀ k v, k ≠ key → (hasKeyVal h2 k v ↔ hasKeyVal h1 k v)) ∧
      ((ret = .UHASH_PRESENT ∧ h1 = h2 ∧
        (∀ v0, hasKeyVal h2 key v0 ↔ vget h1.vals x = v0))
       ∨ (ret = .UHASH_INSERTED ∧ h1.count = h2.count + 1 ∧
          ∀ v0, ¬ hasKeyVal h2 key v0)) := by
  by_cases hpres : ∃ b, b < h2.size ∧ p_uhf_iseither (fget h2.flags b) = false ∧
      kget h2.keys b = key
  · obtain ⟨b, hb, hbl, hbk⟩ := hpres
    refine ⟨.UHASH_PRESENT, h2, b,
      uhash_put_present hash m h2 key b hw2 hocc2 hb hbl hbk,
      hw2, hoc2, hnt2, rfl, hb, hbk, hbl, fun k v hk => Iff.rfl,
      Or.inl ⟨rfl, rfl, ?_⟩⟩
    intro v0
    constructor
    · intro ⟨b', hb', hbl', hbk', hbv'⟩
      have hbb : b' = b := hw2.huniq b' b (hw2.hsize ▸ hb') (hw2.hsize ▸ hb) hbl' hbl
        (by rw [hbk', hbk])
      rw [← hbv', hbb]
    · intro hv
      exact ⟨b, hb, hbl, hbk, hv⟩
  · push_neg at hpres
    obtain ⟨x, h1, hput, hx, hsz1, hcnt1, hvals1, hkeys1, hflags1, hocc1, hw1⟩ :=
      uhash_put_inserted hash m h2 key hw2 hocc2 hpres
    have hxflen : x < h2.flags.length := by rw [hw2.hflen, ← hw2.hsize]; exact hx
    have hxklen : x < h2.keys.length := by rw [hw2.hklen, ← hw2.hsize]; exact hx
    -- the target bucket was not live (else count could not grow)
    have hxdead : p_uhf_iseither (fget h2.flags x) = true := by
      by_contra hc
      have hlx : p_uhf_iseither (fget h2.flags x) = false := Bool.of_not_eq_true hc
      have hcL := countLive_set h2.flags x (⟨false, false⟩ : Flag) hxflen
      rw [hlx] at hcL
      have hlive' : p_uhf_iseither (⟨false, false⟩ : Flag) = false := rfl
      rw [hlive'] at hcL
      have hc1 : h1.count = countLive h1.flags := hw1.hcount
      rw [hflags1] at hc1
      rw [hw2.hcount] at hcnt1
      omega
    have hxempty : (fget h2.flags x).isEmpty = true := by
      have hd := hnt2 x
      rw [p_uhf_iseither, hd, Bool.or_false] at hxdead
      exact hxdead
    have hxnotlive1 : ∀ b, b < h2.size → p_uhf_iseither (fget h2.flags b) = false →
        b ≠ x := by
      intro b hb hbl hc
      rw [hc, hxdead] at hbl
      exact Bool.false_ne_true hbl.symm
    refine ⟨.UHASH_INSERTED, h1, x, hput, hw1, ?_, ?_, hvals1, hsz1 ▸ hx, ?_, ?_, ?_,
      Or.inr ⟨rfl, hcnt1, ?_⟩⟩
    · rw [hocc1, if_pos hxempty, hcnt1, hoc2]
    · rw [hflags1]
      exact noTomb_set h2.flags x ⟨false, false⟩ hnt2 rfl
    · rw [hkeys1, kget_set, if_pos ⟨rfl, hxklen⟩]
    · rw [hflags1, fget_set, if_pos ⟨rfl, hxflen⟩]
      rfl
    · intro k v hk
      constructor
      · intro ⟨b, hb, hbl, hbk, hbv⟩
        have hbx : b ≠ x := hxnotlive1 b hb hbl
        refine ⟨b, by rw [hsz1]; exact hb, ?_, ?_, by rw [hvals1]; exact hbv⟩
        · rw [hflags1, fget_set, if_neg (by intro hc; exact hbx hc.1.symm)]
          exact hbl
        · rw [hkeys1, kget_set, if_neg (by intro hc; exact hbx hc.1.symm)]
          exact hbk
      · intro ⟨b, hb, hbl, hbk, hbv⟩
        have hbx : b ≠ x := by
          intro hc
          rw [hc, hkeys1, kget_set, if_pos ⟨rfl, hxklen⟩] at hbk
          exact hk hbk.symm
        rw [hflags1, fget_set, if_neg (by intro hc; exact hbx hc.1.symm)] at hbl
        rw [hkeys1, kget_set, if_neg (by intro hc; exact hbx hc.1.symm)] at hbk
        rw [hvals1] at hbv
        exact ⟨b, by rw [← hsz1]; exact hb, hbl, hbk, hbv⟩
    · intro v0 ⟨b, hb, hbl, hbk, _⟩
      exact hpres b hb hbl hbk

/-- Full behaviour of `uhash_put` on a well-formed, tombstone-free table with
`_occupied = _count` strictly below the 2^31 load bound: it succeeds (growing
when the load factor is hit), reports PRESENT or INSERTED, and the resulting
table holds the key at the reported bucket together with every other entry
unchanged. -/
theorem uhash_put_spec (hash : Nat → Nat) (m : Nat) (h : UHash) (key : Nat)
    (hw : WfAt hash m h) (hoc : h.occupied = h.count) (hnt : noTomb h.flags)
    (hcnt : h.count < p_uhash_upper_bound (2 ^ 31)) :
    ∃ ret h1 x m1, uhash_put hash h key = some (ret, h1, x) ∧
      WfAt hash m1 h1 ∧ h1.occupied = h1.count ∧ noTomb h1.flags ∧
      (h.vals = none → h1.vals = none) ∧
      (h.vals.isSome = true → h1.vals.isSome = true) ∧
      x < h1.size ∧ kget h1.keys x = key ∧
      p_uhf_iseither (fget h1.flags x) = false ∧
      (∀ k v, k ≠ key → (hasKeyVal h k v ↔ hasKeyVal h1 k v)) ∧
      ((ret = .UHASH_PRESENT ∧ h1.count = h.count ∧
        (∀ v0, hasKeyVal h key v0 ↔ vget h1.vals x = v0))
       ∨ (ret = .UHASH_INSERTED ∧ h1.count = h.count + 1 ∧
          ∀ v0, ¬ hasKeyVal h key v0)) := by
  have h4m : 4 ≤ 2 ^ m := by
    calc 4 = 2 ^ 2 := rfl
    _ ≤ 2 ^ m := Nat.pow_le_pow_right (by omega) hw.hm
  have hoccv : p_uhash_occupied h = h.occupied := by
    rw [p_uhash_occupied, if_neg]
    rw [hw.hocc, hw.hsize]
    have := countNonEmpty_le_length h.flags
    rw [hw.hflen] at this
    omega
  by_cases hload : p_uhash_upper_bound h.size ≤ p_uhash_occupied h
  · -- the load factor is hit: the put grows the table first
    have hloadc : p_uhash_upper_bound (2 ^ m) ≤ h.count := by
      rw [hoccv, hoc, hw.hsize] at hload
      exact hload
    have hm30 : m ≤ 30 := by
      by_contra hc
      push_neg at hc
      have hm31 : m = 31 := by have := hw.hm31; omega
      rw [hm31] at hloadc
      omega
    have hressize : p_resize_size (h.size + 1) = 2 ^ (m + 1) := by
      rw [hw.hsize]
      exact p_resize_size_succ m hw.hm
    have hcle : h.count ≤ 2 ^ m := by
      rw [hw.hcount]
      have h1 := countLive_le_countNonEmpty h.flags
      have h2 := countNonEmpty_le_length h.flags
      rw [hw.hflen] at h2
      omega
    have hfit : h.count < p_uhash_upper_bound (2 ^ (m + 1)) := by
      have hm1 : (2 : Nat) ^ (m + 1) = 2 * 2 ^ m := by rw [pow_succ]; ring
      rw [p_uhash_upper_bound, hm1]
      omega
    obtain ⟨h2, hres, hw2, hsz2, hcnt2, hocc2, hvn2, hvs2, hkv2, hnt2⟩ :=
      uhash_resize_spec hash m (m + 1) h (h.size + 1) hw hressize
        (by have := hw.hm; omega) (by omega) hfit
    have hsh : ¬ (2 * h.count < h.size) := by
      rw [hw.hsize]
      rw [p_uhash_upper_bound] at hloadc
      omega
    have hocc2v : p_uhash_occupied h2 < p_uhash_upper_bound h2.size := by
      have hov : p_uhash_occupied h2 = h2.occupied := by
        rw [p_uhash_occupied, if_neg]
        rw [hw2.hocc, hsz2]
        have := countNonEmpty_le_length h2.flags
        rw [hw2.hflen] at this
        omega
      rw [hov, hocc2, hsz2]
      exact hfit
    rw [uhash_put_after_grow hash h h2 key hload hsh hres hocc2v]
    obtain ⟨ret, h1, x, hput, hw1, hoc1, hnt1, hvals1, hx, hkx, hlx, hframe, hcase⟩ :=
      uhash_put_nocheck_spec hash (m + 1) h2 key hw2 hocc2v
        (by rw [hocc2, hcnt2]) hnt2
    refine ⟨ret, h1, x, m + 1, hput, hw1, hoc1, hnt1, ?_, ?_, hx, hkx, hlx, ?_, ?_⟩
    · intro hvn
      rw [hvals1]
      exact hvn2 hvn
    · intro hvs
      rw [hvals1]
      exact hvs2 hvs
    · intro k v hk
      exact (hkv2 k v).trans (hframe k v hk)
    · rcases hcase with ⟨hr, hh, hviff⟩ | ⟨hr, hc1, habs⟩
      · refine Or.inl ⟨hr, by rw [hh, hcnt2], ?_⟩
        intro v0
        exact (hkv2 key v0).trans (hviff v0)
      · refine Or.inr ⟨hr, by rw [hc1, hcnt2], ?_⟩
        intro v0 hv0
        exact habs v0 ((hkv2 key v0).mp hv0)
  · -- no resize
    obtain ⟨ret, h1, x, hput, hw1, hoc1, hnt1, hvals1, hx, hkx, hlx, hframe, hcase⟩ :=
      uhash_put_nocheck_spec hash m h key hw (not_le.mp hload) hoc hnt
    refine ⟨ret, h1, x, m, hput, hw1, hoc1, hnt1, by intro hvn; rw [hvals1]; exact hvn,
      by intro hvs; rw [hvals1]; exact hvs, hx, hkx, hlx, hframe, ?_⟩
    rcases hcase with ⟨hr, hh, hviff⟩ | ⟨hr, hc1, habs⟩
    · exact Or.inl ⟨hr, by rw [hh], hviff⟩
    · exact Or.inr ⟨hr, hc1, habs⟩

/-- Behaviour of one `uhmap_set` on a well-formed map satisfying the
insertion-sequence invariant: it succeeds, stores the value under the key,
leaves every other entry unchanged, and if the key was already present it
returns PRESENT and reports the previously stored value through the
`existing` out-parameter. -/
theorem uhmap_set_spec (hash : Nat → Nat) (m : Nat) (h : UHash) (key value : Nat)
    (hw : WfAt hash m h) (hvs : h.vals.isSome = true) (hoc : h.occupied = h.count)
    (hnt : noTomb h.flags) (hcnt : h.count < p_uhash_upper_bound (2 ^ 31)) :
    ∃ ret h' ex m', uhmap_set hash h key value = some (ret, h', ex) ∧
      WfAt hash m' h' ∧ h'.vals.isSome = true ∧ h'.occupied = h'.count ∧
      noTomb h'.flags ∧ h'.count ≤ h.count + 1 ∧
      hasKeyVal h' key value ∧
      (∀ k v, k ≠ key → (hasKeyVal h k v ↔ hasKeyVal h' k v)) ∧
      (∀ v0, hasKeyVal h key v0 → ret = .UHASH_PRESENT ∧ ex = some v0) := by
  obtain ⟨ret, h1, x, m1, hput, hw1, hoc1, hnt1, hvn1, hvs1, hx, hkx, hlx, hframe,
      hcase⟩ := uhash_put_spec hash m h key hw hoc hnt hcnt
  have hset := uhmap_set_eq hash h key value ret h1 x hput
  obtain ⟨vl1, hvl1⟩ := Option.isSome_iff_exists.mp (hvs1 hvs)
  have hxvl : x < vl1.length := by
    rw [hw1.hvlen vl1 hvl1, ← hw1.hsize]
    exact hx
  refine ⟨ret, { h1 with vals := vset h1.vals x value },
    (if ret = .UHASH_PRESENT then some (vget h1.vals x) else none), m1, hset,
    WfAt_vset hash m1 h1 x value hw1, ?_, hoc1, hnt1, ?_, ?_, ?_, ?_⟩
  · show (vset h1.vals x value).isSome = true
    rw [vset_isSome]
    exact hvs1 hvs
  · show h1.count ≤ h.count + 1
    rcases hcase with ⟨_, hc, _⟩ | ⟨_, hc, _⟩ <;> omega
  · refine ⟨x, hx, hlx, hkx, ?_⟩
    show vget (vset h1.vals x value) x = value
    rw [hvl1]
    exact vget_vset_self vl1 x value hxvl
  · intro k v hk
    refine (hframe k v hk).trans ?_
    constructor
    · intro ⟨b, hb, hbl, hbk, hbv⟩
      have hbx : b ≠ x := by
        intro hc
        rw [hc, hkx] at hbk
        exact hk hbk.symm
      refine ⟨b, hb, hbl, hbk, ?_⟩
      show vget (vset h1.vals x value) b = v
      rw [vget_vset_ne h1.vals x b value (Ne.symm hbx)]
      exact hbv
    · intro ⟨b, hb, hbl, hbk, hbv⟩
      have hbx : b ≠ x := by
        intro hc
        rw [hc, hkx] at hbk
        exact hk hbk.symm
      have hbv' : vget (vset h1.vals x value) b = v := hbv
      rw [vget_vset_ne h1.vals x b value (Ne.symm hbx)] at hbv'
      exact ⟨b, hb, hbl, hbk, hbv'⟩
  · intro v0 hv0
    rcases hcase with ⟨hr, _, hviff⟩ | ⟨_, _, habs⟩
    · refine ⟨hr, ?_⟩
      rw [hr, if_pos rfl, (hviff v0).mp hv0]
    · exact absurd hv0 (habs v0)

/-- The first put on a freshly constructed map grows the sentinel table to
the minimum capacity 4, allocating the value storage. -/
theorem uhmap_first (hash : Nat → Nat) :
    uhash_resize hash uhmap 1 =
      some ⟨4, 0, 0, List.replicate 4 flagEmpty, List.replicate 4 0,
        some (List.replicate 4 0)⟩ := rfl

theorem uhmap_fresh_wf (hash : Nat → Nat) :
    WfAt hash 2 ⟨4, 0, 0, List.replicate 4 flagEmpty, List.replicate 4 0,
      some (List.replicate 4 0)⟩ := by
  refine ⟨by omega, by omega, by norm_num, by simp, by simp, ?_, ?_, ?_, ?_, ?_⟩
  · intro vl hvl
    have hvl' : some (List.replicate 4 0) = some vl := hvl
    injection hvl' with hvl''
    rw [← hvl'']
    simp
  · show (0 : Nat) = countLive (List.replicate 4 flagEmpty)
    rw [countLive_replicate]
  · show (0 : Nat) = countNonEmpty (List.replicate 4 flagEmpty)
    rw [countNonEmpty_replicate]
  · intro i j hi hj hli
    rw [fget_replicate] at hli
    exact absurd hli (by decide)
  · intro b hb hlb
    rw [fget_replicate] at hlb
    exact absurd hlb (by decide)

/-- The first `uhmap_set` on a freshly constructed map: INSERTED, no
`existing` report, and the resulting capacity-4 map holds exactly the new
entry. -/
theorem uhmap_set_fresh (hash : Nat → Nat) (key value : Nat) :
    ∃ h', uhmap_set hash uhmap key value = some (.UHASH_INSERTED, h', none) ∧
      WfAt hash 2 h' ∧ h'.vals.isSome = true ∧ h'.occupied = h'.count ∧
      noTomb h'.flags ∧ h'.count = 1 ∧ hasKeyVal h' key value ∧
      (∀ k v, k ≠ key → ¬ hasKeyVal h' k v) := by
  have hwF := uhmap_fresh_wf hash
  have hoccF : p_uhash_occupied
      (⟨4, 0, 0, List.replicate 4 flagEmpty, List.replicate 4 0,
        some (List.replicate 4 0)⟩ : UHash)
      < p_uhash_upper_bound
        (⟨4, 0, 0, List.replicate 4 flagEmpty, List.replicate 4 0,
          some (List.replicate 4 0)⟩ : UHash).size := by decide
  have hputeq := uhash_put_after_grow hash uhmap
    ⟨4, 0, 0, List.replicate 4 flagEmpty, List.replicate 4 0,
      some (List.replicate 4 0)⟩ key (by decide) (by decide) (uhmap_first hash) hoccF
  have hntF : noTomb (⟨4, 0, 0, List.replicate 4 flagEmpty, List.replicate 4 0,
      some (List.replicate 4 0)⟩ : UHash).flags := by
    intro j
    show (fget (List.replicate 4 flagEmpty) j).isDel = false
    rw [fget_replicate]
    rfl
  obtain ⟨ret, h1, x, hput, hw1, hoc1, hnt1, hvals1, hx, hkx, hlx, hframe, hcase⟩ :=
    uhash_put_nocheck_spec hash 2
      ⟨4, 0, 0, List.replicate 4 flagEmpty, List.replicate 4 0,
        some (List.replicate 4 0)⟩ key hwF hoccF (by decide) hntF
  have hFdead : ∀ b v,
      ¬ hasKeyVal ⟨4, 0, 0, List.replicate 4 flagEmpty, List.replicate 4 0,
        some (List.replicate 4 0)⟩ b v := by
    intro b v ⟨b', _, hbl, _, _⟩
    have : fget (List.replicate 4 flagEmpty) b' = flagEmpty := fget_replicate 4 b'
    rw [this] at hbl
    exact absurd hbl (by decide)
  rcases hcase with ⟨hr, hh, hviff⟩ | ⟨hr, hc1, habs⟩
  · exfalso
    rw [hh] at hlx
    have : fget (List.replicate 4 flagEmpty) x = flagEmpty := fget_replicate 4 x
    rw [this] at hlx
    exact absurd hlx (by decide)
  · subst hr
    have hput0 : uhash_put hash uhmap key = some (.UHASH_INSERTED, h1, x) := by
      rw [hputeq]
      exact hput
    have hset := uhmap_set_eq hash uhmap key value .UHASH_INSERTED h1 x hput0
    rw [if_neg (by decide)] at hset
    obtain ⟨vl1, hvl1⟩ := Option.isSome_iff_exists.mp (by rw [hvals1]; rfl :
      h1.vals.isSome = true)
    have hxvl : x < vl1.length := by
      rw [hw1.hvlen vl1 hvl1, ← hw1.hsize]
      exact hx
    refine ⟨{ h1 with vals := vset h1.vals x value }, hset,
      WfAt_vset hash 2 h1 x value hw1, ?_, hoc1, hnt1, ?_, ?_, ?_⟩
    · show (vset h1.vals x value).isSome = true
      rw [vset_isSome, hvals1]
      rfl
    · show h1.count = 1
      rw [hc1]
    · refine ⟨x, hx, hlx, hkx, ?_⟩
      show vget (vset h1.vals x value) x = value
      rw [hvl1]
      exact vget_vset_self vl1 x value hxvl
    · intro k v hk ⟨b, hb, hbl, hbk, hbv⟩
      have hbx : b ≠ x := by
        intro hc
        rw [hc, hkx] at hbk
        exact hk hbk.symm
      have hbv' : vget (vset h1.vals x value) b = v := hbv
      rw [vget_vset_ne h1.vals x b value (Ne.symm hbx)] at hbv'
      exact hFdead k v ((hframe k v hk).mpr ⟨b, hb, hbl, hbk, hbv'⟩)

/-- Sequences of `uhmap_set` operations on a well-formed map: they all
succeed while the running `_count` stays under the 32-bit load bound, and
the final table holds each key with the last value set for it, leaving keys
the sequence never touches unchanged. -/
theorem setList_spec (hash : Nat → Nat) :
    ∀ ops m h, WfAt hash m h → h.vals.isSome = true → h.occupied = h.count →
      noTomb h.flags → h.count + ops.length < p_uhash_upper_bound (2 ^ 31) →
      ∃ m' h', setList hash h ops = some h' ∧ WfAt hash m' h' ∧
        h'.vals.isSome = true ∧ h'.occupied = h'.count ∧ noTomb h'.flags ∧
        h'.count ≤ h.count + ops.length ∧
        (∀ k v, lastVal ops k = some v → hasKeyVal h' k v) ∧
        (∀ k, lastVal ops k = none → ∀ v, (hasKeyVal h k v ↔ hasKeyVal h' k v)) := by
  intro ops
  induction ops with
  | nil =>
    intro m h hw hvs hoc hnt hb
    refine ⟨m, h, rfl, hw, hvs, hoc, hnt, by omega, ?_, fun k _ v => Iff.rfl⟩
    intro k v hkv
    simp only [lastVal] at hkv
    cases hkv
  | cons kv kvs ih =>
    obtain ⟨k0, v0⟩ := kv
    intro m h hw hvs hoc hnt hb
    rw [List.length_cons] at hb
    obtain ⟨ret, h1, ex, m1, hset, hw1, hvs1, hoc1, hnt1, hcle, hkv1, hframe1, _⟩ :=
      uhmap_set_spec hash m h k0 v0 hw hvs hoc hnt (by omega)
    obtain ⟨m', h', hsl, hw', hvs', hoc', hnt', hcle', hlast', hfr'⟩ :=
      ih m1 h1 hw1 hvs1 hoc1 hnt1 (by omega)
    refine ⟨m', h', ?_, hw', hvs', hoc', hnt', by rw [List.length_cons]; omega, ?_, ?_⟩
    · rw [setList, hset]
      exact hsl
    · intro k v hkv
      simp only [lastVal] at hkv
      cases hl : lastVal kvs k with
      | some w =>
        rw [hl] at hkv
        have hkv' : some w = some v := hkv
        injection hkv' with hwv
        rw [← hwv]
        exact hlast' k w hl
      | none =>
        rw [hl] at hkv
        have hkv' : (if k0 = k then some v0 else none) = some v := hkv
        by_cases hk0 : k0 = k
        · rw [if_pos hk0] at hkv'
          injection hkv' with hv0
          rw [← hk0, ← hv0]
          exact (hfr' k0 (hk0 ▸ hl) v0).mp hkv1
        · rw [if_neg hk0] at hkv'
          cases hkv'
    · intro k hk v
      simp only [lastVal] at hk
      cases hl : lastVal kvs k with
      | some w =>
        rw [hl] at hk
        have hk' : (some w : Option Nat) = none := hk
        cases hk'
      | none =>
        rw [hl] at hk
        have hk' : (if k0 = k then some v0 else none) = none := hk
        by_cases hk0 : k0 = k
        · rw [if_pos hk0] at hk'
          cases hk'
        · rw [if_neg hk0] at hk'
          exact (hframe1 k v (fun hc => hk0 hc.symm)).trans (hfr' k hl v)

/-- C1: map round-trip with last-write-wins.  For every successful sequence
of `uhmap_set` insertions into a fresh map (any sequence whose length stays
under the 32-bit load bound succeeds), every inserted key is found by
`uhmap_get` and the value returned is the last value set for it; setting an
already-present key returns PRESENT, reports the previously stored value
through the `existing` out-parameter, and a subsequent get returns the new
value; concretely, in the map `{0:0, ..., 99:99}` built by 100 sets,
`set(0, 1)` returns PRESENT with existing value 0 and `get(0)` then
returns 1. -/
theorem C1_map_roundtrip (hash : Nat → Nat) :
    (∀ ops h', ops.length < p_uhash_upper_bound (2 ^ 31) →
      setList hash uhmap ops = some h' →
      ∀ k v d, lastVal ops k = some v → uhmap_get hash h' k d = some v) ∧
    (∀ m h key value v0, WfAt hash m h → h.vals.isSome = true →
      h.occupied = h.count → noTomb h.flags →
      h.count < p_uhash_upper_bound (2 ^ 31) → hasKeyVal h key v0 →
      ∃ h', uhmap_set hash h key value = some (.UHASH_PRESENT, h', some v0) ∧
        ∀ d, uhmap_get hash h' key d = some value) ∧
    ((setList id uhmap ((List.range 100).map (fun i => (i, i)))).bind
        (fun t => uhmap_set id t 0 1)).map
      (fun r => (r.1, r.2.2, uhmap_get id r.2.1 0 999))
      = some (.UHASH_PRESENT, some 0, some 1) := by
  refine ⟨?_, ?_, by decide⟩
  · intro ops h' hlen hsl k v d hkv
    cases ops with
    | nil =>
      simp only [lastVal] at hkv
      cases hkv
    | cons kv0 rest =>
      obtain ⟨k0, v0⟩ := kv0
      rw [List.length_cons] at hlen
      obtain ⟨h1, hset1, hw1, hvs1, hoc1, hnt1, hc1, hkv1, hnone1⟩ :=
        uhmap_set_fresh hash k0 v0
      rw [setList, hset1] at hsl
      have hsl' : setList hash h1 rest = some h' := hsl
      obtain ⟨m', h'', hsl2, hw', hvs', hoc', hnt', hcle', hlast', hfr'⟩ :=
        setList_spec hash rest 2 h1 hw1 hvs1 hoc1 hnt1 (by rw [hc1]; omega)
      rw [hsl'] at hsl2
      injection hsl2 with hh
      subst hh
      simp only [lastVal] at hkv
      cases hl : lastVal rest k with
      | some w =>
        rw [hl] at hkv
        have hkv' : some w = some v := hkv
        injection hkv' with hwv
        rw [← hwv]
        exact uhmap_get_found hash m' h' k w d hw' (hlast' k w hl)
      | none =>
        rw [hl] at hkv
        have hkv' : (if k0 = k then some v0 else none) = some v := hkv
        by_cases hk0 : k0 = k
        · rw [if_pos hk0] at hkv'
          injection hkv' with hv0
          refine uhmap_get_found hash m' h' k v d hw' ?_
          rw [← hk0, ← hv0]
          exact (hfr' k0 (hk0 ▸ hl) v0).mp hkv1
        · rw [if_neg hk0] at hkv'
          cases hkv'
  · intro m h key value v0 hw hvs hoc hnt hcnt hkv0
    obtain ⟨ret, h', ex, m', hset, hw', hvs', hoc', hnt', hcle, hkvval, hframe, hrep⟩ :=
      uhmap_set_spec hash m h key value hw hvs hoc hnt hcnt
    obtain ⟨hr, hex⟩ := hrep v0 hkv0
    refine ⟨h', ?_, ?_⟩
    · rw [hset, hr, hex]
    · intro d
      exact uhmap_get_found hash m' h' key value d hw' hkvval

/-! ## Reachable tables and the counter invariants (towards C3 and C8) -/

theorem fget_oob (fl : List Flag) (j : Nat) (hj : fl.length ≤ j) :
    fget fl j = flagEmpty := by
  unfold fget List.getD
  rw [List.get?_eq_getElem?, List.getElem?_eq_none hj]
  rfl

/-- A tombstoned bucket separates the live count strictly from the non-empty
count. -/
theorem countLive_lt_countNonEmpty (fl : List Flag) (x : Nat) (hx : x < fl.length)
    (he : (fget fl x).isEmpty = false) (hd : (fget fl x).isDel = true) :
    countLive fl < countNonEmpty fl := by
  induction fl generalizing x with
  | nil => simp at hx
  | cons a tl ih =>
    cases x with
    | zero =>
      have hfa : fget (a :: tl) 0 = a := rfl
      rw [hfa] at he hd
      have hle := countLive_le_countNonEmpty tl
      show (a :: tl).countP (fun f => !p_uhf_iseither f)
        < (a :: tl).countP (fun f => !f.isEmpty)
      rw [List.countP_cons, List.countP_cons]
      have h1 : (!p_uhf_iseither a) = false := by
        rw [p_uhf_iseither, he, hd]
        rfl
      rw [h1, he]
      rw [countLive, countNonEmpty] at hle
      simp
      omega
    | succ n =>
      have hfs : fget (a :: tl) (n + 1) = fget tl n := by
        simp [fget, List.getD_cons_succ]
      rw [hfs] at he hd
      have hn : n < tl.length := by simpa using hx
      have := ih n hn he hd
      show (a :: tl).countP (fun f => !p_uhf_iseither f)
        < (a :: tl).countP (fun f => !f.isEmpty)
      rw [List.countP_cons, List.countP_cons]
      have hmono : ((!p_uhf_iseither a : Bool) = true → (!a.isEmpty) = true) := by
        rw [p_uhf_iseither]
        cases a.isEmpty <;> simp
      rw [countLive, countNonEmpty] at this
      cases hb : (!p_uhf_iseither a : Bool)
      · cases hb2 : (!a.isEmpty : Bool) <;> simp <;> omega
      · rw [hmono hb]
        simp
        omega

/-- Every 32-bit request rounds to a representable power-of-two capacity. -/
theorem p_resize_size_bounded (n : Nat) (hn : n ≤ 2 ^ 31) :
    ∃ M, 2 ≤ M ∧ M ≤ 31 ∧ p_resize_size n = 2 ^ M := by
  rcases Nat.eq_zero_or_pos n with h0 | hp
  · subst h0
    exact ⟨2, by omega, by omega, by decide⟩
  · obtain ⟨j, hj, hle, hlt⟩ := ulib_uint_next_power_2_spec n hp
    by_cases h4 : 2 ^ j < 4
    · refine ⟨2, le_refl 2, by omega, ?_⟩
      rw [p_resize_size, hj, if_pos h4]
      rfl
    · have hj2 : 2 ≤ j := by
        by_contra hc
        push_neg at hc
        have hle2 : 2 ^ j ≤ 2 ^ 1 := Nat.pow_le_pow_right (by omega) (by omega)
        omega
      have hj31 : j ≤ 31 := by
        by_contra hc
        push_neg at hc
        have h1 : (2 : Nat) ^ 32 ≤ 2 ^ j := Nat.pow_le_pow_right (by omega) (by omega)
        have h2 : (2 : Nat) ^ 32 = 2 * 2 ^ 31 := by rw [pow_succ]; ring
        omega
      refine ⟨j, hj2, hj31, ?_⟩
      rw [p_resize_size, hj, if_neg h4]

/-- Well-formedness of an all-empty table of any representable capacity. -/
theorem fresh_table_wf (hash : Nat → Nat) (M : Nat) (hM2 : 2 ≤ M) (hM31 : M ≤ 31)
    (vs : Option (List Nat)) (hvs : vs = none ∨ vs = some (List.replicate (2 ^ M) 0)) :
    WfAt hash M ⟨2 ^ M, 0, 0, List.replicate (2 ^ M) flagEmpty,
      List.replicate (2 ^ M) 0, vs⟩ := by
  refine ⟨hM2, hM31, rfl, by simp, by simp, ?_, ?_, ?_, ?_, ?_⟩
  · intro vl hvl
    rcases hvs with hv | hv
    · rw [hv] at hvl
      cases hvl
    · rw [hv] at hvl
      have hvl' : some (List.replicate (2 ^ M) 0) = some vl := hvl
      injection hvl' with hvl''
      rw [← hvl'']
      simp
  · show (0 : Nat) = countLive (List.replicate (2 ^ M) flagEmpty)
    rw [countLive_replicate]
  · show (0 : Nat) = countNonEmpty (List.replicate (2 ^ M) flagEmpty)
    rw [countNonEmpty_replicate]
  · intro i j hi hj hli
    rw [fget_replicate] at hli
    exact absurd hli (by decide)
  · intro b hb hlb
    rw [fget_replicate] at hlb
    exact absurd hlb (by decide)

/-- `uhash_resize` on a freshly constructed set allocates an all-empty table
of the rounded capacity (no value storage). -/
theorem uhash_resize_uhset (hash : Nat → Nat) (n M : Nat)
    (hM : p_resize_size n = 2 ^ M) (hM2 : 2 ≤ M) :
    uhash_resize hash uhset n =
      some ⟨2 ^ M, 0, 0, List.replicate (2 ^ M) flagEmpty,
        List.replicate (2 ^ M) 0, none⟩ := by
  have h4M : 4 ≤ 2 ^ M := by
    calc 4 = 2 ^ 2 := rfl
    _ ≤ 2 ^ M := Nat.pow_le_pow_right (by omega) hM2
  have hub : 0 < p_uhash_upper_bound (2 ^ M) := by
    rw [p_uhash_upper_bound]
    omega
  have hMpos := two_pow_pos M
  simp only [uhash_resize, uhset, uhash_is_map]
  rw [hM]
  rw [if_neg (show ¬ (p_uhash_upper_bound (2 ^ M) ≤ 0) by omega)]
  simp [hMpos, p_rehash]

/-- `uhash_resize` on a freshly constructed (sentinel) map allocates an
all-empty table of the rounded capacity together with its value storage. -/
theorem uhash_resize_uhmap (hash : Nat → Nat) (n M : Nat)
    (hM : p_resize_size n = 2 ^ M) (hM2 : 2 ≤ M) :
    uhash_resize hash uhmap n =
      some ⟨2 ^ M, 0, 0, List.replicate (2 ^ M) flagEmpty,
        List.replicate (2 ^ M) 0, some (List.replicate (2 ^ M) 0)⟩ := by
  have h4M : 4 ≤ 2 ^ M := by
    calc 4 = 2 ^ 2 := rfl
    _ ≤ 2 ^ M := Nat.pow_le_pow_right (by omega) hM2
  have hub : 0 < p_uhash_upper_bound (2 ^ M) := by
    rw [p_uhash_upper_bound]
    omega
  have hMpos := two_pow_pos M
  simp only [uhash_resize, uhmap, uhset, uhash_is_map]
  rw [hM]
  rw [if_neg (show ¬ (p_uhash_upper_bound (2 ^ M) ≤ 0) by omega)]
  simp [hMpos, p_rehash]

/-- The probe-and-write phase of `uhash_put` (no resize pending) keeps the
counter invariants `count ≤ occupied ≤ upper_bound(size)`. -/
theorem uhash_put_phase_ok (hash : Nat → Nat) (m : Nat) (h2 : UHash) (key : Nat)
    (hw2 : WfAt hash m h2)
    (hocc2 : p_uhash_occupied h2 < p_uhash_upper_bound h2.size)
    (hc1 : h2.count ≤ h2.occupied) :
    ∃ ret h1 x, uhash_put hash h2 key = some (ret, h1, x) ∧
      WfAt hash m h1 ∧ h1.count ≤ h1.occupied ∧
      h1.occupied ≤ p_uhash_upper_bound h1.size := by
  have hoccv : p_uhash_occupied h2 = h2.occupied := by
    rw [p_uhash_occupied, if_neg]
    rw [hw2.hocc, hw2.hsize]
    have := countNonEmpty_le_length h2.flags
    rw [hw2.hflen] at this
    omega
  rw [hoccv] at hocc2
  by_cases hpres : ∃ b, b < h2.size ∧ p_uhf_iseither (fget h2.flags b) = false ∧
      kget h2.keys b = key
  · obtain ⟨b, hb, hbl, hbk⟩ := hpres
    exact ⟨.UHASH_PRESENT, h2, b,
      uhash_put_present hash m h2 key b hw2 (by omega) hb hbl hbk, hw2, hc1, by omega⟩
  · push_neg at hpres
    obtain ⟨x, h1, hput, hx, hsz1, hcnt1, hvals1, hkeys1, hflags1, hocc1, hw1⟩ :=
      uhash_put_inserted hash m h2 key hw2 (by omega) hpres
    have hxflen : x < h2.flags.length := by rw [hw2.hflen, ← hw2.hsize]; exact hx
    refine ⟨.UHASH_INSERTED, h1, x, hput, hw1, ?_, ?_⟩
    · -- count ≤ occupied is maintained by both insertion branches
      by_cases hemp : (fget h2.flags x).isEmpty = true
      · rw [hocc1, if_pos hemp, hcnt1]
        omega
      · -- inserting into a tombstone: the live count was strictly smaller
        have hxdead : p_uhf_iseither (fget h2.flags x) = true := by
          by_contra hc
          have hlx : p_uhf_iseither (fget h2.flags x) = false := Bool.of_not_eq_true hc
          have hcL := countLive_set h2.flags x (⟨false, false⟩ : Flag) hxflen
          rw [hlx] at hcL
          have hlive' : p_uhf_iseither (⟨false, false⟩ : Flag) = false := rfl
          rw [hlive'] at hcL
          have hc1' : h1.count = countLive h1.flags := hw1.hcount
          rw [hflags1] at hc1'
          rw [hw2.hcount] at hcnt1
          omega
        have hxdel : (fget h2.flags x).isDel = true := by
          rw [p_uhf_iseither] at hxdead
          cases hd : (fget h2.flags x).isDel
          · rw [hd, Bool.or_false] at hxdead
            rw [hxdead] at hemp
            exact absurd rfl hemp
          · rfl
        have hemp' : (fget h2.flags x).isEmpty = false := by
          cases he : (fget h2.flags x).isEmpty
          · rfl
          · exact absurd he hemp
        have hlt := countLive_lt_countNonEmpty h2.flags x hxflen hemp' hxdel
        rw [← hw2.hcount, ← hw2.hocc] at hlt
        rw [hocc1, if_neg hemp, hcnt1]
        omega
    · have hole : h1.occupied ≤ h2.occupied + 1 := by
        rw [hocc1]
        split <;> omega
      rw [hsz1]
      omega

/-- After a successful resize step inside `uhash_put` (shrink branch), the
put proceeds exactly as a put on the resized table. -/
theorem uhash_put_after_shrink (hash : Nat → Nat) (h h2 : UHash) (key : Nat)
    (hload : p_uhash_upper_bound h.size ≤ p_uhash_occupied h)
    (hsh : 2 * h.count < h.size)
    (hres : uhash_resize hash h (h.size - 1) = some h2)
    (hocc2 : p_uhash_occupied h2 < p_uhash_upper_bound h2.size) :
    uhash_put hash h key = uhash_put hash h2 key := by
  rw [uhash_put, uhash_put, if_pos hload, if_pos hsh, hres, Option.some_bind,
    if_neg (by omega), Option.some_bind]

/-- `uhash_put` on a well-formed table keeps the counter invariants, provided
the table is not already a maximum-capacity table at its load bound. -/
theorem uhash_put_ok (hash : Nat → Nat) (m : Nat) (h : UHash) (key : Nat)
    (hw : WfAt hash m h) (hc1 : h.count ≤ h.occupied)
    (hc2 : h.occupied ≤ p_uhash_upper_bound h.size)
    (hgate : h.size = 2 ^ 31 → p_uhash_occupied h < p_uhash_upper_bound h.size) :
    ∃ ret h1 x m1, uhash_put hash h key = some (ret, h1, x) ∧
      WfAt hash m1 h1 ∧ h1.count ≤ h1.occupied ∧
      h1.occupied ≤ p_uhash_upper_bound h1.size := by
  have h4m : 4 ≤ 2 ^ m := by
    calc 4 = 2 ^ 2 := rfl
    _ ≤ 2 ^ m := Nat.pow_le_pow_right (by omega) hw.hm
  have hoccv : p_uhash_occupied h = h.occupied := by
    rw [p_uhash_occupied, if_neg]
    rw [hw.hocc, hw.hsize]
    have := countNonEmpty_le_length h.flags
    rw [hw.hflen] at this
    omega
  have hcle : h.count ≤ 2 ^ m := by
    rw [hw.hcount]
    have h1 := countLive_le_countNonEmpty h.flags
    have h2 := countNonEmpty_le_length h.flags
    rw [hw.hflen] at h2
    omega
  by_cases hload : p_uhash_upper_bound h.size ≤ p_uhash_occupied h
  · by_cases hshr : 2 * h.count < h.size
    · -- shrink request (same rounded capacity, purging tombstones)
      have hM : p_resize_size (h.size - 1) = 2 ^ m := by
        rw [hw.hsize]
        exact p_resize_size_pred m hw.hm
      have hfit : h.count < p_uhash_upper_bound (2 ^ m) := by
        rw [hw.hsize] at hshr
        rw [p_uhash_upper_bound]
        omega
      obtain ⟨h2, hres, hw2, hsz2, hcnt2, hocc2, _, _, _, _⟩ :=
        uhash_resize_spec hash m m h (h.size - 1) hw hM hw.hm hw.hm31 hfit
      have hocc2v : p_uhash_occupied h2 < p_uhash_upper_bound h2.size := by
        have hov : p_uhash_occupied h2 = h2.occupied := by
          rw [p_uhash_occupied, if_neg]
          rw [hw2.hocc, hsz2]
          have := countNonEmpty_le_length h2.flags
          rw [hw2.hflen] at this
          omega
        rw [hov, hocc2, hsz2]
        exact hfit
      rw [uhash_put_after_shrink hash h h2 key hload hshr hres hocc2v]
      obtain ⟨ret, h1, x, hput, hw1, hi1, hi2⟩ :=
        uhash_put_phase_ok hash m h2 key hw2 hocc2v (by rw [hocc2, hcnt2])
      exact ⟨ret, h1, x, m, hput, hw1, hi1, hi2⟩
    · -- grow request (capacity doubles)
      have hm30 : m ≤ 30 := by
        by_contra hc
        push_neg at hc
        have hm31 : m = 31 := by have := hw.hm31; omega
        have := hgate (by rw [hw.hsize, hm31])
        omega
      have hM : p_resize_size (h.size + 1) = 2 ^ (m + 1) := by
        rw [hw.hsize]
        exact p_resize_size_succ m hw.hm
      have hfit : h.count < p_uhash_upper_bound (2 ^ (m + 1)) := by
        have hm1 : (2 : Nat) ^ (m + 1) = 2 * 2 ^ m := by rw [pow_succ]; ring
        rw [p_uhash_upper_bound, hm1]
        omega
      obtain ⟨h2, hres, hw2, hsz2, hcnt2, hocc2, _, _, _, _⟩ :=
        uhash_resize_spec hash m (m + 1) h (h.size + 1) hw hM
          (by have := hw.hm; omega) (by omega) hfit
      have hocc2v : p_uhash_occupied h2 < p_uhash_upper_bound h2.size := by
        have hov : p_uhash_occupied h2 = h2.occupied := by
          rw [p_uhash_occupied, if_neg]
          rw [hw2.hocc, hsz2]
          have := countNonEmpty_le_length h2.flags
          rw [hw2.hflen] at this
          omega
        rw [hov, hocc2, hsz2]
        exact hfit
      rw [uhash_put_after_grow hash h h2 key hload (by omega) hres hocc2v]
      obtain ⟨ret, h1, x, hput, hw1, hi1, hi2⟩ :=
        uhash_put_phase_ok hash (m + 1) h2 key hw2 hocc2v (by rw [hocc2, hcnt2])
      exact ⟨ret, h1, x, m + 1, hput, hw1, hi1, hi2⟩
  · obtain ⟨ret, h1, x, hput, hw1, hi1, hi2⟩ :=
      uhash_put_phase_ok hash m h key hw (by omega) hc1
    exact ⟨ret, h1, x, m, hput, hw1, hi1, hi2⟩

/-- The first `uhash_put` on a freshly constructed set or map allocates the
minimum-capacity table and inserts into it, establishing the invariants. -/
theorem uhash_put_fresh_ok (hash : Nat → Nat) (h0 : UHash) (key : Nat)
    (hfresh : h0 = uhset ∨ h0 = uhmap) :
    ∃ ret h1 x, uhash_put hash h0 key = some (ret, h1, x) ∧
      ∃ m1, WfAt hash m1 h1 ∧ h1.count ≤ h1.occupied ∧
        h1.occupied ≤ p_uhash_upper_bound h1.size := by
  rcases hfresh with rfl | rfl
  · have hres := uhash_resize_uhset hash 1 2 (by decide) (by omega)
    have hwF := fresh_table_wf hash 2 (by omega) (by omega) none (Or.inl rfl)
    have hoccF : p_uhash_occupied
        (⟨2 ^ 2, 0, 0, List.replicate (2 ^ 2) flagEmpty, List.replicate (2 ^ 2) 0,
          none⟩ : UHash)
        < p_uhash_upper_bound
          (⟨2 ^ 2, 0, 0, List.replicate (2 ^ 2) flagEmpty, List.replicate (2 ^ 2) 0,
            none⟩ : UHash).size := by decide
    rw [uhash_put_after_grow hash uhset
      ⟨2 ^ 2, 0, 0, List.replicate (2 ^ 2) flagEmpty, List.replicate (2 ^ 2) 0, none⟩
      key (by decide) (by decide) hres hoccF]
    obtain ⟨ret, h1, x, hput, hw1, hi1, hi2⟩ :=
      uhash_put_phase_ok hash 2 _ key hwF hoccF (by decide)
    exact ⟨ret, h1, x, hput, 2, hw1, hi1, hi2⟩
  · have hres := uhash_resize_uhmap hash 1 2 (by decide) (by omega)
    have hwF := fresh_table_wf hash 2 (by omega) (by omega)
      (some (List.replicate (2 ^ 2) 0)) (Or.inr rfl)
    have hoccF : p_uhash_occupied
        (⟨2 ^ 2, 0, 0, List.replicate (2 ^ 2) flagEmpty, List.replicate (2 ^ 2) 0,
          some (List.replicate (2 ^ 2) 0)⟩ : UHash)
        < p_uhash_upper_bound
          (⟨2 ^ 2, 0, 0, List.replicate (2 ^ 2) flagEmpty, List.replicate (2 ^ 2) 0,
            some (List.replicate (2 ^ 2) 0)⟩ : UHash).size := by decide
    rw [uhash_put_after_grow hash uhmap
      ⟨2 ^ 2, 0, 0, List.replicate (2 ^ 2) flagEmpty, List.replicate (2 ^ 2) 0,
        some (List.replicate (2 ^ 2) 0)⟩
      key (by decide) (by decide) hres hoccF]
    obtain ⟨ret, h1, x, hput, hw1, hi1, hi2⟩ :=
      uhash_put_phase_ok hash 2 _ key hwF hoccF (by decide)
    exact ⟨ret, h1, x, hput, 2, hw1, hi1, hi2⟩

/-- Tables reachable from a freshly constructed set or map by the public
mutating operations.  The `put`/`mset` steps carry the claim C3 carve-out
(the table is not already a maximum-capacity table at its load bound) and
`resize` requests are 32-bit representable. -/
inductive Reachable (hash : Nat → Nat) : UHash → Prop where
  | set : Reachable hash uhset
  | map : Reachable hash uhmap
  | put : ∀ h key ret h' x, Reachable hash h →
      (h.size = 2 ^ 31 → p_uhash_occupied h < p_uhash_upper_bound h.size) →
      uhash_put hash h key = some (ret, h', x) → Reachable hash h'
  | del : ∀ h x, Reachable hash h → Reachable hash (uhash_delete h x)
  | mset : ∀ h key value ret h' ex, Reachable hash h →
      (h.size = 2 ^ 31 → p_uhash_occupied h < p_uhash_upper_bound h.size) →
      uhmap_set hash h key value = some (ret, h', ex) → Reachable hash h'
  | resize : ∀ h n h', Reachable hash h → n ≤ 2 ^ 31 →
      uhash_resize hash h n = some h' → Reachable hash h'
  | clear : ∀ h, Reachable hash h → Reachable hash (uhash_clear h)

/-- Every reachable table is a fresh sentinel or a well-formed table with
`count ≤ occupied ≤ upper_bound(capacity)`. -/
theorem reachable_ok (hash : Nat → Nat) (h : UHash) (hr : Reachable hash h) :
    h = uhset ∨ h = uhmap ∨ ∃ m, WfAt hash m h ∧ h.count ≤ h.occupied ∧
      h.occupied ≤ p_uhash_upper_bound h.size := by
  induction hr with
  | set => exact Or.inl rfl
  | map => exact Or.inr (Or.inl rfl)
  | put h key ret h' x hr hgate hput ih =>
    rcases ih with rfl | rfl | ⟨m, hw, hc1, hc2⟩
    · obtain ⟨ret1, h1, x1, hput1, m1, hw1, hi1, hi2⟩ :=
        uhash_put_fresh_ok hash uhset key (Or.inl rfl)
      rw [hput1] at hput
      injection hput with htup
      injection htup with hret hrest
      injection hrest with hh hx
      rw [← hh]
      exact Or.inr (Or.inr ⟨m1, hw1, hi1, hi2⟩)
    · obtain ⟨ret1, h1, x1, hput1, m1, hw1, hi1, hi2⟩ :=
        uhash_put_fresh_ok hash uhmap key (Or.inr rfl)
      rw [hput1] at hput
      injection hput with htup
      injection htup with hret hrest
      injection hrest with hh hx
      rw [← hh]
      exact Or.inr (Or.inr ⟨m1, hw1, hi1, hi2⟩)
    · obtain ⟨ret1, h1, x1, m1, hput1, hw1, hi1, hi2⟩ :=
        uhash_put_ok hash m h key hw hc1 hc2 hgate
      rw [hput1] at hput
      injection hput with htup
      injection htup with hret hrest
      injection hrest with hh hx
      rw [← hh]
      exact Or.inr (Or.inr ⟨m1, hw1, hi1, hi2⟩)
  | del h x hr ih =>
    rcases ih with rfl | rfl | ⟨m, hw, hc1, hc2⟩
    · rw [uhash_delete_noop uhset x (by rw [fget_oob _ _ (by simp [uhset])]; rfl)]
      exact Or.inl rfl
    · rw [uhash_delete_noop uhmap x (by rw [fget_oob _ _ (by simp [uhmap, uhset])]; rfl)]
      exact Or.inr (Or.inl rfl)
    · by_cases hdead : p_uhf_iseither (fget h.flags x) = true
      · rw [uhash_delete_noop h x hdead]
        exact Or.inr (Or.inr ⟨m, hw, hc1, hc2⟩)
      · have hlive : p_uhf_iseither (fget h.flags x) = false := Bool.of_not_eq_true hdead
        have hx : x < h.size := by
          by_contra hc
          push_neg at hc
          rw [fget_oob h.flags x (by rw [hw.hflen, ← hw.hsize]; exact hc)] at hlive
          exact absurd hlive (by decide)
        refine Or.inr (Or.inr ⟨m, uhash_delete_wf hash m h x hw hx hlive, ?_, ?_⟩)
        · rw [uhash_delete_live h x hlive]
          show h.count - 1 ≤ h.occupied
          omega
        · rw [uhash_delete_live h x hlive]
          show h.occupied ≤ p_uhash_upper_bound h.size
          exact hc2
  | mset h key value ret h' ex hr hgate hset ih =>
    have hput_ok : ∃ ret1 h1 x1, uhash_put hash h key = some (ret1, h1, x1) ∧
        ∃ m1, WfAt hash m1 h1 ∧ h1.count ≤ h1.occupied ∧
          h1.occupied ≤ p_uhash_upper_bound h1.size := by
      rcases ih with rfl | rfl | ⟨m, hw, hc1, hc2⟩
      · exact uhash_put_fresh_ok hash uhset key (Or.inl rfl)
      · exact uhash_put_fresh_ok hash uhmap key (Or.inr rfl)
      · obtain ⟨ret1, h1, x1, m1, hput1, hw1, hi1, hi2⟩ :=
          uhash_put_ok hash m h key hw hc1 hc2 hgate
        exact ⟨ret1, h1, x1, hput1, m1, hw1, hi1, hi2⟩
    obtain ⟨ret1, h1, x1, hput1, m1, hw1, hi1, hi2⟩ := hput_ok
    have hset1 := uhmap_set_eq hash h key value ret1 h1 x1 hput1
    rw [hset1] at hset
    injection hset with htup
    injection htup with hret hrest
    injection hrest with hh hex
    rw [← hh]
    refine Or.inr (Or.inr ⟨m1, WfAt_vset hash m1 h1 x1 value hw1, ?_, ?_⟩)
    · show h1.count ≤ h1.occupied
      exact hi1
    · show h1.occupied ≤ p_uhash_upper_bound h1.size
      exact hi2
  | resize h n h' hr hn hres ih =>
    obtain ⟨M, hM2, hM31, hM⟩ := p_resize_size_bounded n hn
    rcases ih with rfl | rfl | ⟨m, hw, hc1, hc2⟩
    · rw [uhash_resize_uhset hash n M hM hM2] at hres
      injection hres with hh
      rw [← hh]
      refine Or.inr (Or.inr ⟨M, fresh_table_wf hash M hM2 hM31 none (Or.inl rfl),
        by show (0 : Nat) ≤ 0; omega,
        by show (0 : Nat) ≤ p_uhash_upper_bound (2 ^ M); omega⟩)
    · rw [uhash_resize_uhmap hash n M hM hM2] at hres
      injection hres with hh
      rw [← hh]
      refine Or.inr (Or.inr ⟨M, fresh_table_wf hash M hM2 hM31
        (some (List.replicate (2 ^ M) 0)) (Or.inr rfl),
        by show (0 : Nat) ≤ 0; omega,
        by show (0 : Nat) ≤ p_uhash_upper_bound (2 ^ M); omega⟩)
    · by_cases hfit : h.count < p_uhash_upper_bound (2 ^ M)
      · obtain ⟨h2, hres2, hw2, hsz2, hcnt2, hocc2, _, _, _, _⟩ :=
          uhash_resize_spec hash m M h n hw hM hM2 hM31 hfit
        rw [hres2] at hres
        injection hres with hh
        rw [← hh]
        refine Or.inr (Or.inr ⟨M, hw2, by omega, ?_⟩)
        rw [hocc2, hsz2]
        omega
      · have hnop : uhash_resize hash h n = some h := by
          simp only [uhash_resize]
          rw [hM, if_pos (by omega)]
        rw [hnop] at hres
        injection hres with hh
        rw [← hh]
        exact Or.inr (Or.inr ⟨m, hw, hc1, hc2⟩)
  | clear h hr ih =>
    rcases ih with rfl | rfl | ⟨m, hw, hc1, hc2⟩
    · rw [uhash_clear, if_pos (by decide)]
      exact Or.inl rfl
    · rw [uhash_clear, if_pos (by decide)]
      exact Or.inr (Or.inl rfl)
    · rw [uhash_clear]
      by_cases hz : p_uhash_occupied h = 0
      · rw [if_pos hz]
        exact Or.inr (Or.inr ⟨m, hw, hc1, hc2⟩)
      · rw [if_neg hz]
        refine Or.inr (Or.inr ⟨m, ?_,
          by show (0 : Nat) ≤ 0; omega,
          by show (0 : Nat) ≤ p_uhash_upper_bound h.size; omega⟩)
        refine ⟨hw.hm, hw.hm31, hw.hsize, ?_, hw.hklen, hw.hvlen, ?_, ?_, ?_, ?_⟩
        · show (List.replicate h.size flagEmpty).length = 2 ^ m
          rw [List.length_replicate, hw.hsize]
        · show (0 : Nat) = countLive (List.replicate h.size flagEmpty)
          rw [countLive_replicate]
        · show (0 : Nat) = countNonEmpty (List.replicate h.size flagEmpty)
          rw [countNonEmpty_replicate]
        · intro i j hi hj hli
          rw [fget_replicate] at hli
          exact absurd hli (by decide)
        · intro b hb hlb
          rw [fget_replicate] at hlb
          exact absurd hlb (by decide)

/-- C3 (amended): on every table reachable from a fresh set or map by the
public operations, the live count never exceeds the integer load-factor
upper bound `⌊0.77 * capacity + 0.5⌋` used by the code, and an allocated
table is never full (`count < capacity`); the literally claimed strict bound
`count < capacity * 0.77` fails on reachable tables (see the separate
counterexample), because an insertion only triggers the resize once
`occupied` has already reached the rounded bound. -/
theorem C3_load_factor_bound (hash : Nat → Nat) (h : UHash)
    (hr : Reachable hash h) :
    h.count ≤ p_uhash_upper_bound h.size ∧ (h.size ≠ 0 → h.count < h.size) := by
  rcases reachable_ok hash h hr with rfl | rfl | ⟨m, hw, hc1, hc2⟩
  · exact ⟨by decide, fun hc => absurd rfl hc⟩
  · exact ⟨by decide, fun hc => absurd rfl hc⟩
  · have h4m : 4 ≤ 2 ^ m := by
      calc 4 = 2 ^ 2 := rfl
      _ ≤ 2 ^ m := Nat.pow_le_pow_right (by omega) hw.hm
    have hub := upper_bound_lt_self h.size (by rw [hw.hsize]; omega)
    exact ⟨by omega, fun _ => by omega⟩

/-- Witness for `C3_load_factor_bound`: the capacity-4 set reached by one
`uhash_put` of key 0 into a fresh set. -/
theorem C3_witness :
    (⟨4, 1, 1, [⟨false, false⟩, ⟨true, false⟩, ⟨true, false⟩, ⟨true, false⟩],
      [0, 0, 0, 0], none⟩ : UHash).count ≤
      p_uhash_upper_bound
        (⟨4, 1, 1, [⟨false, false⟩, ⟨true, false⟩, ⟨true, false⟩, ⟨true, false⟩],
          [0, 0, 0, 0], none⟩ : UHash).size ∧
    ((⟨4, 1, 1, [⟨false, false⟩, ⟨true, false⟩, ⟨true, false⟩, ⟨true, false⟩],
        [0, 0, 0, 0], none⟩ : UHash).size ≠ 0 →
      (⟨4, 1, 1, [⟨false, false⟩, ⟨true, false⟩, ⟨true, false⟩, ⟨true, false⟩],
        [0, 0, 0, 0], none⟩ : UHash).count <
      (⟨4, 1, 1, [⟨false, false⟩, ⟨true, false⟩, ⟨true, false⟩, ⟨true, false⟩],
        [0, 0, 0, 0], none⟩ : UHash).size) :=
  C3_load_factor_bound id
    ⟨4, 1, 1, [⟨false, false⟩, ⟨true, false⟩, ⟨true, false⟩, ⟨true, false⟩],
      [0, 0, 0, 0], none⟩
    (Reachable.put uhset 0 .UHASH_INSERTED
      ⟨4, 1, 1, [⟨false, false⟩, ⟨true, false⟩, ⟨true, false⟩, ⟨true, false⟩],
        [0, 0, 0, 0], none⟩ 0
      Reachable.set (by decide) (by decide))

/-- C8 (amended): on every table reachable from a fresh set or map,
`count ≤ p_uhash_occupied(h) ≤ capacity`, where `p_uhash_occupied` is the
accessor the code itself uses (mapping the fresh-map sentinel
`_occupied = 1, _size = 0` to 0); the raw field chain fails on the fresh map
(see the separate counterexample). -/
theorem C8_counter_ordering (hash : Nat → Nat) (h : UHash) (hr : Reachable hash h) :
    h.count ≤ p_uhash_occupied h ∧ p_uhash_occupied h ≤ h.size := by
  rcases reachable_ok hash h hr with rfl | rfl | ⟨m, hw, hc1, hc2⟩
  · exact ⟨by decide, by decide⟩
  · exact ⟨by decide, by decide⟩
  · have hole : h.occupied ≤ h.size := by
      rw [hw.hocc, hw.hsize]
      have := countNonEmpty_le_length h.flags
      rw [hw.hflen] at this
      omega
    have hoccv : p_uhash_occupied h = h.occupied := by
      rw [p_uhash_occupied, if_neg]
      omega
    exact ⟨by omega, by omega⟩

/-- Witness for `C8_counter_ordering`: the freshly constructed, never
allocated empty map (the sentinel case the claim singles out). -/
theorem C8_witness :
    uhmap.count ≤ p_uhash_occupied uhmap ∧ p_uhash_occupied uhmap ≤ uhmap.size :=
  C8_counter_ordering id uhmap Reachable.map

/-- `uhash_put` of a key held by no live bucket returns INSERTED on every
well-formed table, including tables at the load-factor bound, where the put
first resizes (purging tombstones at unchanged capacity when more than half
the entries are tombstones, else doubling the capacity); only a
maximum-capacity table already at its bound is excluded (the 32-bit
carve-out). -/
theorem uhash_put_absent (hash : Nat → Nat) (m : Nat) (h : UHash) (key : Nat)
    (hw : WfAt hash m h)
    (hgate : h.size = 2 ^ 31 → p_uhash_occupied h < p_uhash_upper_bound h.size)
    (habs : ∀ b, b < h.size → p_uhf_iseither (fget h.flags b) = false →
      kget h.keys b ≠ key) :
    ∃ x' h', uhash_put hash h key = some (.UHASH_INSERTED, h', x') := by
  have h4m : 4 ≤ 2 ^ m := by
    calc 4 = 2 ^ 2 := rfl
    _ ≤ 2 ^ m := Nat.pow_le_pow_right (by omega) hw.hm
  have hoccv : p_uhash_occupied h = h.occupied := by
    rw [p_uhash_occupied, if_neg]
    rw [hw.hocc, hw.hsize]
    have := countNonEmpty_le_length h.flags
    rw [hw.hflen] at this
    omega
  have hcle : h.count ≤ 2 ^ m := by
    rw [hw.hcount]
    have h1 := countLive_le_countNonEmpty h.flags
    have h2 := countNonEmpty_le_length h.flags
    rw [hw.hflen] at h2
    omega
  by_cases hload : p_uhash_upper_bound h.size ≤ p_uhash_occupied h
  · by_cases hshr : 2 * h.count < h.size
    · -- shrink request: same rounded capacity, tombstones purged
      have hM : p_resize_size (h.size - 1) = 2 ^ m := by
        rw [hw.hsize]
        exact p_resize_size_pred m hw.hm
      have hfit : h.count < p_uhash_upper_bound (2 ^ m) := by
        rw [hw.hsize] at hshr
        rw [p_uhash_upper_bound]
        omega
      obtain ⟨h2, hres, hw2, hsz2, hcnt2, hocc2, _, _, hkv2, _⟩ :=
        uhash_resize_spec hash m m h (h.size - 1) hw hM hw.hm hw.hm31 hfit
      have hocc2v : p_uhash_occupied h2 < p_uhash_upper_bound h2.size := by
        have hov : p_uhash_occupied h2 = h2.occupied := by
          rw [p_uhash_occupied, if_neg]
          rw [hw2.hocc, hsz2]
          have := countNonEmpty_le_length h2.flags
          rw [hw2.hflen] at this
          omega
        rw [hov, hocc2, hsz2]
        exact hfit
      rw [uhash_put_after_shrink hash h h2 key hload hshr hres hocc2v]
      have habs2 : ∀ b, b < h2.size → p_uhf_iseither (fget h2.flags b) = false →
          kget h2.keys b ≠ key := by
        intro b hb hbl hbk
        obtain ⟨b0, hb0, hbl0, hbk0, _⟩ :=
          (hkv2 key (vget h2.vals b)).mpr ⟨b, hb, hbl, hbk, rfl⟩
        exact habs b0 hb0 hbl0 hbk0
      obtain ⟨x', h', hput, _⟩ := uhash_put_inserted hash m h2 key hw2 hocc2v habs2
      exact ⟨x', h', hput⟩
    · -- grow request: capacity doubles
      have hm30 : m ≤ 30 := by
        by_contra hc
        push_neg at hc
        have hm31 : m = 31 := by have := hw.hm31; omega
        have := hgate (by rw [hw.hsize, hm31])
        omega
      have hM : p_resize_size (h.size + 1) = 2 ^ (m + 1) := by
        rw [hw.hsize]
        exact p_resize_size_succ m hw.hm
      have hfit : h.count < p_uhash_upper_bound (2 ^ (m + 1)) := by
        have hm1 : (2 : Nat) ^ (m + 1) = 2 * 2 ^ m := by rw [pow_succ]; ring
        rw [p_uhash_upper_bound, hm1]
        omega
      obtain ⟨h2, hres, hw2, hsz2, hcnt2, hocc2, _, _, hkv2, _⟩ :=
        uhash_resize_spec hash m (m + 1) h (h.size + 1) hw hM
          (by have := hw.hm; omega) (by omega) hfit
      have hocc2v : p_uhash_occupied h2 < p_uhash_upper_bound h2.size := by
        have hov : p_uhash_occupied h2 = h2.occupied := by
          rw [p_uhash_occupied, if_neg]
          rw [hw2.hocc, hsz2]
          have := countNonEmpty_le_length h2.flags
          rw [hw2.hflen] at this
          omega
        rw [hov, hocc2, hsz2]
        exact hfit
      rw [uhash_put_after_grow hash h h2 key hload (by omega) hres hocc2v]
      have habs2 : ∀ b, b < h2.size → p_uhf_iseither (fget h2.flags b) = false →
          kget h2.keys b ≠ key := by
        intro b hb hbl hbk
        obtain ⟨b0, hb0, hbl0, hbk0, _⟩ :=
          (hkv2 key (vget h2.vals b)).mpr ⟨b, hb, hbl, hbk, rfl⟩
        exact habs b0 hb0 hbl0 hbk0
      obtain ⟨x', h', hput, _⟩ :=
        uhash_put_inserted hash (m + 1) h2 key hw2 hocc2v habs2
      exact ⟨x', h', hput⟩
  · obtain ⟨x', h', hput, _⟩ :=
      uhash_put_inserted hash m h key hw (by omega) habs
    exact ⟨x', h', hput⟩

/-- C5: deleting the bucket of a live key tombstones it and decrements
`_count` but not `_occupied` (leaving size, keys and values untouched and
every other bucket's flags unchanged); looking the key up afterwards answers
the missing sentinel; re-inserting it afterwards returns INSERTED, not
PRESENT — also when the table sits at its load bound and the put resizes
first; and deleting an empty or already-tombstoned bucket is a no-op. -/
theorem C5_delete_correct (hash : Nat → Nat) (m : Nat) (h : UHash) (x : Nat)
    (hw : WfAt hash m h) (hx : x < h.size)
    (hlive : p_uhf_iseither (fget h.flags x) = false)
    (hgate : h.size = 2 ^ 31 → p_uhash_occupied h < p_uhash_upper_bound h.size) :
    (uhash_delete h x).count = h.count - 1 ∧
    (uhash_delete h x).occupied = h.occupied ∧
    (uhash_delete h x).size = h.size ∧
    (uhash_delete h x).keys = h.keys ∧
    (uhash_delete h x).vals = h.vals ∧
    fget (uhash_delete h x).flags x = ⟨false, true⟩ ∧
    (∀ j, j ≠ x → fget (uhash_delete h x).flags j = fget h.flags j) ∧
    uhash_get hash (uhash_delete h x) (kget h.keys x) = some UHASH_INDEX_MISSING ∧
    (∃ x' h', uhash_put hash (uhash_delete h x) (kget h.keys x)
      = some (.UHASH_INSERTED, h', x')) ∧
    (∀ y, p_uhf_iseither (fget h.flags y) = true → uhash_delete h y = h) := by
  have hxlen : x < h.flags.length := by rw [hw.hflen, ← hw.hsize]; exact hx
  have hlv := (iseither_false_iff _).mp hlive
  have hdel := uhash_delete_live h x hlive
  refine ⟨by rw [hdel], by rw [hdel], by rw [hdel], by rw [hdel], by rw [hdel],
    ?_, ?_, uhash_delete_then_get hash m h x hw hx hlive, ?_, ?_⟩
  · rw [hdel]
    show fget (h.flags.set x ⟨(fget h.flags x).isEmpty, true⟩) x = ⟨false, true⟩
    rw [fget_set, if_pos ⟨rfl, hxlen⟩, hlv.1]
  · intro j hj
    rw [hdel]
    show fget (h.flags.set x ⟨(fget h.flags x).isEmpty, true⟩) j = fget h.flags j
    rw [fget_set, if_neg (by intro hc; exact hj hc.1.symm)]
  · have hwd := uhash_delete_wf hash m h x hw hx hlive
    have habs : ∀ b, b < (uhash_delete h x).size →
        p_uhf_iseither (fget (uhash_delete h x).flags b) = false →
        kget (uhash_delete h x).keys b ≠ kget h.keys x := by
      intro b hb hlb
      rw [hdel] at hb hlb ⊢
      simp only at hb hlb ⊢
      rw [fget_set] at hlb
      by_cases hbx : x = b ∧ x < h.flags.length
      · rw [if_pos hbx] at hlb
        rw [p_uhf_iseither] at hlb
        simp at hlb
      · rw [if_neg hbx] at hlb
        intro hkb
        have hbne : b ≠ x := fun hc => hbx ⟨hc.symm, hxlen⟩
        exact hbne (hw.huniq b x (hw.hsize ▸ hb) (hw.hsize ▸ hx) hlb hlive hkb)
    have hgate1 : (uhash_delete h x).size = 2 ^ 31 →
        p_uhash_occupied (uhash_delete h x)
          < p_uhash_upper_bound (uhash_delete h x).size := by
      rw [hdel]
      exact hgate
    exact uhash_put_absent hash m (uhash_delete h x) (kget h.keys x) hwd hgate1 habs
  · intro y hy
    exact uhash_delete_noop h y hy

/-- Witness for `C5_delete_correct`: deleting key 1 (bucket 1) from the
capacity-4 set `{0, 1}`. -/
theorem C5_witness :
    (uhash_delete
        ⟨4, 2, 2, [⟨false, false⟩, ⟨false, false⟩, ⟨true, false⟩, ⟨true, false⟩],
          [0, 1, 0, 0], none⟩ 1).count = 2 - 1 ∧
    (uhash_delete
        ⟨4, 2, 2, [⟨false, false⟩, ⟨false, false⟩, ⟨true, false⟩, ⟨true, false⟩],
          [0, 1, 0, 0], none⟩ 1).occupied = 2 ∧
    (uhash_delete
        ⟨4, 2, 2, [⟨false, false⟩, ⟨false, false⟩, ⟨true, false⟩, ⟨true, false⟩],
          [0, 1, 0, 0], none⟩ 1).size = 4 ∧
    (uhash_delete
        ⟨4, 2, 2, [⟨false, false⟩, ⟨false, false⟩, ⟨true, false⟩, ⟨true, false⟩],
          [0, 1, 0, 0], none⟩ 1).keys = [0, 1, 0, 0] ∧
    (uhash_delete
        ⟨4, 2, 2, [⟨false, false⟩, ⟨false, false⟩, ⟨true, false⟩, ⟨true, false⟩],
          [0, 1, 0, 0], none⟩ 1).vals = none ∧
    fget (uhash_delete
        ⟨4, 2, 2, [⟨false, false⟩, ⟨false, false⟩, ⟨true, false⟩, ⟨true, false⟩],
          [0, 1, 0, 0], none⟩ 1).flags 1 = ⟨false, true⟩ ∧
    (∀ j, j ≠ 1 → fget (uhash_delete
        ⟨4, 2, 2, [⟨false, false⟩, ⟨false, false⟩, ⟨true, false⟩, ⟨true, false⟩],
          [0, 1, 0, 0], none⟩ 1).flags j =
      fget [⟨false, false⟩, ⟨false, false⟩, ⟨true, false⟩, ⟨true, false⟩] j) ∧
    uhash_get id (uhash_delete
        ⟨4, 2, 2, [⟨false, false⟩, ⟨false, false⟩, ⟨true, false⟩, ⟨true, false⟩],
          [0, 1, 0, 0], none⟩ 1) (kget [0, 1, 0, 0] 1) = some UHASH_INDEX_MISSING ∧
    (∃ x' h', uhash_put id (uhash_delete
        ⟨4, 2, 2, [⟨false, false⟩, ⟨false, false⟩, ⟨true, false⟩, ⟨true, false⟩],
          [0, 1, 0, 0], none⟩ 1) (kget [0, 1, 0, 0] 1)
      = some (.UHASH_INSERTED, h', x')) ∧
    (∀ y, p_uhf_iseither
        (fget [⟨false, false⟩, ⟨false, false⟩, ⟨true, false⟩, ⟨true, false⟩] y)
        = true →
      uhash_delete
          ⟨4, 2, 2, [⟨false, false⟩, ⟨false, false⟩, ⟨true, false⟩, ⟨true, false⟩],
            [0, 1, 0, 0], none⟩ y =
        ⟨4, 2, 2, [⟨false, false⟩, ⟨false, false⟩, ⟨true, false⟩, ⟨true, false⟩],
          [0, 1, 0, 0], none⟩) :=
  C5_delete_correct id 2
    ⟨4, 2, 2, [⟨false, false⟩, ⟨false, false⟩, ⟨true, false⟩, ⟨true, false⟩],
      [0, 1, 0, 0], none⟩ 1
    (wfCheck_sound id 2 _ (by decide)) (by decide) (by decide) (by decide)

/-! ## Allocation-failure behaviour of the resize (towards C7) -/

/-- `uhash_resize_T` with an explicit allocation oracle `a : Nat → Bool`
(`a i` tells whether the `i`-th allocation in program order succeeds: 0 the
`new_flags` malloc, 1 the expansion `_keys` realloc, 2 the expansion `_vals`
realloc, 3 the shrink `_keys` realloc, 4 the shrink `_vals` realloc).  The
Boolean in the result records whether every array the table points to is
still a valid allocation holding the table's data: the C code checks the
first three allocations and aborts with `UHASH_ERR` (the expansion-`_vals`
failure path keeps the already-grown key array, with unchanged content), but
the two shrink reallocs assign `ulib_realloc`'s result directly to
`h->_keys` / `h->_vals` with no NULL check, so a failure there loses the
array while the function still returns `UHASH_OK`. -/
def uhash_resize_alloc (hash : Nat → Nat) (a : Nat → Bool) (h : UHash)
    (new_size0 : Nat) : Option (uhash_ret × UHash × Bool) :=
  let new_size := p_resize_size new_size0
  if p_uhash_upper_bound new_size ≤ h.count then some (.UHASH_OK, h, true)
  else if a 0 = false then some (.UHASH_ERR, h, true)
  else if h.size < new_size && !(a 1) then some (.UHASH_ERR, h, true)
  else if h.size < new_size && uhash_is_map h && !(a 2) then
    some (.UHASH_ERR,
      { h with keys := h.keys ++ List.replicate (new_size - h.keys.length) 0 }, true)
  else
    let keys1 := if h.size < new_size then
                   h.keys ++ List.replicate (new_size - h.keys.length) 0
                 else h.keys
    let vals1 := if h.size < new_size && uhash_is_map h then
                   some ((h.vals.getD []) ++
                         List.replicate (new_size - (h.vals.getD []).length) 0)
                 else h.vals
    match p_rehash hash (new_size - 1) h.size (List.range h.size)
        ⟨h.flags, List.replicate new_size flagEmpty, keys1, vals1⟩ with
    | none => none
    | some st =>
      if new_size < h.size then
        some (.UHASH_OK,
          { size := new_size, occupied := h.count, count := h.count,
            flags := st.nflags,
            keys := if a 3 then st.keys.take new_size else [],
            vals := if st.vals.isSome then
                      (if a 4 then st.vals.map (fun l => l.take new_size) else none)
                    else st.vals },
          a 3 && (!st.vals.isSome || a 4))
      else
        some (.UHASH_OK,
          { size := new_size, occupied := h.count, count := h.count,
            flags := st.nflags, keys := st.keys, vals := st.vals }, true)

/-- C7: allocation-failure atomicity fails in the code.  On a capacity-8 set
holding one key, a `uhash_resize` to capacity 4 whose shrink-path `_keys`
realloc fails still returns `UHASH_OK` (not ERROR) while the key array is no
longer a valid allocation holding the table's keys (the C code assigns the
NULL result of `ulib_realloc` straight to `h->_keys`), although the table
still claims one entry; by contrast a failure of the checked `new_flags`
allocation is handled exactly as the claim states (ERROR, table unchanged),
so the violation is specific to the unchecked shrink reallocs. -/
theorem C7_shrink_realloc_failure_not_atomic :
    (∃ r, uhash_resize_alloc id (fun i => decide (i ≠ 3))
        ⟨8, 1, 1, [⟨false, false⟩, ⟨true, false⟩, ⟨true, false⟩, ⟨true, false⟩,
          ⟨true, false⟩, ⟨true, false⟩, ⟨true, false⟩, ⟨true, false⟩],
          [0, 0, 0, 0, 0, 0, 0, 0], none⟩ 4 = some r ∧
      r.1 = .UHASH_OK ∧ r.2.2 = false ∧ r.2.1.keys = [] ∧ r.2.1.count = 1) ∧
    uhash_resize_alloc id (fun i => decide (i ≠ 0))
        ⟨8, 1, 1, [⟨false, false⟩, ⟨true, false⟩, ⟨true, false⟩, ⟨true, false⟩,
          ⟨true, false⟩, ⟨true, false⟩, ⟨true, false⟩, ⟨true, false⟩],
          [0, 0, 0, 0, 0, 0, 0, 0], none⟩ 4 =
      some (.UHASH_ERR,
        ⟨8, 1, 1, [⟨false, false⟩, ⟨true, false⟩, ⟨true, false⟩, ⟨true, false⟩,
          ⟨true, false⟩, ⟨true, false⟩, ⟨true, false⟩, ⟨true, false⟩],
          [0, 0, 0, 0, 0, 0, 0, 0], none⟩, true) := by
  refine ⟨⟨(.UHASH_OK,
    ⟨4, 1, 1, [⟨false, false⟩, ⟨true, false⟩, ⟨true, false⟩, ⟨true, false⟩],
      [], none⟩, false), by decide, by decide, by decide, by decide, by decide⟩,
    by decide⟩

/-! ## Concrete counterexamples (C3, C4, C8, C9) -/

/-- C3 counterexample: after inserting the 25 distinct keys `0..24` into a
fresh set, the table has `_count = 25` and `_size = 32`, and
`_count < _size * 0.77` (i.e. `100 * _count < 77 * _size`) is false, although
32 is far from the maximum representable power of two. -/
theorem C3_counterexample :
    (putList id uhset (List.range 25)).map (fun h => (h.size, h.count)) = some (32, 25) ∧
    ¬ (100 * 25 < 77 * 32) ∧ (32 : Nat) ≠ 2 ^ 31 := by
  refine ⟨by decide, by decide, by decide⟩

/-- C4 counterexample: in the capacity-4 set `{0, 1, 2}` the key 0 is live,
yet `uhash_put` of 0 returns PRESENT *after growing the table to capacity 8*
(the load-factor check runs before the probe), so capacity is not left
unchanged. -/
theorem C4_counterexample :
    ((putList id uhset [0, 1, 2]).map UHash.size = some 4) ∧
    (((putList id uhset [0, 1, 2]).bind (fun h => uhash_put id h 0)).map
        (fun r => (r.1, r.2.1.size)) = some (uhash_ret.UHASH_PRESENT, 8)) ∧
    (4 : Nat) ≠ 8 := by
  refine ⟨by decide, by decide, by decide⟩

/-- C8 counterexample: a freshly constructed, never-allocated empty map
carries the sentinel `_occupied = 1` with `_size = 0`, so the raw field chain
`count ≤ occupied ≤ capacity` fails on it. -/
theorem C8_counterexample :
    uhmap.count ≤ uhmap.occupied ∧ ¬ uhmap.occupied ≤ uhmap.size := by
  refine ⟨by decide, by decide⟩

/-- C9 counterexample: resizing the capacity-4 one-entry table with target
200 leaves capacity 256, and `256 * 0.77 < 200`, so the resulting capacity is
*not* the smallest power of two `≥ 200 / 0.77` (which would be 512). -/
theorem C9_counterexample :
    ((putList id uhset [0]).bind (fun h => uhash_resize id h 200)).map UHash.size = some 256 ∧
    77 * 256 < 200 * 100 := by
  refine ⟨by decide, by decide⟩

/-- C9, amended: the first resize rounds the *requested capacity* 200 up to
the next power of two, 256; the subsequent resize with target 100 succeeds
and leaves the strictly smaller capacity 128. -/
theorem C9_resize_capacity_arithmetic :
    ((putList id uhset [0]).map UHash.size = some 4) ∧
    (((putList id uhset [0]).bind (fun h => uhash_resize id h 200)).map UHash.size = some 256) ∧
    (ulib_uint_next_power_2 200 = 256 ∧ 128 < 200 ∧ 200 ≤ 256) ∧
    ((((putList id uhset [0]).bind (fun h => uhash_resize id h 200)).bind
        (fun h => uhash_resize id h 100)).map UHash.size = some 128) ∧
    128 < 256 := by
  refine ⟨by decide, by decide, by decide, by decide, by decide⟩

end ULib
